import Mathlib

/-!
# Triple-link clustering (`tripleLink.cpp`): a shallow embedding

The functions of `tripleLink.cpp` are embedded as executable Lean functions over an
explicit graph state.  Pointers to vertexes are handles (`vertex.id`), pointers to
edges are the (immutable) edge records themselves, told apart by `edge.id`.  The
containers `graph`, `vertex`, `edge` and the record `geneData` live in headers that
are not part of the sources at hand; they are modelled from the specification.

Every loop whose trip count depends on the mutated graph carries a step budget; a
run that exhausts it ends in `Fault.outOfFuel`, an indexed read past the end of a
list or through a dangling handle ends in `Fault.outOfRange`, and a `removeEdge`
on an edge that its endpoints do not own ends in `Fault.invariantViolation`.
-/

namespace TripleLink

/-! ## Data model -/

/-- Ways in which a run can fail to produce a result. -/
inductive Fault where
  | outOfRange
  | invariantViolation
  | outOfFuel
deriving DecidableEq, Repr

/-- Modelled from the spec: `geneData.hpp` is missing.  The gene record: its identity
(an index into the gene-name ordering) and the three transient link markers; the field
names are the ones `tripleLink.cpp` uses. -/
structure geneData where
  nameIndex : Nat
  threeSigmaLink : Bool
  twoSigmaLink : Bool
  oneSigmaLink : Bool
deriving DecidableEq, Repr

/-- Modelled from the spec: `edge.t.hpp` is missing.  An edge joins the vertexes with
handles `left` and `right` and carries a quantized weight; `id` stands for the address
of the edge object. -/
structure edge where
  id : Nat
  left : Nat
  right : Nat
  weight : Nat
deriving DecidableEq, Repr

/-- Modelled from the spec: `vertex.t.hpp` is missing.  A vertex wraps one gene record
and owns an ordered collection of references to its incident edges; `id` stands for the
address of the vertex object. -/
structure vertex where
  id : Nat
  value : geneData
  edges : List edge
deriving DecidableEq, Repr

/-- Modelled from the spec: `graph.t.hpp` is missing.  The graph owns the ordered vertex
and edge collections. -/
structure graph where
  vertexes : List vertex
  edges : List edge
deriving DecidableEq, Repr

/-- Modelled from the spec: the `config` declared in `auxillaryUtilities.hpp` lacks the two
fields `tripleLink` reads from its settings argument; they are the quantized-weight
equivalents of the three-sigma and two-sigma cutoffs. -/
structure config where
  threeSigmaAdj : Nat
  twoSigmaAdj : Nat
deriving DecidableEq, Repr

/-- Modelled from the spec: `edge::other` of the missing `edge.t.hpp`; the endpoint of
the edge that is not `v`. -/
def edge.other (e : edge) (v : Nat) : Nat :=
  if e.left = v then e.right else e.left

/-- Modelled from the spec: `getNumEdges()` of the missing `vertex.t.hpp`, the degree of a
vertex, the size of its edge collection. -/
def vertex.getNumEdges (v : vertex) : Nat := v.edges.length

/-- Modelled from the spec: `getNumVertexes()` of the missing `graph.t.hpp`. -/
def graph.getNumVertexes (g : graph) : Nat := g.vertexes.length

/-- Modelled from the spec: `getNumEdges()` of the missing `graph.t.hpp`. -/
def graph.getNumEdges (g : graph) : Nat := g.edges.length

/-- Dereference of a vertex handle: the live vertex with that handle, if any. -/
def graph.getVertex (g : graph) (vid : Nat) : Option vertex :=
  g.vertexes.find? (fun v => v.id == vid)

/-- Modelled from the spec: `getVertexForValue` of the missing `graph.t.hpp`; lookup of
a live vertex by the identity of its gene record, nothing if no live vertex holds it. -/
def graph.getVertexForValue (g : graph) (nameIndex : Nat) : Option vertex :=
  g.vertexes.find? (fun v => v.value.nameIndex == nameIndex)

/-- Does the live vertex with handle `vid` currently own the edge `e`? -/
def graph.owns (g : graph) (vid : Nat) (e : edge) : Bool :=
  match g.getVertex vid with
  | some v => decide (e ∈ v.edges)
  | none => false

/-- Detach the edge `e` from the edge collection of a vertex if it is an endpoint. -/
def vertex.detach (e : edge) (v : vertex) : vertex :=
  if v.id = e.left ∨ v.id = e.right then { v with edges := v.edges.filter (fun x => x ≠ e) }
  else v

/-- Modelled from the spec: `removeEdge` of the missing `graph.t.hpp`.  It fails with an
invariant violation if either endpoint does not currently own the edge; otherwise the edge
is detached from both endpoints' collections and released from the graph.  The relative
order of what stays is kept. -/
def graph.removeEdge (g : graph) (e : edge) : Except Fault graph :=
  if g.owns e.left e && g.owns e.right e then
    .ok { vertexes := g.vertexes.map (vertex.detach e),
          edges := g.edges.filter (fun x => x ≠ e) }
  else .error .invariantViolation

/-- Is the edge incident to the vertex with handle `vid`? -/
def edge.incident (vid : Nat) (e : edge) : Bool :=
  e.left == vid || e.right == vid

/-- Drop from a vertex's edge collection every edge incident to the handle `vid`. -/
def vertex.dropIncident (vid : Nat) (v : vertex) : vertex :=
  { v with edges := v.edges.filter (fun e => !e.incident vid) }

/-- Modelled from the spec: `removeVertex` of the missing `graph.t.hpp`.  A no-op if the
vertex is not a current member; otherwise every edge incident to it is removed first and
then the vertex itself.  The relative order of what stays is kept. -/
def graph.removeVertex (g : graph) (vid : Nat) : graph :=
  match g.getVertex vid with
  | none => g
  | some _ =>
    { vertexes := (g.vertexes.filter (fun v => v.id ≠ vid)).map (vertex.dropIncident vid),
      edges := g.edges.filter (fun e => !e.incident vid) }

/-- A store of a gene record through the vertex pointer `vid`, seen from one vertex. -/
def vertex.store (vid : Nat) (val : geneData) (v : vertex) : vertex :=
  if v.id = vid then { v with value := val } else v

/-- Write the gene record of the live vertex with handle `vid`. -/
def graph.setValue (g : graph) (vid : Nat) (val : geneData) : graph :=
  { g with vertexes := g.vertexes.map (vertex.store vid val) }

/-! ## Marking of one neighbour -/

/-- The function `markConnectedVertexSingle`: result, the neighbour's record after the
call, and the processing queue after the call. -/
def markConnectedVertexSingle (edgeWeight : Nat) (toMark : geneData) (high med : Nat)
    (toProcess : List Nat) : Bool × geneData × List Nat :=
  if toMark.threeSigmaLink then (true, toMark, toProcess)
  else
    let value :=
      if !toMark.threeSigmaLink && decide (edgeWeight ≥ high) then
        { toMark with threeSigmaLink := true }
      else if !toMark.twoSigmaLink && decide (edgeWeight ≥ med) then
        { toMark with twoSigmaLink := true }
      else if !toMark.oneSigmaLink then
        { toMark with oneSigmaLink := true }
      else toMark
    if value.threeSigmaLink then (true, value, toProcess ++ [value.nameIndex])
    else (false, value, toProcess)

/-- The function `markConnectedVertexDouble`. -/
def markConnectedVertexDouble (edgeWeight : Nat) (toMark : geneData) (high med : Nat)
    (toProcess : List Nat) : Bool × geneData × List Nat :=
  if toMark.threeSigmaLink && toMark.twoSigmaLink then (true, toMark, toProcess)
  else
    let value :=
      if !toMark.threeSigmaLink && decide (edgeWeight ≥ high) then
        { toMark with threeSigmaLink := true }
      else if !toMark.twoSigmaLink && decide (edgeWeight ≥ med) then
        { toMark with twoSigmaLink := true }
      else if !toMark.oneSigmaLink then
        { toMark with oneSigmaLink := true }
      else toMark
    if value.threeSigmaLink && value.twoSigmaLink then
      (true, value, toProcess ++ [value.nameIndex])
    else (false, value, toProcess)

/-- The function `markConnectedVertexTriple`. -/
def markConnectedVertexTriple (edgeWeight : Nat) (toMark : geneData) (high med : Nat)
    (toProcess : List Nat) : Bool × geneData × List Nat :=
  if toMark.threeSigmaLink && toMark.twoSigmaLink && toMark.oneSigmaLink then
    (true, toMark, toProcess)
  else
    let value :=
      if !toMark.threeSigmaLink && decide (edgeWeight ≥ high) then
        { toMark with threeSigmaLink := true }
      else if !toMark.twoSigmaLink && decide (edgeWeight ≥ med) then
        { toMark with twoSigmaLink := true }
      else if !toMark.oneSigmaLink then
        { toMark with oneSigmaLink := true }
      else toMark
    if value.threeSigmaLink && value.twoSigmaLink && value.oneSigmaLink then
      (true, value, toProcess ++ [value.nameIndex])
    else (false, value, toProcess)

/-! ## Expansion pass -/

/-- Type of the three marking functions. -/
abbrev MarkFn := Nat → geneData → Nat → Nat → List Nat → Bool × geneData × List Nat

/-- The `for` loop shared, word for word, by `markConnectedVertexesSingle`, `...Double`
and `...Triple`; `mark` is the marking function the loop calls, `i` the loop index.  After
a removal the body sets `i = 0` and the loop increment makes it `1`. -/
def markConnectedVertexesLoop (mark : MarkFn) (markFrom : Nat) (high med : Nat) :
    Nat → Nat → graph → List Nat → Except Fault (graph × List Nat)
  | 0, _, _, _ => .error .outOfFuel
  | fuel + 1, i, g, toProcessTo =>
    match g.getVertex markFrom with
    | none => .error .outOfRange
    | some mf =>
      if h : i < mf.getNumEdges then
        let e := mf.edges[i]
        match g.getVertex (e.other markFrom) with
        | none => .error .outOfRange
        | some toMark =>
          let r := mark e.weight toMark.value high med toProcessTo
          let g1 := g.setValue toMark.id r.2.1
          if r.1 then
            match g1.removeEdge e with
            | .error f => .error f
            | .ok g2 => markConnectedVertexesLoop mark markFrom high med fuel 1 g2 r.2.2
          else markConnectedVertexesLoop mark markFrom high med fuel (i + 1) g1 r.2.2
      else .ok (g, toProcessTo)

/-- Step budget of an expansion pass from the vertex with handle `markFrom`. -/
def passFuel (g : graph) (markFrom : Nat) : Nat :=
  match g.getVertex markFrom with
  | none => 1
  | some mf => mf.getNumEdges * mf.getNumEdges + mf.getNumEdges + 1

/-- The function `markConnectedVertexesSingle`. -/
def markConnectedVertexesSingle (markFrom : Nat) (high med : Nat) (g : graph)
    (toProcessTo : List Nat) : Except Fault (graph × List Nat) :=
  markConnectedVertexesLoop markConnectedVertexSingle markFrom high med
    (passFuel g markFrom) 0 g toProcessTo

/-- The function `markConnectedVertexesDouble`. -/
def markConnectedVertexesDouble (markFrom : Nat) (high med : Nat) (g : graph)
    (toProcessTo : List Nat) : Except Fault (graph × List Nat) :=
  markConnectedVertexesLoop markConnectedVertexDouble markFrom high med
    (passFuel g markFrom) 0 g toProcessTo

/-- The function `markConnectedVertexesTriple`. -/
def markConnectedVertexesTriple (markFrom : Nat) (high med : Nat) (g : graph)
    (toProcessTo : List Nat) : Except Fault (graph × List Nat) :=
  markConnectedVertexesLoop markConnectedVertexTriple markFrom high med
    (passFuel g markFrom) 0 g toProcessTo

/-- The function `untouchVertex`. -/
def untouchVertex (toReset : vertex) : vertex :=
  { toReset with
    value := { toReset.value with
      threeSigmaLink := false, twoSigmaLink := false, oneSigmaLink := false } }

/-! ## Weak-vertex pruning -/

/-- The inner `for` loop of `removeWeakVerticies` over the edges of `target` from index
`j` on; returns `(highFound, medFound)`. -/
def weakScan (high med : Nat) : List edge → Bool → Bool → Bool × Bool
  | [], highFound, medFound => (highFound, medFound)
  | e :: rest, highFound, medFound =>
    if !highFound || !medFound then
      if decide (e.weight ≥ high) && !highFound then weakScan high med rest true medFound
      else if e.weight ≥ med then weakScan high med rest highFound true
      else weakScan high med rest highFound medFound
    else (highFound, medFound)

/-- The test of `removeWeakVerticies` on one visited vertex: is it removed? -/
def isWeak (high med : Nat) (target : vertex) : Bool :=
  if 2 > target.getNumEdges then true
  else
    let r := weakScan high med target.edges false false
    !r.1 || !r.2

/-- The `for` loop over the vertex index `i` inside the `do`-`while` of
`removeWeakVerticies`; the flag is `disconnectedVerticiesFound`. -/
def removeWeakVerticiesPass (high med : Nat) :
    Nat → Nat → graph → Bool → Except Fault (graph × Bool)
  | 0, _, _, _ => .error .outOfFuel
  | fuel + 1, i, g, disconnectedVerticiesFound =>
    if h : i < g.getNumVertexes then
      let target := g.vertexes[i]
      if 2 > target.getNumEdges then
        removeWeakVerticiesPass high med fuel (i + 1) (g.removeVertex target.id) true
      else
        let r := weakScan high med target.edges false false
        if !r.1 || !r.2 then
          removeWeakVerticiesPass high med fuel (i + 1) (g.removeVertex target.id) true
        else
          removeWeakVerticiesPass high med fuel (i + 1) g disconnectedVerticiesFound
    else .ok (g, disconnectedVerticiesFound)

/-- One repetition of the body of the `do`-`while` of `removeWeakVerticies`. -/
def removeWeakVerticiesOnce (g : graph) (high med : Nat) : Except Fault (graph × Bool) :=
  removeWeakVerticiesPass high med (g.getNumVertexes + 1) 0 g false

/-- The `do`-`while` loop of `removeWeakVerticies`. -/
def removeWeakVerticiesLoop (high med : Nat) : Nat → graph → Except Fault graph
  | 0, _ => .error .outOfFuel
  | fuel + 1, g =>
    match removeWeakVerticiesOnce g high med with
    | .error f => .error f
    | .ok (g1, disconnectedVerticiesFound) =>
      if disconnectedVerticiesFound then removeWeakVerticiesLoop high med fuel g1
      else .ok g1

/-- The function `removeWeakVerticies`. -/
def removeWeakVerticies (g : graph) (high med : Nat) : Except Fault graph :=
  removeWeakVerticiesLoop high med (g.getNumVertexes + 1) g

/-! ## One clustering iteration -/

/-- The seed search of `tripleLinkIteration`: the `for` loop from index `i` over the
remaining edges, carrying `maxFoundValue` and `targetEdgeIndex`. -/
def strongestEdgeLoop : List edge → Nat → Nat → Nat → Nat
  | [], _, _, targetEdgeIndex => targetEdgeIndex
  | e :: rest, i, maxFoundValue, targetEdgeIndex =>
    if e.weight ≥ maxFoundValue then strongestEdgeLoop rest (i + 1) e.weight i
    else strongestEdgeLoop rest (i + 1) maxFoundValue targetEdgeIndex

/-- Index of the seed edge: edge `0` is read unconditionally, the loop starts at `1`. -/
def strongestEdgeIndex (edges : List edge) : Except Fault Nat :=
  match edges with
  | [] => .error .outOfRange
  | e0 :: rest => .ok (strongestEdgeLoop rest 1 e0.weight 0)

/-- The double-link `while` loop of `tripleLinkIteration` draining `toProcessPrimer`;
carries the graph, `toProcessMain` and `toReturn`. -/
def primerLoop (threeSigma twoSigma : Nat) :
    List Nat → graph → List Nat → List Nat → Except Fault (graph × List Nat × List Nat)
  | [], g, toProcessMain, toReturn => .ok (g, toProcessMain, toReturn)
  | front :: toProcessPrimer, g, toProcessMain, toReturn =>
    match g.getVertexForValue front with
    | none => primerLoop threeSigma twoSigma toProcessPrimer g toProcessMain toReturn
    | some connectedVertex =>
      match markConnectedVertexesDouble connectedVertex.id threeSigma twoSigma g
          toProcessMain with
      | .error f => .error f
      | .ok (g1, toProcessMain1) =>
        primerLoop threeSigma twoSigma toProcessPrimer (g1.removeVertex connectedVertex.id)
          toProcessMain1 (toReturn ++ [connectedVertex.value.nameIndex])

/-- The main triple-link `while` loop of `tripleLinkIteration` draining `toProcessMain`,
which the loop itself refills. -/
def mainLoop (threeSigma twoSigma : Nat) :
    Nat → graph → List Nat → List Nat → Except Fault (List Nat × graph)
  | 0, _, _, _ => .error .outOfFuel
  | _ + 1, g, [], toReturn => .ok (toReturn, g)
  | fuel + 1, g, front :: toProcessMain, toReturn =>
    match g.getVertexForValue front with
    | none => mainLoop threeSigma twoSigma fuel g toProcessMain toReturn
    | some connectedVertex =>
      match markConnectedVertexesTriple connectedVertex.id threeSigma twoSigma g
          toProcessMain with
      | .error f => .error f
      | .ok (g1, toProcessMain1) =>
        mainLoop threeSigma twoSigma fuel (g1.removeVertex connectedVertex.id)
          toProcessMain1 (toReturn ++ [connectedVertex.value.nameIndex])

/-- Read of `value.nameIndex` through a vertex pointer. -/
def graph.nameIndexOf (g : graph) (vid : Nat) : Except Fault Nat :=
  match g.getVertex vid with
  | none => .error .outOfRange
  | some v => .ok v.value.nameIndex

/-- The function `tripleLinkIteration`: the cluster found and the graph left. -/
def tripleLinkIteration (g : graph) (threeSigma twoSigma : Nat) :
    Except Fault (List Nat × graph) := do
  let targetEdgeIndex ← strongestEdgeIndex g.edges
  let g0 : graph := { g with vertexes := g.vertexes.map untouchVertex }
  let initialEdge ← match g0.edges[targetEdgeIndex]? with
    | none => .error .outOfRange
    | some e => .ok e
  let firstVertex := initialEdge.left
  let secondVertex := initialEdge.right
  let g1 ← g0.removeEdge initialEdge
  let (g2, toProcessPrimer) ← markConnectedVertexesSingle firstVertex threeSigma twoSigma g1 []
  let firstName ← g2.nameIndexOf firstVertex
  let g3 := g2.removeVertex firstVertex
  let (g4, toProcessPrimer) ←
    markConnectedVertexesSingle secondVertex threeSigma twoSigma g3 toProcessPrimer
  let secondName ← g4.nameIndexOf secondVertex
  let g5 := g4.removeVertex secondVertex
  let (g6, toProcessMain, toReturn) ←
    primerLoop threeSigma twoSigma toProcessPrimer g5 [] [firstName, secondName]
  mainLoop threeSigma twoSigma (g6.getNumEdges + toProcessMain.length + 1) g6 toProcessMain
    toReturn

/-! ## The clustering loop -/

/-- The `while` loop of `tripleLink`. -/
def tripleLinkLoop (settings : config) :
    Nat → graph → List (List Nat) → Except Fault (List (List Nat) × graph)
  | 0, _, _ => .error .outOfFuel
  | fuel + 1, g, toReturn =>
    if g.getNumEdges > 0 then
      match tripleLinkIteration g settings.threeSigmaAdj settings.twoSigmaAdj with
      | .error f => .error f
      | .ok (cluster, g1) =>
        match removeWeakVerticies g1 settings.threeSigmaAdj settings.twoSigmaAdj with
        | .error f => .error f
        | .ok g2 => tripleLinkLoop settings fuel g2 (toReturn ++ [cluster])
    else .ok (toReturn, g)

/-- The function `tripleLink`: the clusters found and the graph left. -/
def tripleLink (g : graph) (settings : config) : Except Fault (List (List Nat) × graph) :=
  match removeWeakVerticies g settings.threeSigmaAdj settings.twoSigmaAdj with
  | .error f => .error f
  | .ok g0 => tripleLinkLoop settings (g0.getNumEdges + 1) g0 []

/-! ## Well-formed graphs -/

/-- The graph invariant: vertex handles and edge handles are pairwise distinct, no edge is
a self-loop, every edge is owned by both of its endpoints, which are live vertexes, and
every vertex owns, without repetition, only live edges incident to it. -/
structure graph.WellFormed (g : graph) : Prop where
  vertexIds : (g.vertexes.map vertex.id).Nodup
  edgeIds : (g.edges.map edge.id).Nodup
  noLoop : ∀ e ∈ g.edges, e.left ≠ e.right
  leftOwns : ∀ e ∈ g.edges, ∃ v ∈ g.vertexes, v.id = e.left ∧ e ∈ v.edges
  rightOwns : ∀ e ∈ g.edges, ∃ v ∈ g.vertexes, v.id = e.right ∧ e ∈ v.edges
  incident : ∀ v ∈ g.vertexes, ∀ e ∈ v.edges, e ∈ g.edges ∧ e.incident v.id = true
  ownNodup : ∀ v ∈ g.vertexes, v.edges.Nodup

/-- The identities (`nameIndex`) of the live vertexes are pairwise distinct. -/
def graph.DistinctIdentities (g : graph) : Prop :=
  (g.vertexes.map (fun v => v.value.nameIndex)).Nodup

instance (g : graph) : Decidable g.DistinctIdentities :=
  inferInstanceAs (Decidable (g.vertexes.map (fun (v : vertex) => v.value.nameIndex)).Nodup)

/-- Handles paired with identities of the live vertexes, in vertex order. -/
def graph.keys (g : graph) : List (Nat × Nat) :=
  g.vertexes.map (fun v => (v.id, v.value.nameIndex))

/-- The identities of the live vertexes, in vertex order. -/
def graph.identities (g : graph) : List Nat :=
  g.vertexes.map (fun v => v.value.nameIndex)

/-- The graph `g'` arises from `g` by removals only: its vertexes (handle and identity)
and its edges are sublists of those of `g`. -/
def graph.Shrinks (g' g : graph) : Prop :=
  g'.keys.Sublist g.keys ∧ g'.edges.Sublist g.edges

/-- What the expansion pass relies on in a marking function: it never changes the identity
of the record, and it leaves the queue alone or, when it asks for the edge to be removed,
appends the identity of the record once. -/
structure MarkFn.Sound (mark : MarkFn) : Prop where
  name : ∀ w v h m q, (mark w v h m q).2.1.nameIndex = v.nameIndex
  queue : ∀ w v h m q, (mark w v h m q).2.2 = q ∨
    ((mark w v h m q).1 = true ∧ (mark w v h m q).2.2 = q ++ [v.nameIndex])

/-- The shape of an edge collection that the inner scan of `removeWeakVerticies` accepts:
at some position `i` stands the first edge of weight at least `high`, and at a different
position `j` stands an edge of weight at least `med`. -/
def KeepShape (high med : Nat) (l : List edge) : Prop :=
  ∃ i j ei ej, l[i]? = some ei ∧ l[j]? = some ej ∧ i ≠ j ∧ high ≤ ei.weight ∧
    (∀ e ∈ l.take i, e.weight < high) ∧ med ≤ ej.weight

/-- The identity `x` was held by a live vertex of `g` whose handle is no longer live in
`g'`: the vertex that carried `x` has been removed on the way from `g` to `g'`. -/
def Emitted (g g' : graph) (x : Nat) : Prop :=
  ∃ vid, (vid, x) ∈ g.keys ∧ ∀ k ∈ g'.keys, k.1 ≠ vid

/-- The graph `g1` arises from `g` by stores into gene records and by removal of edges
incident to the vertex with handle `x` only: same vertexes in the same order, and both the
edge collection of the graph and that of every vertex have lost at most edges incident to
`x`, keeping the order of the rest. -/
def graph.LoosensAt (x : Nat) (g1 g : graph) : Prop :=
  g1.keys = g.keys ∧ g1.edges.Sublist g.edges ∧
  (∀ e ∈ g.edges, e.incident x = false → e ∈ g1.edges) ∧
  ∀ w u, g1.getVertex w = some u → ∃ v, g.getVertex w = some v ∧ u.edges.Sublist v.edges ∧
    ∀ e ∈ v.edges, e.incident x = false → e ∈ u.edges

/-- Is neither endpoint of the edge among the handles `hs`? -/
def edge.avoids (hs : List Nat) (e : edge) : Bool :=
  !hs.contains e.left && !hs.contains e.right

/-- The graph `g'` is what is left of `g` when the vertexes with handles `hs` are removed
together with their incident edges: the other vertexes in their order, and in the edge
collection of the graph and of every vertex exactly the edges that avoid `hs`, in their
order.  Gene records may differ in their markers. -/
def graph.Removes (g g' : graph) (hs : List Nat) : Prop :=
  g'.keys = g.keys.filter (fun k => !hs.contains k.1) ∧
  g'.edges = g.edges.filter (edge.avoids hs) ∧
  ∀ w u, g'.getVertex w = some u →
    ∃ v, g.getVertex w = some v ∧ u.edges = v.edges.filter (edge.avoids hs)

/-- The live vertexes with the pairwise different handles `a`, `b`, `c` form a triangle
with the edges `eab`, `eac`, `ebc`: each of them owns exactly the two edges that join it to
the other two, in either order.  (In a well-formed graph the endpoints of the edges follow
from the ownership.) -/
structure IsTriangle (g : graph) (a b c : Nat) (eab eac ebc : edge) : Prop where
  ab : a ≠ b
  ac : a ≠ c
  bc : b ≠ c
  va : ∃ v, g.getVertex a = some v ∧ (v.edges = [eab, eac] ∨ v.edges = [eac, eab])
  vb : ∃ v, g.getVertex b = some v ∧ (v.edges = [eab, ebc] ∨ v.edges = [ebc, eab])
  vc : ∃ v, g.getVertex c = some v ∧ (v.edges = [eac, ebc] ∨ v.edges = [ebc, eac])

/-- The graph consists of two vertex-disjoint triangles, on the handles `a`, `b`, `c` and
`d`, `e`, `f`: it is well formed, identities are pairwise distinct, its vertex list is some
arrangement of the six vertexes and its edge list some arrangement of the six edges. -/
structure TwoTriangles (g : graph) (a b c d e f : Nat) (e1 e2 e3 e4 e5 e6 : edge) : Prop where
  wf : g.WellFormed
  distinct : g.DistinctIdentities
  handles : (g.vertexes.map vertex.id).Perm [a, b, c, d, e, f]
  edges : g.edges.Perm [e1, e2, e3, e4, e5, e6]
  first : IsTriangle g a b c e1 e2 e3
  second : IsTriangle g d e f e4 e5 e6

/-- The identities of the live vertexes with the handles `hs`, in the order of `hs`. -/
def graph.namesOf (g : graph) (hs : List Nat) : List Nat :=
  hs.filterMap (fun h => (g.getVertex h).map (fun v => v.value.nameIndex))

/-! ## Example graphs -/

/-- A vertex with handle and identity `n`, all markers clear, owning the edges `es`. -/
def mkVertex (n : Nat) (es : List edge) : vertex :=
  { id := n, value := { nameIndex := n, threeSigmaLink := false, twoSigmaLink := false,
                        oneSigmaLink := false }, edges := es }

/-- The triangle on the genes `A = 0`, `B = 1`, `C = 2` with edge weights `ab`, `ac`, `bc`,
edges listed in the order A-B, A-C, B-C, followed by the isolated genes `extra`. -/
def triangleWith (ab ac bc : Nat) (extra : List Nat) : graph :=
  { vertexes := [mkVertex 0 [⟨0, 0, 1, ab⟩, ⟨1, 0, 2, ac⟩],
                 mkVertex 1 [⟨0, 0, 1, ab⟩, ⟨2, 1, 2, bc⟩],
                 mkVertex 2 [⟨1, 0, 2, ac⟩, ⟨2, 1, 2, bc⟩]] ++ extra.map (fun n => mkVertex n []),
    edges := [⟨0, 0, 1, ab⟩, ⟨1, 0, 2, ac⟩, ⟨2, 1, 2, bc⟩] }

/-- The graph of the example scenario: A-B and A-C in band 3, B-C in band 1, and the
isolated gene `D = 3`. -/
def scenarioGraph : graph := triangleWith 3 3 1 [3]

/-- The scenario graph without the isolated gene. -/
def scenarioTriangle : graph := triangleWith 3 3 1 []

/-- A triangle all of whose edges are in band 3. -/
def evenTriangle : graph := triangleWith 3 3 3 []

/-- Two vertex-disjoint triangles, on the genes `0, 1, 2` and `3, 4, 5`, whose edges all have
weight `w`. -/
def twoTriangles (w : Nat) : graph :=
  { vertexes := [mkVertex 0 [⟨0, 0, 1, w⟩, ⟨1, 0, 2, w⟩],
                 mkVertex 1 [⟨0, 0, 1, w⟩, ⟨2, 1, 2, w⟩],
                 mkVertex 2 [⟨1, 0, 2, w⟩, ⟨2, 1, 2, w⟩],
                 mkVertex 3 [⟨3, 3, 4, w⟩, ⟨4, 3, 5, w⟩],
                 mkVertex 4 [⟨3, 3, 4, w⟩, ⟨5, 4, 5, w⟩],
                 mkVertex 5 [⟨4, 3, 5, w⟩, ⟨5, 4, 5, w⟩]],
    edges := [⟨0, 0, 1, w⟩, ⟨1, 0, 2, w⟩, ⟨2, 1, 2, w⟩,
              ⟨3, 3, 4, w⟩, ⟨4, 3, 5, w⟩, ⟨5, 4, 5, w⟩] }

/-! ## The marker rules in the words of the specification -/

/-- The single admission rule as the specification words it: `highLink` alone. -/
def ruleSingle (v : geneData) : Bool := v.threeSigmaLink

/-- The double admission rule as the specification words it: `highLink` and `medLink`. -/
def ruleDouble (v : geneData) : Bool := v.threeSigmaLink && v.twoSigmaLink

/-- The triple admission rule as the specification words it: all three markers. -/
def ruleTriple (v : geneData) : Bool :=
  v.threeSigmaLink && v.twoSigmaLink && v.oneSigmaLink

/-- The marker update as the specification words it, in strict priority order: set
`highLink` if it is unset and `w ≥ high`; else set `medLink` if it is unset and `w ≥ med`;
else set `lowLink` if it is unset; else nothing. -/
def priorityUpdate (w high med : Nat) (v : geneData) : geneData :=
  if v.threeSigmaLink = false ∧ high ≤ w then { v with threeSigmaLink := true }
  else if v.twoSigmaLink = false ∧ med ≤ w then { v with twoSigmaLink := true }
  else if v.oneSigmaLink = false then { v with oneSigmaLink := true }
  else v

/-- Number of the three markers in which two gene records differ. -/
def markersChanged (v u : geneData) : Nat :=
  (if v.threeSigmaLink = u.threeSigmaLink then 0 else 1) +
  (if v.twoSigmaLink = u.twoSigmaLink then 0 else 1) +
  (if v.oneSigmaLink = u.oneSigmaLink then 0 else 1)

/-- Every marker set in `v` is set in `u`, and the identity is the same. -/
def geneData.GrowsTo (v u : geneData) : Prop :=
  u.nameIndex = v.nameIndex ∧ (v.threeSigmaLink = true → u.threeSigmaLink = true) ∧
  (v.twoSigmaLink = true → u.twoSigmaLink = true) ∧
  (v.oneSigmaLink = true → u.oneSigmaLink = true)

/-- What ties a marking function to its admission rule: markers only grow; the result is
true exactly if the rule holds after the call; the identity is enqueued exactly if the rule
did not hold before and holds after; the high marker is set only by an edge that reaches
`high`; the rule asks for the high marker; and the rule stays satisfied when markers grow. -/
structure MarkFn.Admits (mark : MarkFn) (rule : geneData → Bool) : Prop where
  grows : ∀ (w : Nat) (v : geneData) (h m : Nat) (q : List Nat),
    v.GrowsTo (mark w v h m q).2.1
  result : ∀ (w : Nat) (v : geneData) (h m : Nat) (q : List Nat),
    (mark w v h m q).1 = rule (mark w v h m q).2.1
  queue : ∀ (w : Nat) (v : geneData) (h m : Nat) (q : List Nat),
    (mark w v h m q).2.2 =
      if rule v = false ∧ rule (mark w v h m q).2.1 = true then q ++ [v.nameIndex] else q
  gated : ∀ (w : Nat) (v : geneData) (h m : Nat) (q : List Nat),
    (mark w v h m q).2.1.threeSigmaLink = true → v.threeSigmaLink = true ∨ h ≤ w
  ruleHigh : ∀ v : geneData, rule v = true → v.threeSigmaLink = true
  ruleMono : ∀ v u : geneData, v.GrowsTo u → rule v = true → rule u = true

/-- From `g1` to `g2` gene records only grow: every vertex of `g2` is a vertex of `g1` with
at least the markers it had, and every vertex of `g1` is still there with grown markers. -/
def graph.ValuesGrow (g1 g2 : graph) : Prop :=
  (∀ w u, g2.getVertex w = some u → ∃ v, g1.getVertex w = some v ∧ v.value.GrowsTo u.value) ∧
  ∀ v ∈ g1.vertexes, ∃ u ∈ g2.vertexes, u.id = v.id ∧ v.value.GrowsTo u.value

/-- Two isolated genes: a graph with vertexes and no edge. -/
def isolatedPair : graph :=
  { vertexes := [mkVertex 0 [], mkVertex 1 []], edges := [] }

/-- The band-3 triangle with stale markers left on its vertexes. -/
def evenTriangleMarked : graph :=
  { evenTriangle with
    vertexes := evenTriangle.vertexes.map (fun v =>
      { v with value := { v.value with threeSigmaLink := true, oneSigmaLink := true } }) }

/-- A fan: the vertex `0` joined to the vertexes `1` and `2` by two edges of weight 3. -/
def fanGraph : graph :=
  { vertexes := [mkVertex 0 [⟨0, 0, 1, 3⟩, ⟨1, 0, 2, 3⟩], mkVertex 1 [⟨0, 0, 1, 3⟩],
                 mkVertex 2 [⟨1, 0, 2, 3⟩]],
    edges := [⟨0, 0, 1, 3⟩, ⟨1, 0, 2, 3⟩] }

/-- A kite on the genes `A = 0`, `B = 1`, `C = 2`, `D = 3`: the edge A-B of weight 4 and the
edges A-C, A-D, B-C, C-D of weight 3. -/
def kiteGraph : graph :=
  { vertexes := [mkVertex 0 [⟨0, 0, 1, 4⟩, ⟨1, 0, 2, 3⟩, ⟨2, 0, 3, 3⟩],
                 mkVertex 1 [⟨0, 0, 1, 4⟩, ⟨3, 1, 2, 3⟩],
                 mkVertex 2 [⟨1, 0, 2, 3⟩, ⟨3, 1, 2, 3⟩, ⟨4, 2, 3, 3⟩],
                 mkVertex 3 [⟨2, 0, 3, 3⟩, ⟨4, 2, 3, 3⟩]],
    edges := [⟨0, 0, 1, 4⟩, ⟨1, 0, 2, 3⟩, ⟨2, 0, 3, 3⟩, ⟨3, 1, 2, 3⟩, ⟨4, 2, 3, 3⟩] }

/-- A graph on six genes without parallel edges: the seed edge `0`-`1` of weight 5, the
edges `0`-`2` and `1`-`3` of weight 3, and from the vertex `2` the edges to `5` (weight 2),
to `4` (weight 3) and to `3` (weight 3), owned by `2` in this order; `4`-`5` has weight 3. -/
def revisitGraph : graph :=
  { vertexes := [mkVertex 0 [⟨0, 0, 1, 5⟩, ⟨1, 0, 2, 3⟩],
                 mkVertex 1 [⟨0, 0, 1, 5⟩, ⟨2, 1, 3, 3⟩],
                 mkVertex 2 [⟨1, 0, 2, 3⟩, ⟨3, 2, 5, 2⟩, ⟨4, 2, 4, 3⟩, ⟨5, 2, 3, 3⟩],
                 mkVertex 3 [⟨2, 1, 3, 3⟩, ⟨5, 2, 3, 3⟩],
                 mkVertex 4 [⟨4, 2, 4, 3⟩, ⟨6, 4, 5, 3⟩],
                 mkVertex 5 [⟨3, 2, 5, 2⟩, ⟨6, 4, 5, 3⟩]],
    edges := [⟨0, 0, 1, 5⟩, ⟨1, 0, 2, 3⟩, ⟨2, 1, 3, 3⟩, ⟨3, 2, 5, 2⟩, ⟨4, 2, 4, 3⟩,
              ⟨5, 2, 3, 3⟩, ⟨6, 4, 5, 3⟩] }

/-- The graph `revisitGraph` after its two seeds `0` and `1` have been expanded and removed:
the genes `2` and `3` carry the high marker, the genes `4` and `5` carry no marker. -/
def revisitState : graph :=
  { vertexes := [⟨2, ⟨2, true, false, false⟩, [⟨3, 2, 5, 2⟩, ⟨4, 2, 4, 3⟩, ⟨5, 2, 3, 3⟩]⟩,
                 ⟨3, ⟨3, true, false, false⟩, [⟨5, 2, 3, 3⟩]⟩,
                 mkVertex 4 [⟨4, 2, 4, 3⟩, ⟨6, 4, 5, 3⟩],
                 mkVertex 5 [⟨3, 2, 5, 2⟩, ⟨6, 4, 5, 3⟩]],
    edges := [⟨3, 2, 5, 2⟩, ⟨4, 2, 4, 3⟩, ⟨5, 2, 3, 3⟩, ⟨6, 4, 5, 3⟩] }

/-- No two edges of the graph join the same pair of vertexes. -/
def graph.NoParallelEdges (g : graph) : Prop :=
  ∀ e ∈ g.edges, ∀ f ∈ g.edges,
    (e.left = f.left ∧ e.right = f.right) ∨ (e.left = f.right ∧ e.right = f.left) → e = f

/-- The identity `x` is held by a vertex of `g` that an edge of `g` of weight at least `high`
joins to a vertex whose identity is among `D`. -/
def HighLinked (g : graph) (high : Nat) (D : List Nat) (x : Nat) : Prop :=
  ∃ e ∈ g.edges, ∃ a b y, high ≤ e.weight ∧ (a, x) ∈ g.keys ∧ (b, y) ∈ g.keys ∧ y ∈ D ∧
    ((e.left = a ∧ e.right = b) ∨ (e.left = b ∧ e.right = a))

/-- The loop `mainLoop` with a record of its enqueue operations: `pushed` collects, in
order, every identity that an expansion pass of the loop appends to `toProcessMain`.  The
record is not read by the loop. -/
def mainLoopTrace (threeSigma twoSigma : Nat) :
    Nat → graph → List Nat → List Nat → List Nat →
      Except Fault ((List Nat × graph) × List Nat)
  | 0, _, _, _, _ => .error .outOfFuel
  | _ + 1, g, [], toReturn, pushed => .ok ((toReturn, g), pushed)
  | fuel + 1, g, front :: toProcessMain, toReturn, pushed =>
    match g.getVertexForValue front with
    | none => mainLoopTrace threeSigma twoSigma fuel g toProcessMain toReturn pushed
    | some connectedVertex =>
      match markConnectedVertexesTriple connectedVertex.id threeSigma twoSigma g
          toProcessMain with
      | .error f => .error f
      | .ok (g1, toProcessMain1) =>
        mainLoopTrace threeSigma twoSigma fuel (g1.removeVertex connectedVertex.id)
          toProcessMain1 (toReturn ++ [connectedVertex.value.nameIndex])
          (pushed ++ toProcessMain1.drop toProcessMain.length)

/-- The function `tripleLinkIteration` with a record of its enqueue operations: next to
the result it returns every identity enqueued under the single rule (the queue
`toProcessPrimer` as the two seed passes fill it, before the first pop), under the double
rule (the queue `toProcessMain` as the double-link loop fills it, before the first pop) and
under the triple rule (the record of `mainLoopTrace`). -/
def tripleLinkIterationTrace (g : graph) (threeSigma twoSigma : Nat) :
    Except Fault ((List Nat × graph) × List Nat × List Nat × List Nat) := do
  let targetEdgeIndex ← strongestEdgeIndex g.edges
  let g0 : graph := { g with vertexes := g.vertexes.map untouchVertex }
  let initialEdge ← match g0.edges[targetEdgeIndex]? with
    | none => .error .outOfRange
    | some e => .ok e
  let firstVertex := initialEdge.left
  let secondVertex := initialEdge.right
  let g1 ← g0.removeEdge initialEdge
  let (g2, toProcessPrimer) ← markConnectedVertexesSingle firstVertex threeSigma twoSigma g1 []
  let firstName ← g2.nameIndexOf firstVertex
  let g3 := g2.removeVertex firstVertex
  let (g4, toProcessPrimer) ←
    markConnectedVertexesSingle secondVertex threeSigma twoSigma g3 toProcessPrimer
  let secondName ← g4.nameIndexOf secondVertex
  let g5 := g4.removeVertex secondVertex
  let (g6, toProcessMain, toReturn) ←
    primerLoop threeSigma twoSigma toProcessPrimer g5 [] [firstName, secondName]
  let (result, pushed) ←
    mainLoopTrace threeSigma twoSigma (g6.getNumEdges + toProcessMain.length + 1) g6
      toProcessMain toReturn []
  pure (result, toProcessPrimer, toProcessMain, pushed)

/-- The record `log` of enqueued identities is free of repetitions, and every live vertex
whose identity is in the record satisfies the admission rule. -/
def Recorded (rule : geneData → Bool) (g : graph) (log : List Nat) : Prop :=
  log.Nodup ∧ ∀ x ∈ log, ∀ u ∈ g.vertexes, u.value.nameIndex = x → rule u.value = true

/-- What a loop body of the expansion pass does to the graph, whether or not the edge is
removed: the graph stays well formed, keeps its vertexes, loses at most edges, the marked
neighbour holds the record the marking function returned, and all other records are as
before. -/
structure PassStep (mark : MarkFn) (markFrom high med : Nat) (g : graph) (q : List Nat)
    (toMark : vertex) (e : edge) (g2 : graph) : Prop where
  wf : g2.WellFormed
  keys : g2.keys = g.keys
  edges : g2.edges.Sublist g.edges
  marked : ∃ u ∈ g2.vertexes, u.id = toMark.id ∧
    u.value = (mark e.weight toMark.value high med q).2.1
  others : ∀ u ∈ g2.vertexes, u.id ≠ toMark.id → ∃ v ∈ g.vertexes, v.id = u.id ∧
    v.value = u.value

/-- Every high marker of a live vertex of `g` and every identity waiting in the queue `q`
is accounted for by an edge of the reference graph `R` of weight at least `high` to a vertex
whose identity is among `D`; and `g` arises from `R` by removals only. -/
def Linked (R : graph) (high : Nat) (D : List Nat) (g : graph) (q : List Nat) : Prop :=
  g.Shrinks R ∧
  (∀ u ∈ g.vertexes, u.value.threeSigmaLink = true → HighLinked R high D u.value.nameIndex) ∧
  ∀ x ∈ q, HighLinked R high D x

/-- Every identity of the cluster after the first two is linked by a high edge to an
identity that stands earlier in the cluster. -/
def ChainLinked (R : graph) (high : Nat) (cluster : List Nat) : Prop :=
  ∀ (i x : Nat), 2 ≤ i → cluster[i]? = some x → HighLinked R high (cluster.take i) x

/-- A graph on six genes in which each admission rule admits a gene: the seed edge `0`-`1`
of weight 5; the edges `0`-`2` and `1`-`3` of weight 3; the edges `2`-`4` and `3`-`4` of
weight 3; the edges `2`-`5` and `3`-`5` of weight 2; and the edge `4`-`5` of weight 3. -/
def relayGraph : graph :=
  { vertexes := [mkVertex 0 [⟨0, 0, 1, 5⟩, ⟨1, 0, 2, 3⟩],
                 mkVertex 1 [⟨0, 0, 1, 5⟩, ⟨2, 1, 3, 3⟩],
                 mkVertex 2 [⟨1, 0, 2, 3⟩, ⟨3, 2, 4, 3⟩, ⟨5, 2, 5, 2⟩],
                 mkVertex 3 [⟨2, 1, 3, 3⟩, ⟨6, 3, 5, 2⟩, ⟨4, 3, 4, 3⟩],
                 mkVertex 4 [⟨3, 2, 4, 3⟩, ⟨4, 3, 4, 3⟩, ⟨7, 4, 5, 3⟩],
                 mkVertex 5 [⟨5, 2, 5, 2⟩, ⟨6, 3, 5, 2⟩, ⟨7, 4, 5, 3⟩]],
    edges := [⟨0, 0, 1, 5⟩, ⟨1, 0, 2, 3⟩, ⟨2, 1, 3, 3⟩, ⟨3, 2, 4, 3⟩, ⟨4, 3, 4, 3⟩,
              ⟨5, 2, 5, 2⟩, ⟨6, 3, 5, 2⟩, ⟨7, 4, 5, 3⟩] }

/-! ## Lookup of vertexes -/

theorem getVertex_mem {g : graph} {vid : Nat} {v : vertex} (h : g.getVertex vid = some v) :
    v ∈ g.vertexes := List.mem_of_find?_eq_some h

theorem getVertex_id {g : graph} {vid : Nat} {v : vertex} (h : g.getVertex vid = some v) :
    v.id = vid := by
  have := List.find?_some h
  simpa using this

theorem find_id_of_mem {l : List vertex} {v : vertex} (hn : (l.map vertex.id).Nodup)
    (hv : v ∈ l) : l.find? (fun u => u.id == v.id) = some v := by
  induction l with
  | nil => cases hv
  | cons a l ih =>
    rw [List.map_cons, List.nodup_cons] at hn
    rcases List.mem_cons.1 hv with rfl | hv
    · simp
    · have hne : a.id ≠ v.id := by
        intro h
        exact hn.1 (h ▸ List.mem_map_of_mem vertex.id hv)
      rw [List.find?_cons_of_neg _ (by simpa using hne)]
      exact ih hn.2 hv

theorem getVertex_of_mem {g : graph} {v : vertex} (hn : (g.vertexes.map vertex.id).Nodup)
    (hv : v ∈ g.vertexes) : g.getVertex v.id = some v := find_id_of_mem hn hv

theorem getVertex_eq_none {g : graph} {vid : Nat} :
    g.getVertex vid = none ↔ ∀ v ∈ g.vertexes, v.id ≠ vid := by
  simp [graph.getVertex]

theorem find_id_map (f : vertex → vertex) (hf : ∀ v, (f v).id = v.id) (l : List vertex)
    (vid : Nat) :
    (l.map f).find? (fun u => u.id == vid) = (l.find? (fun u => u.id == vid)).map f := by
  rw [List.find?_map]
  congr 2
  funext u
  simp [hf]

/-! ## Removal keeps the graph well formed -/

theorem detach_id (e : edge) (v : vertex) : (vertex.detach e v).id = v.id := by
  unfold vertex.detach; split <;> rfl

theorem detach_value (e : edge) (v : vertex) : (vertex.detach e v).value = v.value := by
  unfold vertex.detach; split <;> rfl

theorem mem_detach_edges {e x : edge} {v : vertex} :
    x ∈ (vertex.detach e v).edges ↔ x ∈ v.edges ∧ (x ≠ e ∨ ¬(v.id = e.left ∨ v.id = e.right)) := by
  unfold vertex.detach
  split
  · rename_i h; simp [List.mem_filter, h]
  · rename_i h; simp [h]

theorem detach_edges_sublist (e : edge) (v : vertex) :
    (vertex.detach e v).edges.Sublist v.edges := by
  unfold vertex.detach
  split
  · exact List.filter_sublist _
  · exact List.Sublist.refl _

theorem dropIncident_id (w : Nat) (v : vertex) : (vertex.dropIncident w v).id = v.id := rfl

theorem dropIncident_value (w : Nat) (v : vertex) :
    (vertex.dropIncident w v).value = v.value := rfl

theorem mem_dropIncident_edges {w : Nat} {x : edge} {v : vertex} :
    x ∈ (vertex.dropIncident w v).edges ↔ x ∈ v.edges ∧ x.incident w = false := by
  simp [vertex.dropIncident, List.mem_filter]

theorem incident_iff {w : Nat} {e : edge} : e.incident w = true ↔ e.left = w ∨ e.right = w := by
  simp [edge.incident]

theorem incident_false_iff {w : Nat} {e : edge} :
    e.incident w = false ↔ e.left ≠ w ∧ e.right ≠ w := by
  simp [edge.incident]

theorem owns_iff {g : graph} {vid : Nat} {e : edge} :
    g.owns vid e = true ↔ ∃ v, g.getVertex vid = some v ∧ e ∈ v.edges := by
  unfold graph.owns
  split
  · rename_i v hv; simp [hv]
  · rename_i hv; simp [hv]

theorem owns_of_mem {g : graph} {v : vertex} {e : edge}
    (hn : (g.vertexes.map vertex.id).Nodup) (hv : v ∈ g.vertexes) (he : e ∈ v.edges) :
    g.owns v.id e = true :=
  owns_iff.2 ⟨v, getVertex_of_mem hn hv, he⟩

theorem removeEdge_eq {g g' : graph} {e : edge} (h : g.removeEdge e = .ok g') :
    g' = { vertexes := g.vertexes.map (vertex.detach e),
           edges := g.edges.filter (fun x => x ≠ e) } := by
  unfold graph.removeEdge at h
  split at h
  · cases h; rfl
  · cases h

theorem removeEdge_ok {g : graph} {e : edge} (hg : g.WellFormed) (he : e ∈ g.edges) :
    g.removeEdge e = .ok { vertexes := g.vertexes.map (vertex.detach e),
                           edges := g.edges.filter (fun x => x ≠ e) } := by
  obtain ⟨l, hl, hlid, hle⟩ := hg.leftOwns e he
  obtain ⟨r, hr, hrid, hre⟩ := hg.rightOwns e he
  have h1 : g.owns e.left e = true := hlid ▸ owns_of_mem hg.vertexIds hl hle
  have h2 : g.owns e.right e = true := hrid ▸ owns_of_mem hg.vertexIds hr hre
  simp [graph.removeEdge, h1, h2]

theorem removeVertex_absent {g : graph} {vid : Nat} (h : g.getVertex vid = none) :
    g.removeVertex vid = g := by
  simp [graph.removeVertex, h]

theorem removeVertex_present {g : graph} {vid : Nat} {v : vertex}
    (h : g.getVertex vid = some v) :
    g.removeVertex vid =
      { vertexes := (g.vertexes.filter (fun v => v.id ≠ vid)).map (vertex.dropIncident vid),
        edges := g.edges.filter (fun e => !e.incident vid) } := by
  simp [graph.removeVertex, h]

theorem map_id_map (f : vertex → vertex) (hf : ∀ v, (f v).id = v.id) (l : List vertex) :
    (l.map f).map vertex.id = l.map vertex.id := by
  rw [List.map_map]; congr 1; funext v; exact hf v

theorem graph.WellFormed.removeEdge {g g' : graph} {e : edge} (hg : g.WellFormed)
    (h : g.removeEdge e = .ok g') : g'.WellFormed := by
  rw [removeEdge_eq h]
  refine ⟨?_, ?_, ?_, ?_, ?_, ?_, ?_⟩
  · show ((g.vertexes.map (vertex.detach e)).map vertex.id).Nodup
    rw [map_id_map _ (detach_id e)]; exact hg.vertexIds
  · exact hg.edgeIds.sublist ((List.filter_sublist _).map _)
  · intro x hx; exact hg.noLoop x (List.mem_filter.1 hx).1
  · intro x hx
    have hx' := List.mem_filter.1 hx
    obtain ⟨v, hv, hvid, hxe⟩ := hg.leftOwns x hx'.1
    refine ⟨vertex.detach e v, List.mem_map_of_mem _ hv, by rw [detach_id]; exact hvid, ?_⟩
    exact mem_detach_edges.2 ⟨hxe, Or.inl (by simpa using hx'.2)⟩
  · intro x hx
    have hx' := List.mem_filter.1 hx
    obtain ⟨v, hv, hvid, hxe⟩ := hg.rightOwns x hx'.1
    refine ⟨vertex.detach e v, List.mem_map_of_mem _ hv, by rw [detach_id]; exact hvid, ?_⟩
    exact mem_detach_edges.2 ⟨hxe, Or.inl (by simpa using hx'.2)⟩
  · intro v' hv' x hx
    obtain ⟨v, hv, rfl⟩ := List.mem_map.1 hv'
    obtain ⟨hxv, hcase⟩ := mem_detach_edges.1 hx
    have hinc := hg.incident v hv x hxv
    rw [detach_id]
    refine ⟨List.mem_filter.2 ⟨hinc.1, ?_⟩, hinc.2⟩
    rcases hcase with hne | hnot
    · simpa using hne
    · have : x ≠ e := by
        rintro rfl
        exact hnot ((incident_iff.1 hinc.2).imp Eq.symm Eq.symm)
      simpa using this
  · intro v' hv'
    obtain ⟨v, hv, rfl⟩ := List.mem_map.1 hv'
    exact (hg.ownNodup v hv).sublist (detach_edges_sublist e v)

theorem graph.WellFormed.removeVertex {g : graph} (hg : g.WellFormed) (w : Nat) :
    (g.removeVertex w).WellFormed := by
  cases hw : g.getVertex w with
  | none => rw [removeVertex_absent hw]; exact hg
  | some wv =>
    rw [removeVertex_present hw]
    refine ⟨?_, ?_, ?_, ?_, ?_, ?_, ?_⟩
    · show (((g.vertexes.filter _).map (vertex.dropIncident w)).map vertex.id).Nodup
      rw [map_id_map _ (dropIncident_id w)]
      exact hg.vertexIds.sublist ((List.filter_sublist _).map _)
    · exact hg.edgeIds.sublist ((List.filter_sublist _).map _)
    · intro x hx; exact hg.noLoop x (List.mem_filter.1 hx).1
    · intro x hx
      have hx' := List.mem_filter.1 hx
      have hni : x.incident w = false := by simpa using hx'.2
      obtain ⟨v, hv, hvid, hxe⟩ := hg.leftOwns x hx'.1
      refine ⟨vertex.dropIncident w v, List.mem_map_of_mem _ (List.mem_filter.2 ⟨hv, ?_⟩),
        hvid, mem_dropIncident_edges.2 ⟨hxe, hni⟩⟩
      have := (incident_false_iff.1 hni).1
      simpa [hvid] using this
    · intro x hx
      have hx' := List.mem_filter.1 hx
      have hni : x.incident w = false := by simpa using hx'.2
      obtain ⟨v, hv, hvid, hxe⟩ := hg.rightOwns x hx'.1
      refine ⟨vertex.dropIncident w v, List.mem_map_of_mem _ (List.mem_filter.2 ⟨hv, ?_⟩),
        hvid, mem_dropIncident_edges.2 ⟨hxe, hni⟩⟩
      have := (incident_false_iff.1 hni).2
      simpa [hvid] using this
    · intro v' hv' x hx
      obtain ⟨v, hv, rfl⟩ := List.mem_map.1 hv'
      obtain ⟨hxv, hni⟩ := mem_dropIncident_edges.1 hx
      have hinc := hg.incident v (List.mem_filter.1 hv).1 x hxv
      exact ⟨List.mem_filter.2 ⟨hinc.1, by simpa using hni⟩, hinc.2⟩
    · intro v' hv'
      obtain ⟨v, hv, rfl⟩ := List.mem_map.1 hv'
      exact (hg.ownNodup v (List.mem_filter.1 hv).1).sublist (List.filter_sublist _)

/-! ## Stores into gene records -/

theorem store_id (w : Nat) (val : geneData) (v : vertex) : (vertex.store w val v).id = v.id := by
  unfold vertex.store; split <;> rfl

theorem store_edges (w : Nat) (val : geneData) (v : vertex) :
    (vertex.store w val v).edges = v.edges := by
  unfold vertex.store; split <;> rfl

theorem untouch_id (v : vertex) : (untouchVertex v).id = v.id := rfl

theorem untouch_edges (v : vertex) : (untouchVertex v).edges = v.edges := rfl

theorem untouch_name (v : vertex) : (untouchVertex v).value.nameIndex = v.value.nameIndex := rfl

/-- Rewriting gene records only (handles and edge collections stay) keeps the invariant. -/
theorem graph.WellFormed.mapValue {g : graph} (hg : g.WellFormed) (f : vertex → vertex)
    (hid : ∀ v, (f v).id = v.id) (hed : ∀ v, (f v).edges = v.edges) :
    graph.WellFormed { vertexes := g.vertexes.map f, edges := g.edges } := by
  refine ⟨?_, hg.edgeIds, hg.noLoop, ?_, ?_, ?_, ?_⟩
  · show ((g.vertexes.map f).map vertex.id).Nodup
    rw [map_id_map _ hid]; exact hg.vertexIds
  · intro x hx
    obtain ⟨v, hv, hvid, hxe⟩ := hg.leftOwns x hx
    exact ⟨f v, List.mem_map_of_mem _ hv, by rw [hid]; exact hvid, by rw [hed]; exact hxe⟩
  · intro x hx
    obtain ⟨v, hv, hvid, hxe⟩ := hg.rightOwns x hx
    exact ⟨f v, List.mem_map_of_mem _ hv, by rw [hid]; exact hvid, by rw [hed]; exact hxe⟩
  · intro v' hv' x hx
    obtain ⟨v, hv, rfl⟩ := List.mem_map.1 hv'
    rw [hed] at hx; rw [hid]
    exact hg.incident v hv x hx
  · intro v' hv'
    obtain ⟨v, hv, rfl⟩ := List.mem_map.1 hv'
    rw [hed]; exact hg.ownNodup v hv

theorem graph.WellFormed.setValue {g : graph} (hg : g.WellFormed) (w : Nat) (val : geneData) :
    (g.setValue w val).WellFormed :=
  hg.mapValue _ (store_id w val) (store_edges w val)

theorem graph.WellFormed.untouch {g : graph} (hg : g.WellFormed) :
    graph.WellFormed { g with vertexes := g.vertexes.map untouchVertex } :=
  hg.mapValue _ untouch_id untouch_edges

theorem getVertex_setValue (g : graph) (w : Nat) (val : geneData) (vid : Nat) :
    (g.setValue w val).getVertex vid = (g.getVertex vid).map (vertex.store w val) :=
  find_id_map _ (store_id w val) _ _

theorem getVertex_removeEdge {g g' : graph} {e : edge} (h : g.removeEdge e = .ok g')
    (vid : Nat) : g'.getVertex vid = (g.getVertex vid).map (vertex.detach e) := by
  rw [removeEdge_eq h]
  exact find_id_map _ (detach_id e) _ _

theorem getVertex_removeVertex_self (g : graph) (w : Nat) :
    (g.removeVertex w).getVertex w = none := by
  cases hw : g.getVertex w with
  | none => rw [removeVertex_absent hw]; exact hw
  | some wv =>
    rw [removeVertex_present hw, getVertex_eq_none]
    intro v hv
    obtain ⟨u, hu, rfl⟩ := List.mem_map.1 hv
    simpa using (List.mem_filter.1 hu).2

theorem getVertex_removeVertex_ne {g : graph} {w vid : Nat} {wv : vertex}
    (hw : g.getVertex w = some wv) (hne : vid ≠ w) :
    (g.removeVertex w).getVertex vid = (g.getVertex vid).map (vertex.dropIncident w) := by
  rw [removeVertex_present hw]
  show ((g.vertexes.filter _).map _).find? _ = _
  rw [find_id_map _ (dropIncident_id w), List.find?_filter]
  congr 2
  funext u
  by_cases h : u.id = vid
  · simp [h, hne]
  · simp [h]

/-! ## Removals only shrink the graph -/

theorem graph.Shrinks.refl (g : graph) : g.Shrinks g := ⟨List.Sublist.refl _, List.Sublist.refl _⟩

theorem graph.Shrinks.trans {a b c : graph} (h1 : a.Shrinks b) (h2 : b.Shrinks c) : a.Shrinks c :=
  ⟨h1.1.trans h2.1, h1.2.trans h2.2⟩

theorem keys_map (f : vertex → vertex) (hid : ∀ v, (f v).id = v.id)
    (hnm : ∀ v, (f v).value.nameIndex = v.value.nameIndex) (l : List vertex) :
    (l.map f).map (fun v => (v.id, v.value.nameIndex)) =
      l.map (fun v => (v.id, v.value.nameIndex)) := by
  rw [List.map_map]; congr 1; funext v; simp [hid, hnm]

theorem keys_removeEdge {g g' : graph} {e : edge} (h : g.removeEdge e = .ok g') :
    g'.keys = g.keys := by
  rw [removeEdge_eq h]
  exact keys_map _ (detach_id e) (fun v => by rw [detach_value]) _

theorem edges_removeEdge {g g' : graph} {e : edge} (h : g.removeEdge e = .ok g') :
    g'.edges = g.edges.filter (fun x => x ≠ e) := by
  rw [removeEdge_eq h]

theorem graph.Shrinks.ofRemoveEdge {g g' : graph} {e : edge} (h : g.removeEdge e = .ok g') :
    g'.Shrinks g :=
  ⟨by rw [keys_removeEdge h], by rw [edges_removeEdge h]; exact List.filter_sublist _⟩

theorem graph.Shrinks.ofRemoveVertex (g : graph) (w : Nat) : (g.removeVertex w).Shrinks g := by
  cases hw : g.getVertex w with
  | none => rw [removeVertex_absent hw]; exact graph.Shrinks.refl g
  | some wv =>
    rw [removeVertex_present hw]
    refine ⟨?_, List.filter_sublist _⟩
    show ((g.vertexes.filter _).map _).map _ |>.Sublist _
    rw [keys_map _ (dropIncident_id w) (fun v => by rw [dropIncident_value])]
    exact (List.filter_sublist _).map _

theorem keys_untouch (g : graph) :
    graph.keys { g with vertexes := g.vertexes.map untouchVertex } = g.keys :=
  keys_map _ untouch_id untouch_name _

theorem keys_setValue {g : graph} {w : Nat} {val : geneData}
    (h : ∀ v ∈ g.vertexes, v.id = w → val.nameIndex = v.value.nameIndex) :
    (g.setValue w val).keys = g.keys := by
  show (g.vertexes.map _).map _ = g.vertexes.map _
  rw [List.map_map]
  apply List.map_congr_left
  intro v hv
  simp only [Function.comp, vertex.store]
  split
  · rename_i hvw; simp [h v hv hvw]
  · rfl

/-! ## The marking functions -/

theorem markConnectedVertexSingle_sound : MarkFn.Sound markConnectedVertexSingle := by
  constructor
  · intro w v h m q
    obtain ⟨n, a, b, c⟩ := v
    by_cases h1 : h ≤ w <;> by_cases h2 : m ≤ w <;> cases a <;> cases b <;> cases c <;>
      simp [markConnectedVertexSingle, h1, h2]
  · intro w v h m q
    obtain ⟨n, a, b, c⟩ := v
    by_cases h1 : h ≤ w <;> by_cases h2 : m ≤ w <;> cases a <;> cases b <;> cases c <;>
      simp [markConnectedVertexSingle, h1, h2]

theorem markConnectedVertexDouble_sound : MarkFn.Sound markConnectedVertexDouble := by
  constructor
  · intro w v h m q
    obtain ⟨n, a, b, c⟩ := v
    by_cases h1 : h ≤ w <;> by_cases h2 : m ≤ w <;> cases a <;> cases b <;> cases c <;>
      simp [markConnectedVertexDouble, h1, h2]
  · intro w v h m q
    obtain ⟨n, a, b, c⟩ := v
    by_cases h1 : h ≤ w <;> by_cases h2 : m ≤ w <;> cases a <;> cases b <;> cases c <;>
      simp [markConnectedVertexDouble, h1, h2]

theorem markConnectedVertexTriple_sound : MarkFn.Sound markConnectedVertexTriple := by
  constructor
  · intro w v h m q
    obtain ⟨n, a, b, c⟩ := v
    by_cases h1 : h ≤ w <;> by_cases h2 : m ≤ w <;> cases a <;> cases b <;> cases c <;>
      simp [markConnectedVertexTriple, h1, h2]
  · intro w v h m q
    obtain ⟨n, a, b, c⟩ := v
    by_cases h1 : h ≤ w <;> by_cases h2 : m ≤ w <;> cases a <;> cases b <;> cases c <;>
      simp [markConnectedVertexTriple, h1, h2]

/-! ## The expansion pass -/

/-- Invariant rule for the expansion pass: a property of graph and queue that every
executed loop body keeps holds when the pass returns. -/
theorem markLoop_rule (mark : MarkFn) (markFrom high med : Nat)
    (Inv : graph → List Nat → Prop)
    (keep : ∀ (g : graph) (q : List Nat) (mf toMark : vertex) (e : edge),
      g.WellFormed → g.getVertex markFrom = some mf → e ∈ mf.edges →
      g.getVertex (e.other markFrom) = some toMark → Inv g q →
      (mark e.weight toMark.value high med q).1 = false →
      Inv (g.setValue toMark.id (mark e.weight toMark.value high med q).2.1)
        (mark e.weight toMark.value high med q).2.2)
    (drop : ∀ (g : graph) (q : List Nat) (mf toMark : vertex) (e : edge) (g2 : graph),
      g.WellFormed → g.getVertex markFrom = some mf → e ∈ mf.edges →
      g.getVertex (e.other markFrom) = some toMark → Inv g q →
      (mark e.weight toMark.value high med q).1 = true →
      (g.setValue toMark.id (mark e.weight toMark.value high med q).2.1).removeEdge e
        = .ok g2 →
      Inv g2 (mark e.weight toMark.value high med q).2.2) :
    ∀ (fuel i : Nat) (g : graph) (q : List Nat) (res : graph × List Nat),
      g.WellFormed → Inv g q →
      markConnectedVertexesLoop mark markFrom high med fuel i g q = .ok res →
      res.1.WellFormed ∧ Inv res.1 res.2 := by
  intro fuel
  induction fuel with
  | zero => intro i g q res _ _ h; simp [markConnectedVertexesLoop] at h
  | succ fuel ih =>
    intro i g q res hg hinv h
    unfold markConnectedVertexesLoop at h
    split at h
    · cases h
    · rename_i mf hmf
      split at h
      · rename_i hi
        have hmem : mf.edges[i] ∈ mf.edges := List.getElem_mem _
        dsimp only at h
        split at h
        · cases h
        · rename_i toMark htm
          split at h
          · rename_i hr
            split at h
            · cases h
            · rename_i g2 hg2
              exact ih 1 g2 _ res ((hg.setValue _ _).removeEdge hg2)
                (drop g q mf toMark _ g2 hg hmf hmem htm hinv hr hg2) h
          · rename_i hr
            exact ih (i + 1) _ _ res (hg.setValue _ _)
              (keep g q mf toMark _ hg hmf hmem htm hinv (by simpa using hr)) h
      · cases h
        exact ⟨hg, hinv⟩

/-- In a well-formed graph the far end of an edge owned by a live vertex is another live
vertex, which owns the edge too. -/
theorem other_live {g : graph} {markFrom : Nat} {mf : vertex} {e : edge}
    (hg : g.WellFormed) (hmf : g.getVertex markFrom = some mf) (he : e ∈ mf.edges) :
    ∃ toMark, g.getVertex (e.other markFrom) = some toMark ∧ e ∈ toMark.edges ∧
      e.other markFrom ≠ markFrom ∧ e ∈ g.edges ∧ (e.left = markFrom ∨ e.right = markFrom) := by
  have hmem := getVertex_mem hmf
  have hid := getVertex_id hmf
  obtain ⟨heg, hinc⟩ := hg.incident mf hmem e he
  rw [hid] at hinc
  have hinc' := incident_iff.1 hinc
  have hnl := hg.noLoop e heg
  unfold edge.other
  split
  · rename_i hl
    obtain ⟨r, hr, hrid, hre⟩ := hg.rightOwns e heg
    exact ⟨r, hrid ▸ getVertex_of_mem hg.vertexIds hr, hre, fun h => hnl (hl.trans h.symm),
      heg, hinc'⟩
  · rename_i hl
    obtain ⟨l, hl', hlid, hle⟩ := hg.leftOwns e heg
    exact ⟨l, hlid ▸ getVertex_of_mem hg.vertexIds hl', hle, hl, heg, hinc'⟩

theorem detach_edges_of_endpoint {e : edge} {v : vertex} (h : e.left = v.id ∨ e.right = v.id) :
    (vertex.detach e v).edges = v.edges.filter (fun x => x ≠ e) := by
  unfold vertex.detach
  rw [if_pos (h.imp Eq.symm Eq.symm)]

theorem length_filter_lt_of_mem {α : Type} {p : α → Bool} {a : α} {l : List α} (h : a ∈ l)
    (hp : p a = false) : (l.filter p).length < l.length := by
  induction l with
  | nil => cases h
  | cons b l ih =>
    have hle := List.length_filter_le p l
    by_cases hb : p b = true
    · have hl : a ∈ l := by
        rcases List.mem_cons.1 h with h | h
        · subst h; rw [hp] at hb; cases hb
        · exact h
      have := ih hl
      rw [List.filter_cons_of_pos hb]
      simp only [List.length_cons]
      omega
    · rw [List.filter_cons_of_neg hb]
      simp only [List.length_cons]
      omega

theorem length_filter_ne_lt {e : edge} {l : List edge} (h : e ∈ l) :
    (l.filter (fun x => x ≠ e)).length < l.length :=
  length_filter_lt_of_mem h (by simp)

theorem pass_fuel_arith {d d' i fuel : Nat} (hlen : d' < d) (hi : i < d)
    (hfuel : d * d + (d - i) < fuel + 1) : d' * d' + (d' - 1) < fuel := by
  have h1 : d' * d' ≤ (d - 1) * (d - 1) := Nat.mul_le_mul (by omega) (by omega)
  obtain ⟨k, rfl⟩ : ∃ k, d = k + 1 := ⟨d - 1, by omega⟩
  simp only [Nat.add_sub_cancel] at h1
  have h2 : (k + 1) * (k + 1) = k * k + 2 * k + 1 := by ring
  omega

/-- The expansion pass returns: in a well-formed graph, from a live vertex, the step budget
`d * d + (d - i) + 1` (with `d` the degree of the vertex) is never exhausted, no read is out
of range and no `removeEdge` is refused. -/
theorem markLoop_total (mark : MarkFn) (markFrom high med : Nat) :
    ∀ (fuel i : Nat) (g : graph) (q : List Nat) (mf : vertex),
      g.WellFormed → g.getVertex markFrom = some mf →
      mf.getNumEdges * mf.getNumEdges + (mf.getNumEdges - i) < fuel →
      ∃ res, markConnectedVertexesLoop mark markFrom high med fuel i g q = .ok res := by
  intro fuel
  induction fuel with
  | zero => intro i g q mf _ _ h; omega
  | succ fuel ih =>
    intro i g q mf hg hmf hfuel
    unfold markConnectedVertexesLoop
    simp only [hmf]
    split
    · rename_i hi
      have hmem : mf.edges[i] ∈ mf.edges := List.getElem_mem _
      obtain ⟨toMark, htm, _, _, heg, hinc⟩ := other_live hg hmf hmem
      simp only [htm]
      have hg1 := hg.setValue toMark.id (mark mf.edges[i].weight toMark.value high med q).2.1
      have hmf1 := getVertex_setValue g toMark.id
        (mark mf.edges[i].weight toMark.value high med q).2.1 markFrom
      rw [hmf] at hmf1
      split
      · have hrm := removeEdge_ok hg1 (e := mf.edges[i]) heg
        rw [hrm]
        dsimp only
        have hmf2 := getVertex_removeEdge hrm markFrom
        rw [hmf1] at hmf2
        refine ih 1 _ _ _ (hg1.removeEdge hrm) hmf2 ?_
        have hid := getVertex_id hmf
        have hlen : (vertex.detach mf.edges[i] (vertex.store toMark.id
            (mark mf.edges[i].weight toMark.value high med q).2.1 mf)).getNumEdges
              < mf.getNumEdges := by
          unfold vertex.getNumEdges
          rw [detach_edges_of_endpoint (by rw [store_id, hid]; exact hinc), store_edges]
          exact length_filter_ne_lt hmem
        simp only [Option.map_some', vertex.getNumEdges] at hlen ⊢
        simp only [vertex.getNumEdges] at hfuel hi
        exact pass_fuel_arith hlen hi hfuel
      · refine ih (i + 1) _ _ _ hg1 hmf1 ?_
        simp only [Option.map_some', vertex.getNumEdges, store_edges] at hfuel hi ⊢
        omega
    · exact ⟨_, rfl⟩

theorem identities_eq (g : graph) : g.identities = g.keys.map Prod.snd := by
  simp [graph.identities, graph.keys, List.map_map, Function.comp]

theorem handles_eq (g : graph) : g.vertexes.map vertex.id = g.keys.map Prod.fst := by
  simp [graph.keys, List.map_map, Function.comp]

theorem eq_of_id_eq {g : graph} {u v : vertex} (hg : g.WellFormed) (hu : u ∈ g.vertexes)
    (hv : v ∈ g.vertexes) (h : u.id = v.id) : u = v := by
  have h1 := getVertex_of_mem hg.vertexIds hu
  have h2 := getVertex_of_mem hg.vertexIds hv
  rw [h, h2] at h1
  exact (Option.some.inj h1).symm

theorem getVertex_name_mem {g : graph} {vid : Nat} {v : vertex} (h : g.getVertex vid = some v) :
    v.value.nameIndex ∈ g.identities :=
  List.mem_map_of_mem (fun v => v.value.nameIndex) (getVertex_mem h)

/-- What one expansion pass does to graph and queue, for any of the three marking
functions: it returns, the graph stays well formed with the same vertexes, edges are only
removed, every enqueued identity is paid for by a removed edge, and only identities of live
vertexes are enqueued, behind what the queue held. -/
theorem pass_spec {mark : MarkFn} (hs : MarkFn.Sound mark) {markFrom : Nat} (high med : Nat)
    {g : graph} {mf : vertex} (q : List Nat) (hg : g.WellFormed)
    (hmf : g.getVertex markFrom = some mf) :
    ∃ g' q', markConnectedVertexesLoop mark markFrom high med (passFuel g markFrom) 0 g q
        = .ok (g', q') ∧
      g'.WellFormed ∧ g'.keys = g.keys ∧ g'.edges.Sublist g.edges ∧
      g'.edges.length + q'.length ≤ g.edges.length + q.length ∧
      ∃ ext, q' = q ++ ext ∧ ∀ x ∈ ext, x ∈ g.identities := by
  have htot := markLoop_total mark markFrom high med
    (passFuel g markFrom) 0 g q mf hg hmf (by simp [passFuel, hmf])
  obtain ⟨⟨g', q'⟩, hres⟩ := htot
  refine ⟨g', q', hres, ?_⟩
  have := markLoop_rule mark markFrom high med
    (fun g1 q1 => g1.keys = g.keys ∧ g1.edges.Sublist g.edges ∧
      g1.edges.length + q1.length ≤ g.edges.length + q.length ∧
      ∃ ext, q1 = q ++ ext ∧ ∀ x ∈ ext, x ∈ g.identities)
    ?keep ?drop (passFuel g markFrom) 0 g q (g', q') hg
    ⟨rfl, List.Sublist.refl _, Nat.le_refl _, [], by simp, by simp⟩ hres
  · exact this
  case keep =>
    intro g1 q1 mf1 toMark e hg1 _ _ htm hinv hr
    obtain ⟨hk, hsub, hlen, ext, hq, hext⟩ := hinv
    have hq1 : (mark e.weight toMark.value high med q1).2.2 = q1 := by
      rcases hs.queue e.weight toMark.value high med q1 with h | h
      · exact h
      · rw [hr] at h; cases h.1
    refine ⟨?_, hsub, ?_, ext, ?_, hext⟩
    · rw [← hk]
      apply keys_setValue
      intro v hv hvid
      rw [eq_of_id_eq hg1 hv (getVertex_mem htm) hvid]
      exact hs.name _ _ _ _ _
    · rw [hq1]; exact hlen
    · rw [hq1]; exact hq
  case drop =>
    intro g1 q1 mf1 toMark e g2 hg1 hmf1 he htm hinv hr hrm
    obtain ⟨hk, hsub, hlen, ext, hq, hext⟩ := hinv
    obtain ⟨_, _, _, _, heg, _⟩ := other_live hg1 hmf1 he
    have he2 := edges_removeEdge hrm
    have hlt : g2.edges.length < g1.edges.length := by
      rw [he2]; exact length_filter_ne_lt heg
    have hk1 : (g1.setValue toMark.id (mark e.weight toMark.value high med q1).2.1).keys
        = g1.keys := by
      apply keys_setValue
      intro v hv hvid
      rw [eq_of_id_eq hg1 hv (getVertex_mem htm) hvid]
      exact hs.name _ _ _ _ _
    have hname : toMark.value.nameIndex ∈ g.identities := by
      rw [identities_eq, ← hk, ← identities_eq]; exact getVertex_name_mem htm
    refine ⟨?_, ?_, ?_, ?_⟩
    · rw [keys_removeEdge hrm, hk1, hk]
    · rw [he2]; exact (List.filter_sublist _).trans hsub
    · rcases hs.queue e.weight toMark.value high med q1 with h | h
      · rw [h]; omega
      · rw [h.2, List.length_append, List.length_singleton]; omega
    · rcases hs.queue e.weight toMark.value high med q1 with h | h
      · exact ⟨ext, by rw [h]; exact hq, hext⟩
      · refine ⟨ext ++ [toMark.value.nameIndex], by rw [h.2, hq, List.append_assoc], ?_⟩
        intro x hx
        rcases List.mem_append.1 hx with hx | hx
        · exact hext x hx
        · rw [List.mem_singleton.1 hx]; exact hname

/-! ## Weak-vertex pruning -/

theorem pass_succ (high med fuel i : Nat) (g : graph) (found : Bool)
    (h : i < g.vertexes.length) :
    removeWeakVerticiesPass high med (fuel + 1) i g found =
      if isWeak high med g.vertexes[i] then
        removeWeakVerticiesPass high med fuel (i + 1) (g.removeVertex g.vertexes[i].id) true
      else removeWeakVerticiesPass high med fuel (i + 1) g found := by
  have h' : i < g.getNumVertexes := h
  rw [removeWeakVerticiesPass, dif_pos h']
  unfold isWeak
  dsimp only
  split
  · simp
  · split <;> simp_all

theorem pass_done (high med fuel i : Nat) (g : graph) (found : Bool)
    (h : ¬ i < g.vertexes.length) :
    removeWeakVerticiesPass high med (fuel + 1) i g found = .ok (g, found) := by
  have h' : ¬ i < g.getNumVertexes := h
  rw [removeWeakVerticiesPass, dif_neg h']

theorem length_le_of_shrinks {g' g : graph} (h : g'.Shrinks g) :
    g'.vertexes.length ≤ g.vertexes.length := by
  have := h.1.length_le
  simpa [graph.keys] using this

theorem removeVertex_length_lt {g : graph} {v : vertex} (hv : v ∈ g.vertexes) :
    (g.removeVertex v.id).vertexes.length < g.vertexes.length := by
  cases hw : g.getVertex v.id with
  | none => exact absurd rfl (getVertex_eq_none.1 hw v hv)
  | some wv =>
    rw [removeVertex_present hw]
    simp only [List.length_map]
    exact length_filter_lt_of_mem hv (by simp)

/-- Everything one `for` pass of the pruner does, whatever the graph: it returns within
its budget, it only removes, it reports a removal exactly when the vertex count went down,
and if it reports none the graph is untouched and no vertex from index `i` on is weak. -/
theorem pass_spec_weak (high med : Nat) :
    ∀ (fuel i : Nat) (g : graph) (found : Bool), g.vertexes.length - i < fuel →
      ∃ g' found', removeWeakVerticiesPass high med fuel i g found = .ok (g', found') ∧
        g'.Shrinks g ∧ (g.WellFormed → g'.WellFormed) ∧
        (found' = true → found = true ∨ g'.vertexes.length < g.vertexes.length) ∧
        (found' = false → found = false ∧ g' = g ∧
          ∀ j (hj : j < g.vertexes.length), i ≤ j → isWeak high med g.vertexes[j] = false) := by
  intro fuel
  induction fuel with
  | zero => intro i g found h; omega
  | succ fuel ih =>
    intro i g found hfuel
    by_cases hi : i < g.vertexes.length
    · rw [pass_succ high med fuel i g found hi]
      by_cases hw : isWeak high med g.vertexes[i] = true
      · rw [if_pos hw]
        have hmem : g.vertexes[i] ∈ g.vertexes := List.getElem_mem _
        have hlt := removeVertex_length_lt hmem
        obtain ⟨g', found', hres, hsh, hwf, ht, hf⟩ :=
          ih (i + 1) (g.removeVertex g.vertexes[i].id) true (by omega)
        refine ⟨g', found', hres, hsh.trans (graph.Shrinks.ofRemoveVertex _ _),
          fun h => hwf (h.removeVertex _), ?_, ?_⟩
        · intro _
          right
          exact Nat.lt_of_le_of_lt (length_le_of_shrinks hsh) hlt
        · intro h
          have := (hf h).1
          cases this
      · rw [if_neg hw]
        obtain ⟨g', found', hres, hsh, hwf, ht, hf⟩ := ih (i + 1) g found (by omega)
        refine ⟨g', found', hres, hsh, hwf, ht, ?_⟩
        intro h
        obtain ⟨h1, h2, h3⟩ := hf h
        refine ⟨h1, h2, ?_⟩
        intro j hj hij
        by_cases hji : j = i
        · subst hji; simpa using hw
        · exact h3 j hj (by omega)
    · rw [pass_done high med fuel i g found hi]
      refine ⟨g, found, rfl, graph.Shrinks.refl g, id, fun h => Or.inl h, fun h => ⟨h, rfl, ?_⟩⟩
      intro j hj hij
      omega

theorem once_spec (g : graph) (high med : Nat) :
    ∃ g' found', removeWeakVerticiesOnce g high med = .ok (g', found') ∧
      g'.Shrinks g ∧ (g.WellFormed → g'.WellFormed) ∧
      (found' = true → g'.vertexes.length < g.vertexes.length) ∧
      (found' = false → g' = g ∧ ∀ v ∈ g.vertexes, isWeak high med v = false) := by
  obtain ⟨g', found', hres, hsh, hwf, ht, hf⟩ :=
    pass_spec_weak high med (g.getNumVertexes + 1) 0 g false
      (by simp [graph.getNumVertexes])
  refine ⟨g', found', hres, hsh, hwf, ?_, ?_⟩
  · intro h
    rcases ht h with h | h
    · cases h
    · exact h
  · intro h
    obtain ⟨_, h2, h3⟩ := hf h
    refine ⟨h2, ?_⟩
    intro v hv
    obtain ⟨j, hj, rfl⟩ := List.getElem_of_mem hv
    exact h3 j hj (Nat.zero_le _)

theorem weakLoop_spec (high med : Nat) :
    ∀ (fuel : Nat) (g : graph), g.vertexes.length < fuel →
      ∃ g', removeWeakVerticiesLoop high med fuel g = .ok g' ∧
        g'.Shrinks g ∧ (g.WellFormed → g'.WellFormed) ∧
        removeWeakVerticiesOnce g' high med = .ok (g', false) ∧
        ∀ v ∈ g'.vertexes, isWeak high med v = false := by
  intro fuel
  induction fuel with
  | zero => intro g h; omega
  | succ fuel ih =>
    intro g hfuel
    obtain ⟨g1, found, hres, hsh, hwf, ht, hf⟩ := once_spec g high med
    unfold removeWeakVerticiesLoop
    rw [hres]
    dsimp only
    cases found with
    | true =>
      have hlt := ht rfl
      obtain ⟨g', hres', hsh', hwf', hfix, hall⟩ := ih g1 (by omega)
      rw [if_pos rfl]
      exact ⟨g', hres', hsh'.trans hsh, fun h => hwf' (hwf h), hfix, hall⟩
    | false =>
      obtain ⟨h1, h2⟩ := hf rfl
      subst h1
      simp only [Bool.false_eq_true, if_false]
      exact ⟨g1, rfl, hsh, hwf, hres, h2⟩

/-- The pruner always returns; what it returns arises by removals only, is well formed if
the input was, is a fixed point of the pass and holds no weak vertex. -/
theorem removeWeakVerticies_spec (g : graph) (high med : Nat) :
    ∃ g', removeWeakVerticies g high med = .ok g' ∧
      g'.Shrinks g ∧ (g.WellFormed → g'.WellFormed) ∧
      removeWeakVerticiesOnce g' high med = .ok (g', false) ∧
      ∀ v ∈ g'.vertexes, isWeak high med v = false :=
  weakLoop_spec high med (g.getNumVertexes + 1) g (by simp [graph.getNumVertexes])

/-- A pass over a graph without weak vertex changes nothing and reports nothing. -/
theorem pass_all_kept (high med : Nat) :
    ∀ (fuel i : Nat) (g : graph) (found : Bool), g.vertexes.length - i < fuel →
      (∀ v ∈ g.vertexes, isWeak high med v = false) →
      removeWeakVerticiesPass high med fuel i g found = .ok (g, found) := by
  intro fuel
  induction fuel with
  | zero => intro i g found h; omega
  | succ fuel ih =>
    intro i g found hfuel hall
    by_cases hi : i < g.vertexes.length
    · rw [pass_succ high med fuel i g found hi, hall _ (List.getElem_mem _)]
      simp only [Bool.false_eq_true, if_false]
      exact ih (i + 1) g found (by omega) hall
    · exact pass_done high med fuel i g found hi

theorem removeWeakVerticies_fixed {g : graph} {high med : Nat}
    (hall : ∀ v ∈ g.vertexes, isWeak high med v = false) :
    removeWeakVerticies g high med = .ok g := by
  have h := pass_all_kept high med (g.getNumVertexes + 1) 0 g false
    (by simp [graph.getNumVertexes]) hall
  unfold removeWeakVerticies removeWeakVerticiesLoop removeWeakVerticiesOnce
  rw [h]
  simp

theorem weakScan_tt (high med : Nat) (l : List edge) :
    weakScan high med l true true = (true, true) := by
  cases l <;> simp [weakScan]

theorem weakScan_tf (high med : Nat) (l : List edge) :
    weakScan high med l true false = (true, l.any (fun e => decide (med ≤ e.weight))) := by
  induction l with
  | nil => simp [weakScan]
  | cons e rest ih =>
    by_cases hm : med ≤ e.weight
    · simp [weakScan, hm, weakScan_tt]
    · simp [weakScan, hm, ih]

theorem weakScan_ft (high med : Nat) (l : List edge) :
    weakScan high med l false true = (l.any (fun e => decide (high ≤ e.weight)), true) := by
  induction l with
  | nil => simp [weakScan]
  | cons e rest ih =>
    by_cases hh : high ≤ e.weight
    · simp [weakScan, hh, weakScan_tt]
    · by_cases hm : med ≤ e.weight
      · simp [weakScan, hh, hm, ih]
      · simp [weakScan, hh, hm, ih]

theorem weakScan_cons_ff (high med : Nat) (e : edge) (rest : List edge) :
    weakScan high med (e :: rest) false false =
      if high ≤ e.weight then (true, rest.any (fun e => decide (med ≤ e.weight)))
      else if med ≤ e.weight then (rest.any (fun e => decide (high ≤ e.weight)), true)
      else weakScan high med rest false false := by
  by_cases hh : high ≤ e.weight
  · simp [weakScan, hh, weakScan_tf]
  · by_cases hm : med ≤ e.weight
    · simp [weakScan, hh, hm, weakScan_ft]
    · simp [weakScan, hh, hm]

theorem keepShape_cons_high {high med : Nat} {e : edge} {rest : List edge}
    (hh : high ≤ e.weight) :
    KeepShape high med (e :: rest) ↔ ∃ x ∈ rest, med ≤ x.weight := by
  constructor
  · rintro ⟨i, j, ei, ej, hi, hj, hij, _, hbefore, hmed⟩
    cases i with
    | succ i =>
      have := hbefore e (by simp)
      omega
    | zero =>
      cases j with
      | zero => exact absurd rfl hij
      | succ j =>
        simp only [List.getElem?_cons_succ] at hj
        exact ⟨ej, List.getElem?_mem hj, hmed⟩
  · rintro ⟨x, hx, hmed⟩
    obtain ⟨j, hj, rfl⟩ := List.getElem_of_mem hx
    exact ⟨0, j + 1, e, rest[j], by simp, by simp [hj], by omega, hh, by simp, hmed⟩

theorem keepShape_cons_med {high med : Nat} {e : edge} {rest : List edge}
    (hh : ¬ high ≤ e.weight) (hm : med ≤ e.weight) :
    KeepShape high med (e :: rest) ↔ ∃ x ∈ rest, high ≤ x.weight := by
  constructor
  · rintro ⟨i, j, ei, ej, hi, hj, hij, hhigh, hbefore, hmed⟩
    cases i with
    | zero =>
      simp only [List.getElem?_cons_zero, Option.some.injEq] at hi
      subst hi
      exact absurd hhigh hh
    | succ i =>
      simp only [List.getElem?_cons_succ] at hi
      exact ⟨ei, List.getElem?_mem hi, hhigh⟩
  · rintro ⟨x, hx, hhigh⟩
    have hsome : (rest.find? (fun e => decide (high ≤ e.weight))).isSome := by
      rw [List.find?_isSome]
      exact ⟨x, hx, by simpa using hhigh⟩
    obtain ⟨b, hb⟩ := Option.isSome_iff_exists.1 hsome
    obtain ⟨hpb, as, bs, hrest, has⟩ := List.find?_eq_some.1 hb
    refine ⟨as.length + 1, 0, b, e, ?_, by simp, by omega, by simpa using hpb, ?_, hm⟩
    · rw [hrest, List.getElem?_cons_succ, List.getElem?_append_right (Nat.le_refl _)]
      simp
    · intro y hy
      rw [hrest] at hy
      simp only [List.take_succ_cons, List.take_left', List.mem_cons] at hy
      rcases hy with rfl | hy
      · omega
      · have := has y hy
        simpa using this

theorem keepShape_cons_low {high med : Nat} {e : edge} {rest : List edge}
    (hh : ¬ high ≤ e.weight) (hm : ¬ med ≤ e.weight) :
    KeepShape high med (e :: rest) ↔ KeepShape high med rest := by
  constructor
  · rintro ⟨i, j, ei, ej, hi, hj, hij, hhigh, hbefore, hmed⟩
    cases i with
    | zero =>
      simp only [List.getElem?_cons_zero, Option.some.injEq] at hi
      subst hi
      exact absurd hhigh hh
    | succ i =>
      cases j with
      | zero =>
        simp only [List.getElem?_cons_zero, Option.some.injEq] at hj
        subst hj
        exact absurd hmed hm
      | succ j =>
        simp only [List.getElem?_cons_succ] at hi hj
        refine ⟨i, j, ei, ej, hi, hj, by omega, hhigh, ?_, hmed⟩
        intro y hy
        exact hbefore y (by simp [hy])
  · rintro ⟨i, j, ei, ej, hi, hj, hij, hhigh, hbefore, hmed⟩
    refine ⟨i + 1, j + 1, ei, ej, by simpa using hi, by simpa using hj, by omega, hhigh, ?_,
      hmed⟩
    intro y hy
    simp only [List.take_succ_cons, List.mem_cons] at hy
    rcases hy with rfl | hy
    · omega
    · exact hbefore y hy

/-- The inner scan of the pruner ends with both flags set exactly on the keep shape. -/
theorem weakScan_iff_keepShape (high med : Nat) (l : List edge) :
    weakScan high med l false false = (true, true) ↔ KeepShape high med l := by
  induction l with
  | nil =>
    constructor
    · intro h; simp [weakScan] at h
    · rintro ⟨i, j, ei, ej, hi, _⟩; simp at hi
  | cons e rest ih =>
    rw [weakScan_cons_ff]
    by_cases hh : high ≤ e.weight
    · rw [if_pos hh, keepShape_cons_high hh]
      simp
    · by_cases hm : med ≤ e.weight
      · rw [if_neg hh, if_pos hm, keepShape_cons_med hh hm]
        simp
      · rw [if_neg hh, if_neg hm, keepShape_cons_low hh hm]
        exact ih

theorem isWeak_iff (high med : Nat) (v : vertex) :
    isWeak high med v = true ↔ v.getNumEdges < 2 ∨ ¬ KeepShape high med v.edges := by
  rw [← weakScan_iff_keepShape]
  unfold isWeak
  by_cases hd : 2 > v.getNumEdges
  · simp [hd]
  · rw [if_neg hd]
    generalize weakScan high med v.edges false false = r
    obtain ⟨a, b⟩ := r
    cases a <;> cases b <;> simp at hd ⊢
    omega

theorem isWeak_false_iff (high med : Nat) (v : vertex) :
    isWeak high med v = false ↔ 2 ≤ v.getNumEdges ∧ KeepShape high med v.edges := by
  have h := isWeak_iff high med v
  constructor
  · intro hf
    have hn : ¬ (v.getNumEdges < 2 ∨ ¬ KeepShape high med v.edges) := by
      intro hc; rw [h.2 hc] at hf; cases hf
    push_neg at hn
    exact hn
  · rintro ⟨h1, h2⟩
    cases hw : isWeak high med v with
    | false => rfl
    | true =>
      rcases h.1 hw with h3 | h3
      · omega
      · exact absurd h2 h3

/-! ## Handles and identities -/

theorem mem_keys {g : graph} {vid x : Nat} :
    (vid, x) ∈ g.keys ↔ ∃ v ∈ g.vertexes, v.id = vid ∧ v.value.nameIndex = x := by
  simp [graph.keys]

theorem getVertex_key {g : graph} {vid : Nat} {v : vertex} (h : g.getVertex vid = some v) :
    (vid, v.value.nameIndex) ∈ g.keys :=
  mem_keys.2 ⟨v, getVertex_mem h, getVertex_id h, rfl⟩

theorem getVertex_of_key {g : graph} {vid x : Nat} (hg : g.WellFormed)
    (h : (vid, x) ∈ g.keys) : ∃ v, g.getVertex vid = some v ∧ v.value.nameIndex = x := by
  obtain ⟨v, hv, rfl, rfl⟩ := mem_keys.1 h
  exact ⟨v, getVertex_of_mem hg.vertexIds hv, rfl⟩

theorem nameIndexOf_of_key {g : graph} {vid x : Nat} (hg : g.WellFormed)
    (h : (vid, x) ∈ g.keys) : g.nameIndexOf vid = .ok x := by
  obtain ⟨v, hv, rfl⟩ := getVertex_of_key hg h
  simp [graph.nameIndexOf, hv]

theorem keys_removeVertex (g : graph) (w : Nat) :
    (g.removeVertex w).keys = g.keys.filter (fun k => k.1 ≠ w) := by
  cases hw : g.getVertex w with
  | none =>
    rw [removeVertex_absent hw]
    symm
    rw [List.filter_eq_self]
    intro k hk
    obtain ⟨v, hv, rfl⟩ := List.mem_map.1 hk
    simpa using getVertex_eq_none.1 hw v hv
  | some wv =>
    rw [removeVertex_present hw]
    show ((g.vertexes.filter _).map _).map _ = _
    rw [keys_map _ (dropIncident_id w) (fun v => by rw [dropIncident_value])]
    simp only [graph.keys, List.filter_map]
    rfl

theorem no_key_removeVertex (g : graph) (w : Nat) : ∀ k ∈ (g.removeVertex w).keys, k.1 ≠ w := by
  intro k hk
  rw [keys_removeVertex] at hk
  simpa using (List.mem_filter.1 hk).2

theorem mem_identities_of_key {g : graph} {vid x : Nat} (h : (vid, x) ∈ g.keys) :
    x ∈ g.identities := by
  rw [identities_eq]; exact List.mem_map_of_mem Prod.snd h

theorem identities_sublist {g' g : graph} (h : g'.Shrinks g) :
    g'.identities.Sublist g.identities := by
  rw [identities_eq, identities_eq]; exact h.1.map _

theorem graph.DistinctIdentities.shrinks {g' g : graph} (hd : g.DistinctIdentities)
    (h : g'.Shrinks g) : g'.DistinctIdentities :=
  List.Nodup.sublist (identities_sublist h) hd

theorem Emitted.mono {g0 g1 g2 g3 : graph} {x : Nat} (h : Emitted g1 g2 x)
    (h01 : g1.Shrinks g0) (h23 : g3.Shrinks g2) : Emitted g0 g3 x := by
  obtain ⟨vid, hk, hno⟩ := h
  exact ⟨vid, h01.1.subset hk, fun k hk3 => hno k (h23.1.subset hk3)⟩

theorem Emitted.mem {g g' : graph} {x : Nat} (h : Emitted g g' x) : x ∈ g.identities := by
  obtain ⟨vid, hk, _⟩ := h
  exact mem_identities_of_key hk

theorem key_unique {l : List (Nat × Nat)} (hn : (l.map Prod.snd).Nodup) {a b x : Nat}
    (ha : (a, x) ∈ l) (hb : (b, x) ∈ l) : a = b := by
  induction l with
  | nil => cases ha
  | cons k l ih =>
    rw [List.map_cons, List.nodup_cons] at hn
    rcases List.mem_cons.1 ha with ha | ha <;> rcases List.mem_cons.1 hb with hb | hb
    · rw [← hb] at ha; exact (Prod.mk.inj ha).1
    · exact absurd (List.mem_map_of_mem Prod.snd hb) (by rw [← ha] at hn; exact hn.1)
    · exact absurd (List.mem_map_of_mem Prod.snd ha) (by rw [← hb] at hn; exact hn.1)
    · exact ih hn.2 ha hb

/-- With pairwise distinct identities, an emitted identity is held by no vertex that is
still live. -/
theorem Emitted.not_mem {g g' : graph} {x : Nat} (h : Emitted g g' x)
    (hd : g.DistinctIdentities) (hs : g'.Shrinks g) : x ∉ g'.identities := by
  obtain ⟨vid, hk, hno⟩ := h
  intro hx
  rw [identities_eq] at hx
  obtain ⟨⟨a, b⟩, hab, rfl⟩ := List.mem_map.1 hx
  have hd' : (g.keys.map Prod.snd).Nodup := by rw [← identities_eq]; exact hd
  have := key_unique hd' (hs.1.subset hab) hk
  exact hno (a, b) hab this

/-! ## The queue loops of one iteration -/

theorem getVertexForValue_spec {g : graph} {x : Nat} {v : vertex} (hg : g.WellFormed)
    (h : g.getVertexForValue x = some v) :
    g.getVertex v.id = some v ∧ v.value.nameIndex = x := by
  have hm : v ∈ g.vertexes := List.mem_of_find?_eq_some h
  have hp := List.find?_some h
  exact ⟨getVertex_of_mem hg.vertexIds hm, by simpa using hp⟩

/-- One round of a queue loop on a live vertex: the expansion pass followed by the removal
of the vertex. -/
theorem round_spec {mark : MarkFn} (hs : MarkFn.Sound mark) (high med : Nat)
    {g : graph} {cv : vertex} (q : List Nat) (hg : g.WellFormed)
    (hcv : g.getVertex cv.id = some cv) :
    ∃ g1 q1, markConnectedVertexesLoop mark cv.id high med (passFuel g cv.id) 0 g q
        = .ok (g1, q1) ∧
      (g1.removeVertex cv.id).WellFormed ∧ (g1.removeVertex cv.id).Shrinks g ∧
      (g1.removeVertex cv.id).edges.length + q1.length ≤ g.edges.length + q.length ∧
      Emitted g (g1.removeVertex cv.id) cv.value.nameIndex ∧
      ∃ ext, q1 = q ++ ext ∧ ∀ x ∈ ext, x ∈ g.identities := by
  obtain ⟨g1, q1, hres, hg1, hk, hsub, hlen, hext⟩ :=
    pass_spec hs high med q hg hcv
  have hsh : (g1.removeVertex cv.id).Shrinks g :=
    (graph.Shrinks.ofRemoveVertex g1 cv.id).trans ⟨by rw [hk], hsub⟩
  refine ⟨g1, q1, hres, hg1.removeVertex _, hsh, ?_, ?_, hext⟩
  · have := (graph.Shrinks.ofRemoveVertex g1 cv.id).2.length_le
    omega
  · exact ⟨cv.id, getVertex_key hcv, no_key_removeVertex g1 cv.id⟩

theorem primerLoop_spec (high med : Nat) :
    ∀ (pq : List Nat) (g : graph) (mq tr : List Nat), g.WellFormed →
      ∃ g' mq' tr', primerLoop high med pq g mq tr = .ok (g', mq', tr') ∧
        g'.WellFormed ∧ g'.Shrinks g ∧
        g'.edges.length + mq'.length ≤ g.edges.length + mq.length ∧
        ∃ ext, tr' = tr ++ ext ∧ ∀ x ∈ ext, Emitted g g' x := by
  intro pq
  induction pq with
  | nil =>
    intro g mq tr hg
    exact ⟨g, mq, tr, rfl, hg, graph.Shrinks.refl g, Nat.le_refl _, [], by simp, by simp⟩
  | cons front rest ih =>
    intro g mq tr hg
    unfold primerLoop
    cases hl : g.getVertexForValue front with
    | none => exact ih g mq tr hg
    | some cv =>
      obtain ⟨hcv, _⟩ := getVertexForValue_spec hg hl
      obtain ⟨g1, q1, hres, hg2, hsh, hlen, hem, _⟩ :=
        round_spec markConnectedVertexDouble_sound high med mq hg hcv
      dsimp only
      unfold markConnectedVertexesDouble
      rw [hres]
      dsimp only
      obtain ⟨g', mq', tr', hres', hg', hsh', hlen', ext, htr, hext⟩ :=
        ih (g1.removeVertex cv.id) q1 (tr ++ [cv.value.nameIndex]) hg2
      refine ⟨g', mq', tr', hres', hg', hsh'.trans hsh, by omega,
        cv.value.nameIndex :: ext, by rw [htr]; simp, ?_⟩
      intro x hx
      rcases List.mem_cons.1 hx with rfl | hx
      · exact hem.mono (graph.Shrinks.refl g) hsh'
      · exact (hext x hx).mono hsh (graph.Shrinks.refl g')

theorem mainLoop_spec (high med : Nat) :
    ∀ (fuel : Nat) (g : graph) (q tr : List Nat), g.WellFormed →
      g.edges.length + q.length < fuel →
      ∃ tr' g', mainLoop high med fuel g q tr = .ok (tr', g') ∧
        g'.WellFormed ∧ g'.Shrinks g ∧
        ∃ ext, tr' = tr ++ ext ∧ ∀ x ∈ ext, Emitted g g' x := by
  intro fuel
  induction fuel with
  | zero => intro g q tr _ h; omega
  | succ fuel ih =>
    intro g q tr hg hfuel
    cases q with
    | nil =>
      exact ⟨tr, g, rfl, hg, graph.Shrinks.refl g, [], by simp, by simp⟩
    | cons front rest =>
      unfold mainLoop
      simp only [List.length_cons] at hfuel
      cases hl : g.getVertexForValue front with
      | none => exact ih g rest tr hg (by omega)
      | some cv =>
        obtain ⟨hcv, _⟩ := getVertexForValue_spec hg hl
        obtain ⟨g1, q1, hres, hg2, hsh, hlen, hem, _⟩ :=
          round_spec markConnectedVertexTriple_sound high med rest hg hcv
        dsimp only
        unfold markConnectedVertexesTriple
        rw [hres]
        dsimp only
        obtain ⟨tr', g', hres', hg', hsh', ext, htr, hext⟩ :=
          ih (g1.removeVertex cv.id) q1 (tr ++ [cv.value.nameIndex]) hg2 (by omega)
        refine ⟨tr', g', hres', hg', hsh'.trans hsh,
          cv.value.nameIndex :: ext, by rw [htr]; simp, ?_⟩
        intro x hx
        rcases List.mem_cons.1 hx with rfl | hx
        · exact hem.mono (graph.Shrinks.refl g) hsh'
        · exact (hext x hx).mono hsh (graph.Shrinks.refl g')

/-! ## Seed selection -/

theorem strongestEdgeLoop_spec :
    ∀ (rest pre : List edge) (t : Nat) (et : edge),
      pre[t]? = some et → (∀ e ∈ pre, e.weight ≤ et.weight) →
      (∀ k e, t < k → pre[k]? = some e → e.weight < et.weight) →
      ∃ er, (pre ++ rest)[strongestEdgeLoop rest pre.length et.weight t]? = some er ∧
        (∀ e ∈ pre ++ rest, e.weight ≤ er.weight) ∧
        (∀ k e, strongestEdgeLoop rest pre.length et.weight t < k →
          (pre ++ rest)[k]? = some e → e.weight < er.weight) := by
  intro rest
  induction rest with
  | nil =>
    intro pre t et ht hmax hlast
    refine ⟨et, ?_, ?_, ?_⟩
    · simpa [strongestEdgeLoop] using ht
    · simpa using hmax
    · simpa [strongestEdgeLoop] using hlast
  | cons e rest ih =>
    intro pre t et ht hmax hlast
    have hlen : (pre ++ [e]).length = pre.length + 1 := by simp
    have happ : pre ++ e :: rest = (pre ++ [e]) ++ rest := by simp
    have htlt : t < pre.length := (List.getElem?_eq_some.1 ht).1
    unfold strongestEdgeLoop
    by_cases hw : e.weight ≥ et.weight
    · rw [if_pos hw, happ, ← hlen]
      apply ih (pre ++ [e]) pre.length e
      · exact List.getElem?_concat_length pre e
      · intro x hx
        rcases List.mem_append.1 hx with hx | hx
        · exact Nat.le_trans (hmax x hx) hw
        · rw [List.mem_singleton.1 hx]
      · intro k x hk hx
        have := (List.getElem?_eq_some.1 hx).1
        rw [hlen] at this
        omega
    · rw [if_neg hw, happ, ← hlen]
      apply ih (pre ++ [e]) t et
      · rw [List.getElem?_append_left htlt]; exact ht
      · intro x hx
        rcases List.mem_append.1 hx with hx | hx
        · exact hmax x hx
        · rw [List.mem_singleton.1 hx]; omega
      · intro k x hk hx
        by_cases hkl : k < pre.length
        · rw [List.getElem?_append_left hkl] at hx
          exact hlast k x hk hx
        · have hk2 := (List.getElem?_eq_some.1 hx).1
          rw [hlen] at hk2
          have hke : k = pre.length := by omega
          subst hke
          rw [List.getElem?_concat_length] at hx
          cases hx
          omega

/-- The seed index is in range, names an edge of maximum weight, and every edge behind it
is strictly lighter: among the edges of maximum weight it is the one of largest index. -/
theorem strongestEdgeIndex_spec {edges : List edge} (hne : edges ≠ []) :
    ∃ idx er, strongestEdgeIndex edges = .ok idx ∧ edges[idx]? = some er ∧
      (∀ e ∈ edges, e.weight ≤ er.weight) ∧
      (∀ k e, idx < k → edges[k]? = some e → e.weight < er.weight) := by
  cases edges with
  | nil => exact absurd rfl hne
  | cons e0 rest =>
    obtain ⟨er, h1, h2, h3⟩ := strongestEdgeLoop_spec rest [e0] 0 e0 (by simp)
      (by simp) (by
        intro k e hk he
        have := (List.getElem?_eq_some.1 he).1
        simp at this
        omega)
    exact ⟨_, er, rfl, h1, h2, h3⟩

/-! ## One clustering iteration -/

theorem seed_removed {g : graph} {e : edge} (hg : g.WellFormed) (he : e ∈ g.edges) :
    ∃ g1, graph.removeEdge { g with vertexes := g.vertexes.map untouchVertex } e = .ok g1 ∧
      g1.WellFormed ∧ g1.keys = g.keys ∧ g1.Shrinks g ∧ g1.edges.length < g.edges.length ∧
      g1.edges = g.edges.filter (fun x => x ≠ e) := by
  have hg0 := hg.untouch
  have hrm := removeEdge_ok hg0 (e := e) he
  refine ⟨_, hrm, hg0.removeEdge hrm, (keys_removeEdge hrm).trans (keys_untouch g), ?_,
    length_filter_ne_lt he, rfl⟩
  exact ⟨by rw [keys_removeEdge hrm, keys_untouch], List.filter_sublist _⟩

/-- A seed vertex is expanded and removed: the single-admission pass from the live vertex
with handle `vid`, the read of its identity, and its removal. -/
theorem seed_round {g : graph} {vid x : Nat} (high med : Nat) (q : List Nat)
    (hg : g.WellFormed) (hk : (vid, x) ∈ g.keys) :
    ∃ g1 q1, markConnectedVertexesSingle vid high med g q = .ok (g1, q1) ∧
      g1.nameIndexOf vid = .ok x ∧
      (g1.removeVertex vid).WellFormed ∧ (g1.removeVertex vid).Shrinks g ∧
      (g1.removeVertex vid).keys = g.keys.filter (fun k => k.1 ≠ vid) ∧
      Emitted g (g1.removeVertex vid) x := by
  obtain ⟨v, hv, rfl⟩ := getVertex_of_key hg hk
  obtain ⟨g1, q1, hres, hg1, hk1, hsub, _, _⟩ :=
    pass_spec markConnectedVertexSingle_sound high med q hg hv
  refine ⟨g1, q1, hres, nameIndexOf_of_key hg1 (by rw [hk1]; exact hk), hg1.removeVertex _,
    (graph.Shrinks.ofRemoveVertex g1 vid).trans ⟨by rw [hk1], hsub⟩,
    by rw [keys_removeVertex, hk1], vid, hk, no_key_removeVertex g1 vid⟩

/-- One iteration on a well-formed graph with at least one edge: it returns; the cluster
starts with the identities of the left and the right endpoint of the seed edge; the graph
left is well formed, arises by removals only and has strictly fewer edges; and every
identity of the cluster was held by a vertex that has been removed. -/
theorem iteration_spec {g : graph} (high med : Nat) (hg : g.WellFormed) (hne : g.edges ≠ []) :
    ∃ idx e nameL nameR rest g',
      strongestEdgeIndex g.edges = .ok idx ∧ g.edges[idx]? = some e ∧
      (e.left, nameL) ∈ g.keys ∧ (e.right, nameR) ∈ g.keys ∧
      tripleLinkIteration g high med = .ok (nameL :: nameR :: rest, g') ∧
      g'.WellFormed ∧ g'.Shrinks g ∧ g'.edges.length < g.edges.length ∧
      ∀ x ∈ nameL :: nameR :: rest, Emitted g g' x := by
  obtain ⟨idx, e, hidx, hge, _, _⟩ := strongestEdgeIndex_spec hne
  have he : e ∈ g.edges := List.getElem?_mem hge
  obtain ⟨l, hl, hlid, _⟩ := hg.leftOwns e he
  obtain ⟨r, hr, hrid, _⟩ := hg.rightOwns e he
  have hkl : (e.left, l.value.nameIndex) ∈ g.keys := mem_keys.2 ⟨l, hl, hlid, rfl⟩
  have hkr : (e.right, r.value.nameIndex) ∈ g.keys := mem_keys.2 ⟨r, hr, hrid, rfl⟩
  obtain ⟨g1, hrm, hg1, hk1, hsh1, hlt1, _⟩ := seed_removed hg he
  obtain ⟨g2, q2, hres2, hname2, hg3, hsh3, hk3, hem3⟩ :=
    seed_round high med [] hg1 (hk1 ▸ hkl)
  have hkr3 : (e.right, r.value.nameIndex) ∈ (g2.removeVertex e.left).keys := by
    rw [hk3, hk1]
    exact List.mem_filter.2 ⟨hkr, by simpa using (hg.noLoop e he).symm⟩
  obtain ⟨g4, q4, hres4, hname4, hg5, hsh5, hk5, hem5⟩ := seed_round high med q2 hg3 hkr3
  obtain ⟨g6, mq, tr6, hres6, hg6, hsh6, _, ext6, htr6, hext6⟩ :=
    primerLoop_spec high med q4 (g4.removeVertex e.right) []
      [l.value.nameIndex, r.value.nameIndex] hg5
  obtain ⟨tr7, g7, hres7, hg7, hsh7, ext7, htr7, hext7⟩ :=
    mainLoop_spec high med (g6.getNumEdges + mq.length + 1) g6 mq tr6 hg6
      (by simp [graph.getNumEdges])
  have hs31 : (g2.removeVertex e.left).Shrinks g := hsh3.trans hsh1
  have hs51 : (g4.removeVertex e.right).Shrinks g := hsh5.trans hs31
  have hs61 : g6.Shrinks g := hsh6.trans hs51
  have hs73 : g7.Shrinks (g2.removeVertex e.left) := hsh7.trans (hsh6.trans hsh5)
  refine ⟨idx, e, l.value.nameIndex, r.value.nameIndex, ext6 ++ ext7, g7, hidx, hge, hkl, hkr,
    ?_, hg7, hsh7.trans hs61, ?_, ?_⟩
  · unfold tripleLinkIteration
    subst htr6 htr7
    simp only [hidx, bind, Except.bind, hge, hrm, hres2, hname2, hres4, hname4, hres6, hres7]
    simp
  · have := (hs73.trans hsh3).2.length_le
    omega
  · intro x hx
    simp only [List.mem_cons, List.mem_append] at hx
    rcases hx with rfl | rfl | hx | hx
    · exact hem3.mono hsh1 hs73
    · exact hem5.mono hs31 (hsh7.trans hsh6)
    · exact (hext6 x hx).mono hs51 hsh7
    · exact (hext7 x hx).mono hs61 (graph.Shrinks.refl g7)

/-! ## The clustering loop -/

theorem tripleLinkLoop_spec (settings : config) :
    ∀ (fuel : Nat) (g : graph) (acc : List (List Nat)), g.WellFormed →
      g.edges.length < fuel →
      ∃ cs g', tripleLinkLoop settings fuel g acc = .ok (acc ++ cs, g') ∧
        g'.WellFormed ∧ g'.Shrinks g ∧ g'.edges = [] ∧
        ((∀ v ∈ g.vertexes, isWeak settings.threeSigmaAdj settings.twoSigmaAdj v = false) →
          ∀ v ∈ g'.vertexes, isWeak settings.threeSigmaAdj settings.twoSigmaAdj v = false) ∧
        (∀ c ∈ cs, ∀ x ∈ c, x ∈ g.identities) ∧
        (g.DistinctIdentities → cs.Pairwise List.Disjoint) := by
  intro fuel
  induction fuel with
  | zero => intro g acc _ h; omega
  | succ fuel ih =>
    intro g acc hg hfuel
    unfold tripleLinkLoop
    by_cases hne : g.getNumEdges > 0
    · rw [if_pos hne]
      have hne' : g.edges ≠ [] := by
        intro h; simp [graph.getNumEdges, h] at hne
      obtain ⟨_, _, nameL, nameR, rest, g1, _, _, _, _, hit, hg1, hsh1, hlt1, hem⟩ :=
        iteration_spec settings.threeSigmaAdj settings.twoSigmaAdj hg hne'
      obtain ⟨g2, hpr, hsh2, hwf2, _, hweak2⟩ :=
        removeWeakVerticies_spec g1 settings.threeSigmaAdj settings.twoSigmaAdj
      have hg2 := hwf2 hg1
      have hlen2 := hsh2.2.length_le
      obtain ⟨cs, g', hres, hg', hsh', hnil, hweak', hmem, hpw⟩ :=
        ih g2 (acc ++ [nameL :: nameR :: rest]) hg2 (by omega)
      rw [hit]
      dsimp only
      rw [hpr]
      dsimp only
      have hsh20 : g2.Shrinks g := hsh2.trans hsh1
      refine ⟨(nameL :: nameR :: rest) :: cs, g', by rw [hres]; simp, hg',
        hsh'.trans hsh20, hnil, fun _ => hweak' hweak2, ?_, ?_⟩
      · intro c hc x hx
        rcases List.mem_cons.1 hc with rfl | hc
        · exact (hem x hx).mem
        · exact (identities_sublist hsh20).subset (hmem c hc x hx)
      · intro hd
        rw [List.pairwise_cons]
        refine ⟨?_, hpw (hd.shrinks hsh20)⟩
        intro c hc x hx hxc
        have h1 := (hem x hx).not_mem hd hsh1
        exact h1 ((identities_sublist hsh2).subset (hmem c hc x hxc))
    · rw [if_neg hne]
      have hnil : g.edges = [] := by
        cases hge : g.edges with
        | nil => rfl
        | cons a l => simp [graph.getNumEdges, hge] at hne
      exact ⟨[], g, by simp, hg, graph.Shrinks.refl g, hnil, fun h => h, by simp, by simp⟩

/-- The whole of `tripleLink` on a well-formed graph: it returns; the graph left is well
formed, has no edge and no weak vertex; every cluster holds identities of vertexes of the
input only; and with pairwise distinct identities the clusters are pairwise disjoint. -/
theorem tripleLink_spec (g : graph) (settings : config) (hg : g.WellFormed) :
    ∃ cs g', tripleLink g settings = .ok (cs, g') ∧
      g'.WellFormed ∧ g'.Shrinks g ∧ g'.edges = [] ∧
      (∀ v ∈ g'.vertexes, isWeak settings.threeSigmaAdj settings.twoSigmaAdj v = false) ∧
      (∀ c ∈ cs, ∀ x ∈ c, x ∈ g.identities) ∧
      (g.DistinctIdentities → cs.Pairwise List.Disjoint) := by
  obtain ⟨g0, hpr, hsh0, hwf0, _, hweak0⟩ :=
    removeWeakVerticies_spec g settings.threeSigmaAdj settings.twoSigmaAdj
  obtain ⟨cs, g', hres, hg', hsh', hnil, hweak', hmem, hpw⟩ :=
    tripleLinkLoop_spec settings (g0.getNumEdges + 1) g0 [] (hwf0 hg)
      (by simp [graph.getNumEdges])
  unfold tripleLink
  rw [hpr]
  dsimp only
  refine ⟨cs, g', by rw [hres]; simp, hg', hsh'.trans hsh0, hnil, hweak' hweak0, ?_, ?_⟩
  · intro c hc x hx
    exact (identities_sublist hsh0).subset (hmem c hc x hx)
  · intro hd
    exact hpw (hd.shrinks hsh0)

/-! ## What an expansion pass and a removal leave of the graph -/

theorem loosensAt_refl (x : Nat) (g : graph) : g.LoosensAt x g :=
  ⟨rfl, List.Sublist.refl _, fun _ he _ => he,
    fun _ u hu => ⟨u, hu, List.Sublist.refl _, fun _ he _ => he⟩⟩

theorem loosensAt_trans {x : Nat} {g2 g1 g : graph} (h21 : g2.LoosensAt x g1)
    (h10 : g1.LoosensAt x g) : g2.LoosensAt x g := by
  obtain ⟨k21, s21, m21, l21⟩ := h21
  obtain ⟨k10, s10, m10, l10⟩ := h10
  refine ⟨k21.trans k10, s21.trans s10, fun e he hx => m21 e (m10 e he hx) hx, ?_⟩
  intro w u hu
  obtain ⟨v1, hv1, su, mu⟩ := l21 w u hu
  obtain ⟨v, hv, sv, mv⟩ := l10 w v1 hv1
  exact ⟨v, hv, su.trans sv, fun e he hx => mu e (mv e he hx) hx⟩

theorem loosensAt_setValue {x : Nat} {g : graph} {w : Nat} {val : geneData}
    (h : ∀ v ∈ g.vertexes, v.id = w → val.nameIndex = v.value.nameIndex) :
    (g.setValue w val).LoosensAt x g := by
  refine ⟨keys_setValue h, List.Sublist.refl _, fun _ he _ => he, ?_⟩
  intro z u hu
  rw [getVertex_setValue] at hu
  cases hz : g.getVertex z with
  | none => rw [hz] at hu; cases hu
  | some v =>
    rw [hz] at hu
    cases hu
    exact ⟨v, rfl, by rw [store_edges], fun e he _ => by rw [store_edges]; exact he⟩

theorem loosensAt_removeEdge {x : Nat} {g g' : graph} {e : edge}
    (h : g.removeEdge e = .ok g') (hx : e.incident x = true) : g'.LoosensAt x g := by
  refine ⟨keys_removeEdge h, by rw [edges_removeEdge h]; exact List.filter_sublist _, ?_, ?_⟩
  · intro a ha hax
    rw [edges_removeEdge h]
    refine List.mem_filter.2 ⟨ha, ?_⟩
    have : a ≠ e := by rintro rfl; rw [hx] at hax; cases hax
    simpa using this
  · intro z u hu
    rw [getVertex_removeEdge h] at hu
    cases hz : g.getVertex z with
    | none => rw [hz] at hu; cases hu
    | some v =>
      rw [hz] at hu
      cases hu
      refine ⟨v, rfl, detach_edges_sublist e v, ?_⟩
      intro a ha hax
      refine mem_detach_edges.2 ⟨ha, Or.inl ?_⟩
      rintro rfl
      rw [hx] at hax
      cases hax

/-- Any expansion pass from `markFrom` only stores into gene records and removes edges
incident to `markFrom`. -/
theorem pass_loosens {mark : MarkFn} (hs : MarkFn.Sound mark) (markFrom high med : Nat)
    (fuel i : Nat) (g : graph) (q : List Nat) (res : graph × List Nat) (hg : g.WellFormed)
    (hres : markConnectedVertexesLoop mark markFrom high med fuel i g q = .ok res) :
    res.1.LoosensAt markFrom g := by
  have := markLoop_rule mark markFrom high med (fun g1 _ => g1.LoosensAt markFrom g)
    ?keep ?drop fuel i g q res hg (loosensAt_refl _ g) hres
  · exact this.2
  case keep =>
    intro g1 q1 mf1 toMark e hg1 _ _ htm hinv _
    refine loosensAt_trans (loosensAt_setValue ?_) hinv
    intro v hv hvid
    rw [eq_of_id_eq hg1 hv (getVertex_mem htm) hvid]
    exact hs.name _ _ _ _ _
  case drop =>
    intro g1 q1 mf1 toMark e g2 hg1 hmf1 he htm hinv _ hrm
    obtain ⟨_, _, _, _, _, hinc⟩ := other_live hg1 hmf1 he
    refine loosensAt_trans (loosensAt_removeEdge hrm (incident_iff.2 hinc)) ?_
    refine loosensAt_trans (loosensAt_setValue ?_) hinv
    intro v hv hvid
    rw [eq_of_id_eq hg1 hv (getVertex_mem htm) hvid]
    exact hs.name _ _ _ _ _

theorem filter_eq_of_sublist {α : Type} {p : α → Bool} {l1 l : List α} (hs : l1.Sublist l)
    (hn : l.Nodup) (hall : ∀ a ∈ l, p a = true → a ∈ l1) : l1.filter p = l.filter p := by
  induction hs with
  | slnil => rfl
  | @cons l1 l a hs ih =>
    rw [List.nodup_cons] at hn
    have hpa : p a = false := by
      cases hp : p a with
      | false => rfl
      | true => exact absurd (hs.subset (hall a (List.mem_cons_self _ _) hp)) hn.1
    rw [List.filter_cons_of_neg (by simp [hpa])]
    exact ih hn.2 (fun b hb hp => hall b (List.mem_cons_of_mem _ hb) hp)
  | @cons₂ l1 l a hs ih =>
    rw [List.nodup_cons] at hn
    have hrec : l1.filter p = l.filter p := by
      apply ih hn.2
      intro b hb hp
      rcases List.mem_cons.1 (hall b (List.mem_cons_of_mem _ hb) hp) with rfl | h
      · exact absurd hb hn.1
      · exact h
    by_cases hp : p a = true
    · rw [List.filter_cons_of_pos hp, List.filter_cons_of_pos hp, hrec]
    · rw [List.filter_cons_of_neg hp, List.filter_cons_of_neg hp, hrec]

theorem avoids_singleton (x : Nat) (e : edge) : e.avoids [x] = !e.incident x := by
  simp [edge.avoids, edge.incident]
  by_cases h1 : e.left = x <;> by_cases h2 : e.right = x <;> simp [h1, h2]

theorem avoids_append (hs hs' : List Nat) (e : edge) :
    e.avoids (hs ++ hs') = (e.avoids hs && e.avoids hs') := by
  simp only [edge.avoids, List.contains_eq_any_beq, List.any_append, Bool.not_or]
  cases List.any hs (fun x => e.left == x) <;> cases List.any hs (fun x => e.right == x) <;>
    cases List.any hs' (fun x => e.left == x) <;> cases List.any hs' (fun x => e.right == x) <;>
    rfl

theorem avoids_iff {hs : List Nat} {e : edge} :
    e.avoids hs = true ↔ e.left ∉ hs ∧ e.right ∉ hs := by
  simp [edge.avoids]

theorem edges_nodup {g : graph} (hg : g.WellFormed) : g.edges.Nodup :=
  List.Nodup.of_map _ hg.edgeIds

/-- Removing a vertex after edges incident to it were removed leaves what removing the
vertex at once would leave. -/
theorem removes_of_loosens {x : Nat} {g1 g : graph} {vx : vertex} (hg : g.WellFormed)
    (hx : g1.getVertex x = some vx) (h : g1.LoosensAt x g) :
    g.Removes (g1.removeVertex x) [x] := by
  obtain ⟨hk, hsub, hmem, hlook⟩ := h
  have hfun : (edge.avoids [x]) = (fun e => !e.incident x) := by
    funext e; exact avoids_singleton x e
  refine ⟨?_, ?_, ?_⟩
  · rw [keys_removeVertex, hk]
    apply List.filter_congr
    intro k _
    by_cases hkx : k.1 = x <;> simp [hkx]
  · rw [removeVertex_present hx, hfun]
    exact filter_eq_of_sublist hsub (edges_nodup hg)
      (fun a ha hp => hmem a ha (by simpa using hp))
  · intro w u hu
    have hwx : w ≠ x := by
      rintro rfl
      rw [getVertex_removeVertex_self] at hu
      cases hu
    rw [getVertex_removeVertex_ne hx hwx] at hu
    cases hw : g1.getVertex w with
    | none => rw [hw] at hu; cases hu
    | some u1 =>
      rw [hw] at hu
      cases hu
      obtain ⟨v, hv, hsv, hmv⟩ := hlook w u1 hw
      refine ⟨v, hv, ?_⟩
      rw [hfun]
      exact filter_eq_of_sublist hsv (hg.ownNodup v (getVertex_mem hv))
        (fun a ha hp => hmv a ha (by simpa using hp))

theorem graph.Removes.append {g g' g'' : graph} {hs hs' : List Nat} (h : g.Removes g' hs)
    (h' : g'.Removes g'' hs') : g.Removes g'' (hs ++ hs') := by
  obtain ⟨hk, he, hl⟩ := h
  obtain ⟨hk', he', hl'⟩ := h'
  have hfun : edge.avoids (hs ++ hs') = fun e => (e.avoids hs && e.avoids hs') := by
    funext e; exact avoids_append hs hs' e
  refine ⟨?_, ?_, ?_⟩
  · rw [hk', hk, List.filter_filter]
    apply List.filter_congr
    intro k _
    simp only [List.contains_eq_any_beq, List.any_append, Bool.not_or]
    exact Bool.and_comm _ _
  · rw [he', he, List.filter_filter, hfun]
    apply List.filter_congr
    intro e _
    exact Bool.and_comm _ _
  · intro w u hu
    obtain ⟨v', hv', hu'⟩ := hl' w u hu
    obtain ⟨v, hv, hv''⟩ := hl w v' hv'
    refine ⟨v, hv, ?_⟩
    rw [hu', hv'', List.filter_filter, hfun]
    apply List.filter_congr
    intro e _
    exact Bool.and_comm _ _

/-! ## Expansion passes from vertexes of degree 0 and 1 -/

theorem pass_no_edge (mark : MarkFn) (high med : Nat) {g : graph} {x : Nat} {mf : vertex}
    (q : List Nat) (hx : g.getVertex x = some mf) (he : mf.edges = []) :
    markConnectedVertexesLoop mark x high med (passFuel g x) 0 g q = .ok (g, q) := by
  have hf : passFuel g x = 0 + 1 := by simp [passFuel, hx, vertex.getNumEdges, he]
  rw [hf]
  unfold markConnectedVertexesLoop
  simp [hx, vertex.getNumEdges, he]

theorem pass_one_edge_keep (mark : MarkFn) (high med : Nat) {g : graph} {x : Nat}
    {mf vz : vertex} {f : edge} (q : List Nat) (hx : g.getVertex x = some mf)
    (he : mf.edges = [f]) (hz : g.getVertex (f.other x) = some vz)
    (hr : (mark f.weight vz.value high med q).1 = false) :
    markConnectedVertexesLoop mark x high med (passFuel g x) 0 g q =
      .ok (g.setValue vz.id (mark f.weight vz.value high med q).2.1,
        (mark f.weight vz.value high med q).2.2) := by
  have hf : passFuel g x = 1 + 1 + 1 := by simp [passFuel, hx, vertex.getNumEdges, he]
  obtain ⟨mid, mval, medges⟩ := mf
  simp only at he
  subst he
  rw [hf]
  unfold markConnectedVertexesLoop
  simp only [hx, vertex.getNumEdges, List.length_singleton, Nat.lt_one_iff, dite_true,
    List.getElem_cons_zero, hz, hr, Bool.false_eq_true, if_false]
  unfold markConnectedVertexesLoop
  have h1 := getVertex_setValue g vz.id (mark f.weight vz.value high med q).2.1 x
  rw [hx] at h1
  simp [h1, vertex.getNumEdges, store_edges]

theorem pass_one_edge_drop (mark : MarkFn) (high med : Nat) {g : graph} {x : Nat}
    {mf vz : vertex} {f : edge} (q : List Nat) (hg : g.WellFormed)
    (hx : g.getVertex x = some mf)
    (he : mf.edges = [f]) (hz : g.getVertex (f.other x) = some vz)
    (hr : (mark f.weight vz.value high med q).1 = true) :
    ∃ g2, (g.setValue vz.id (mark f.weight vz.value high med q).2.1).removeEdge f = .ok g2 ∧
      markConnectedVertexesLoop mark x high med (passFuel g x) 0 g q =
        .ok (g2, (mark f.weight vz.value high med q).2.2) := by
  have hf : passFuel g x = 1 + 1 + 1 := by simp [passFuel, hx, vertex.getNumEdges, he]
  have hfm : f ∈ mf.edges := by rw [he]; simp
  obtain ⟨_, _, _, _, hfg, hinc⟩ := other_live hg hx hfm
  have hxid := getVertex_id hx
  have hrm := removeEdge_ok (hg.setValue vz.id (mark f.weight vz.value high med q).2.1)
    (e := f) hfg
  refine ⟨_, hrm, ?_⟩
  have h1 := getVertex_setValue g vz.id (mark f.weight vz.value high med q).2.1 x
  rw [hx] at h1
  have h2 := getVertex_removeEdge hrm x
  rw [h1] at h2
  have h3 : (vertex.detach f (vertex.store vz.id
      (mark f.weight vz.value high med q).2.1 mf)).edges = [] := by
    rw [detach_edges_of_endpoint (by rw [store_id, hxid]; exact hinc), store_edges, he]
    simp
  obtain ⟨mid, mval, medges⟩ := mf
  simp only at he
  subst he
  rw [hf]
  unfold markConnectedVertexesLoop
  simp only [hx, vertex.getNumEdges, List.length_singleton, Nat.lt_one_iff, dite_true,
    List.getElem_cons_zero, hz, hr, if_true, hrm]
  unfold markConnectedVertexesLoop
  simp only [h2, Option.map_some', vertex.getNumEdges, h3]
  simp

theorem markSingle_facts (w : Nat) (v : geneData) (high med : Nat) (q : List Nat) :
    (markConnectedVertexSingle w v high med q).1 = (v.threeSigmaLink || decide (high ≤ w)) ∧
    (markConnectedVertexSingle w v high med q).2.1.threeSigmaLink
      = (v.threeSigmaLink || decide (high ≤ w)) ∧
    (markConnectedVertexSingle w v high med q).2.1.nameIndex = v.nameIndex ∧
    (markConnectedVertexSingle w v high med q).2.2
      = if v.threeSigmaLink then q else if high ≤ w then q ++ [v.nameIndex] else q := by
  obtain ⟨n, a, b, c⟩ := v
  by_cases h1 : high ≤ w <;> by_cases h2 : med ≤ w <;> cases a <;> cases b <;> cases c <;>
    simp [markConnectedVertexSingle, h1, h2]

theorem store_value_self (val : geneData) (v : vertex) :
    (vertex.store v.id val v).value = val := by
  simp [vertex.store]

/-- The single-admission pass from a vertex that owns exactly one edge `f`: it returns, and
the neighbour ends with its high marker set exactly if it was set before or `f` reaches
`high`; the neighbour is enqueued exactly if the marker was newly set. -/
theorem single_pass_one_edge (high med : Nat) {g : graph} {x : Nat} {mf vz : vertex}
    {f : edge} (q : List Nat) (hg : g.WellFormed) (hx : g.getVertex x = some mf)
    (he : mf.edges = [f]) (hz : g.getVertex (f.other x) = some vz) :
    ∃ g2 q2 vz2, markConnectedVertexesSingle x high med g q = .ok (g2, q2) ∧
      g2.getVertex (f.other x) = some vz2 ∧
      vz2.value.nameIndex = vz.value.nameIndex ∧
      vz2.value.threeSigmaLink = (vz.value.threeSigmaLink || decide (high ≤ f.weight)) ∧
      q2 = if vz.value.threeSigmaLink then q
           else if high ≤ f.weight then q ++ [vz.value.nameIndex] else q := by
  obtain ⟨h1, h2, h3, h4⟩ := markSingle_facts f.weight vz.value high med q
  have hzid := getVertex_id hz
  have hlook := getVertex_setValue g vz.id
    (markConnectedVertexSingle f.weight vz.value high med q).2.1 (f.other x)
  rw [hz] at hlook
  unfold markConnectedVertexesSingle
  cases hr : (markConnectedVertexSingle f.weight vz.value high med q).1 with
  | true =>
    obtain ⟨g2, hrm, hres⟩ := pass_one_edge_drop markConnectedVertexSingle high med q hg hx he hz hr
    have hlook2 := getVertex_removeEdge hrm (f.other x)
    rw [hlook] at hlook2
    refine ⟨g2, _, _, hres, hlook2, ?_, ?_, h4⟩
    · rw [detach_value, store_value_self]; exact h3
    · rw [detach_value, store_value_self]; exact h2
  | false =>
    have hres := pass_one_edge_keep markConnectedVertexSingle high med q hx he hz hr
    refine ⟨_, _, _, hres, hlook, ?_, ?_, h4⟩
    · rw [store_value_self]; exact h3
    · rw [store_value_self]; exact h2

theorem loosensAt_untouch (x : Nat) (g : graph) :
    graph.LoosensAt x { g with vertexes := g.vertexes.map untouchVertex } g := by
  refine ⟨keys_untouch g, List.Sublist.refl _, fun _ he _ => he, ?_⟩
  intro w u hu
  have h : graph.getVertex { g with vertexes := g.vertexes.map untouchVertex } w
      = (g.getVertex w).map untouchVertex := find_id_map _ untouch_id _ _
  rw [h] at hu
  cases hw : g.getVertex w with
  | none => rw [hw] at hu; cases hu
  | some v =>
    rw [hw] at hu
    cases hu
    exact ⟨v, rfl, List.Sublist.refl _, fun _ he _ => he⟩

theorem seed_lookup {g g1 : graph} {e : edge}
    (h : graph.removeEdge { g with vertexes := g.vertexes.map untouchVertex } e = .ok g1)
    (w : Nat) :
    g1.getVertex w = (g.getVertex w).map (fun v => vertex.detach e (untouchVertex v)) := by
  rw [getVertex_removeEdge h]
  have h2 : graph.getVertex { g with vertexes := g.vertexes.map untouchVertex } w
      = (g.getVertex w).map untouchVertex := find_id_map _ untouch_id _ _
  rw [h2]
  cases g.getVertex w <;> rfl

theorem seed_loosens {g g1 : graph} {e : edge}
    (h : graph.removeEdge { g with vertexes := g.vertexes.map untouchVertex } e = .ok g1) :
    g1.LoosensAt e.left g :=
  loosensAt_trans (loosensAt_removeEdge h (incident_iff.2 (Or.inl rfl)))
    (loosensAt_untouch e.left g)

theorem getVertexForValue_of_key {g : graph} {vid x : Nat} (hg : g.WellFormed)
    (hd : g.DistinctIdentities) (hk : (vid, x) ∈ g.keys) :
    ∃ v, g.getVertexForValue x = some v ∧ g.getVertex vid = some v ∧
      v.value.nameIndex = x := by
  obtain ⟨v, hv, hname⟩ := getVertex_of_key hg hk
  have hsome : (g.getVertexForValue x).isSome := by
    unfold graph.getVertexForValue
    rw [List.find?_isSome]
    exact ⟨v, getVertex_mem hv, by simpa using hname⟩
  obtain ⟨u, hu⟩ := Option.isSome_iff_exists.1 hsome
  obtain ⟨hu1, hu2⟩ := getVertexForValue_spec hg hu
  have hd' : (g.keys.map Prod.snd).Nodup := by rw [← identities_eq]; exact hd
  have hku : (u.id, x) ∈ g.keys := by rw [← hu2]; exact getVertex_key hu1
  have := key_unique hd' hku hk
  rw [this] at hu1
  exact ⟨u, hu, hu1, hu2⟩

theorem other_of_joins {f : edge} {x z : Nat} (hx : f.incident x = true)
    (hz : f.incident z = true) (hxz : x ≠ z) : f.other x = z := by
  rw [incident_iff] at hx hz
  unfold edge.other
  split
  · rename_i hl
    rcases hz with h | h
    · exact absurd (hl.symm.trans h) hxz
    · exact h
  · rename_i hl
    rcases hx with h | h
    · exact absurd h hl
    · rcases hz with h' | h'
      · exact h'
      · exact absurd (h.symm.trans h') hxz

theorem joins_cases {f : edge} {a b : Nat} (ha : f.incident a = true)
    (hb : f.incident b = true) (hab : a ≠ b) :
    (f.left = a ∧ f.right = b) ∨ (f.left = b ∧ f.right = a) := by
  rw [incident_iff] at ha hb
  rcases ha with h | h <;> rcases hb with h' | h'
  · exact absurd (h.symm.trans h') hab
  · exact Or.inl ⟨h, h'⟩
  · exact Or.inr ⟨h', h⟩
  · exact absurd (h.symm.trans h') hab

/-- A seed vertex that owns exactly one edge `f` is expanded and removed. -/
theorem seed_round_one_edge (high med : Nat) {g0 g : graph} {x : Nat} {mf vz : vertex}
    {f : edge} (q : List Nat) (hg0 : g0.WellFormed) (hg : g.WellFormed)
    (hlo : g.LoosensAt x g0) (hx : g.getVertex x = some mf) (he : mf.edges = [f])
    (hz : g.getVertex (f.other x) = some vz) :
    ∃ g2 q2 vz3, markConnectedVertexesSingle x high med g q = .ok (g2, q2) ∧
      g2.nameIndexOf x = .ok mf.value.nameIndex ∧
      (g2.removeVertex x).WellFormed ∧ g0.Removes (g2.removeVertex x) [x] ∧
      (g2.removeVertex x).getVertex (f.other x) = some vz3 ∧
      vz3.value.nameIndex = vz.value.nameIndex ∧
      vz3.value.threeSigmaLink = (vz.value.threeSigmaLink || decide (high ≤ f.weight)) ∧
      q2 = if vz.value.threeSigmaLink then q
           else if high ≤ f.weight then q ++ [vz.value.nameIndex] else q := by
  obtain ⟨g2, q2, vz2, hres, hlook2, hn2, ht2, hq2⟩ :=
    single_pass_one_edge high med q hg hx he hz
  have hres' : markConnectedVertexesLoop markConnectedVertexSingle x high med
      (passFuel g x) 0 g q = .ok (g2, q2) := hres
  obtain ⟨g', q', hps, hg', hk', _⟩ := pass_spec markConnectedVertexSingle_sound high med q hg hx
  rw [hres'] at hps
  cases hps
  have hkx : (x, mf.value.nameIndex) ∈ g2.keys := by rw [hk']; exact getVertex_key hx
  obtain ⟨vx2, hvx2, _⟩ := getVertex_of_key hg' hkx
  have hlo2 : g2.LoosensAt x g0 :=
    loosensAt_trans (pass_loosens markConnectedVertexSingle_sound x high med _ 0 g q _ hg hres')
      hlo
  have hfm : f ∈ mf.edges := by rw [he]; simp
  obtain ⟨_, _, _, hne, _, _⟩ := other_live hg hx hfm
  have hlook3 := getVertex_removeVertex_ne hvx2 hne
  rw [hlook2] at hlook3
  exact ⟨g2, q2, _, hres, nameIndexOf_of_key hg' hkx, hg'.removeVertex x,
    removes_of_loosens hg0 hvx2 hlo2, hlook3, hn2, ht2, hq2⟩

theorem removes_key {g g' : graph} {hs : List Nat} {vid x : Nat} (h : g.Removes g' hs)
    (hk : (vid, x) ∈ g.keys) (hv : vid ∉ hs) : (vid, x) ∈ g'.keys := by
  rw [h.1]
  exact List.mem_filter.2 ⟨hk, by simpa using hv⟩

theorem removes_lookup {g g' : graph} {hs : List Nat} {vid : Nat} {v : vertex}
    (hg' : g'.WellFormed) (h : g.Removes g' hs) (hv : g.getVertex vid = some v)
    (hvid : vid ∉ hs) :
    ∃ u, g'.getVertex vid = some u ∧ u.value.nameIndex = v.value.nameIndex ∧
      u.edges = v.edges.filter (edge.avoids hs) := by
  obtain ⟨u, hu, hn⟩ := getVertex_of_key hg' (removes_key h (getVertex_key hv) hvid)
  obtain ⟨v', hv', he⟩ := h.2.2 vid u hu
  rw [hv] at hv'
  cases hv'
  exact ⟨u, hu, hn, he⟩

theorem removes_distinct {g g' : graph} {hs : List Nat} (h : g.Removes g' hs)
    (hd : g.DistinctIdentities) : g'.DistinctIdentities := by
  unfold graph.DistinctIdentities at *
  have h1 := identities_eq g
  have h2 := identities_eq g'
  unfold graph.identities at h1 h2
  rw [h2, h.1]
  rw [h1] at hd
  exact hd.sublist ((List.filter_sublist _).map _)

/-! ## One iteration on a triangle -/

theorem pair_mem_left {α : Type} {l : List α} {a b : α} (h : l = [a, b] ∨ l = [b, a]) :
    a ∈ l := by
  rcases h with h | h <;> simp [h]

theorem pair_mem_right {α : Type} {l : List α} {a b : α} (h : l = [a, b] ∨ l = [b, a]) :
    b ∈ l := by
  rcases h with h | h <;> simp [h]

theorem pair_filter {l : List edge} {a b : edge} (p : edge → Bool)
    (h : l = [a, b] ∨ l = [b, a]) (ha : p a = false) (hb : p b = true) :
    l.filter p = [b] := by
  rcases h with h | h <;> simp [h, ha, hb]

theorem pair_filter_none {l : List edge} {a b : edge} (p : edge → Bool)
    (h : l = [a, b] ∨ l = [b, a]) (ha : p a = false) (hb : p b = false) :
    l.filter p = [] := by
  rcases h with h | h <;> simp [h, ha, hb]

/-- One iteration seeded in a triangle: the seed edge `e` joins its left and right endpoint,
`f` joins the left endpoint and the third vertex `z`, `h` joins the right endpoint and `z`,
these are all the edges the three vertexes own, and `f` or `h` reaches `high`.  Then the
cluster is the three identities (left, right, third), and what is left of the graph is the
graph without the three vertexes. -/
theorem triangle_iteration (high med : Nat) {g : graph} {e f h : edge} {vX vY vZ : vertex}
    {z idx : Nat} (hg : g.WellFormed) (hd : g.DistinctIdentities)
    (hidx : strongestEdgeIndex g.edges = .ok idx) (hge : g.edges[idx]? = some e)
    (hX : g.getVertex e.left = some vX) (hXe : vX.edges = [e, f] ∨ vX.edges = [f, e])
    (hY : g.getVertex e.right = some vY) (hYe : vY.edges = [e, h] ∨ vY.edges = [h, e])
    (hZ : g.getVertex z = some vZ) (hZe : vZ.edges = [f, h] ∨ vZ.edges = [h, f])
    (hzx : z ≠ e.left) (hzy : z ≠ e.right)
    (hhigh : high ≤ f.weight ∨ high ≤ h.weight) :
    ∃ g', tripleLinkIteration g high med =
        .ok ([vX.value.nameIndex, vY.value.nameIndex, vZ.value.nameIndex], g') ∧
      g'.WellFormed ∧ g.Removes g' [e.left, e.right, z] := by
  have he : e ∈ g.edges := List.getElem?_mem hge
  have hxy : e.left ≠ e.right := hg.noLoop e he
  have hXid := getVertex_id hX
  have hYid := getVertex_id hY
  have hZid := getVertex_id hZ
  have ifX : f.incident e.left = true :=
    hXid ▸ (hg.incident vX (getVertex_mem hX) f (pair_mem_right hXe)).2
  have ifZ : f.incident z = true :=
    hZid ▸ (hg.incident vZ (getVertex_mem hZ) f (pair_mem_left hZe)).2
  have ihY : h.incident e.right = true :=
    hYid ▸ (hg.incident vY (getVertex_mem hY) h (pair_mem_right hYe)).2
  have ihZ : h.incident z = true :=
    hZid ▸ (hg.incident vZ (getVertex_mem hZ) h (pair_mem_right hZe)).2
  have hfo : f.other e.left = z := other_of_joins ifX ifZ (Ne.symm hzx)
  have hho : h.other e.right = z := other_of_joins ihY ihZ (Ne.symm hzy)
  have hfe : f ≠ e := by
    rintro rfl
    rcases incident_iff.1 ifZ with h1 | h1
    · exact hzx h1.symm
    · exact hzy h1.symm
  have hjf := joins_cases ifX ifZ (Ne.symm hzx)
  have hjh := joins_cases ihY ihZ (Ne.symm hzy)
  have ha1e : e.avoids [e.left] = false := by simp [edge.avoids]
  have ha1h : h.avoids [e.left] = true := by
    rcases hjh with ⟨h1, h2⟩ | ⟨h1, h2⟩ <;> simp [edge.avoids, h1, h2, hxy, hxy.symm, hzx]
  have ha2f : f.avoids [e.left, e.right] = false := by
    rcases hjf with ⟨h1, h2⟩ | ⟨h1, h2⟩ <;> simp [edge.avoids, h1, h2]
  have ha2h : h.avoids [e.left, e.right] = false := by
    rcases hjh with ⟨h1, h2⟩ | ⟨h1, h2⟩ <;> simp [edge.avoids, h1, h2]
  -- the seed edge goes
  obtain ⟨g1, hrm, hg1, hk1, hsh1, hlt1, _⟩ := seed_removed hg he
  have hX1 : g1.getVertex e.left = some (vertex.detach e (untouchVertex vX)) := by
    rw [seed_lookup hrm, hX]; rfl
  have hX1e : (vertex.detach e (untouchVertex vX)).edges = [f] := by
    rw [detach_edges_of_endpoint (Or.inl (by rw [untouch_id, hXid])), untouch_edges]
    exact pair_filter _ hXe (by simp) (by simpa using hfe)
  have hZ1 : g1.getVertex (f.other e.left) = some (vertex.detach e (untouchVertex vZ)) := by
    rw [hfo, seed_lookup hrm, hZ]; rfl
  -- the left seed vertex
  obtain ⟨g2, q2, vz3, hres2, hname2, hg3, hrem3, hlook3, hn3, ht3, hq2⟩ :=
    seed_round_one_edge high med [] hg hg1 (seed_loosens hrm) hX1 hX1e hZ1
  rw [detach_value] at hname2 hn3 ht3 hq2
  simp only [untouchVertex, Bool.false_or, Bool.false_eq_true, if_false, List.nil_append]
    at hname2 hn3 ht3 hq2
  rw [hfo] at hlook3
  -- the right seed vertex
  obtain ⟨vy3, hY3, hny3, hY3e⟩ :=
    removes_lookup hg3 hrem3 hY (by simpa using hxy.symm)
  rw [pair_filter _ hYe ha1e ha1h] at hY3e
  have hZ3 : (g2.removeVertex e.left).getVertex (h.other e.right) = some vz3 := by
    rw [hho]; exact hlook3
  obtain ⟨g4, q4, vz5, hres4, hname4, hg5, hrem5, _, _, _, hq4⟩ :=
    seed_round_one_edge high med q2 hg3 hg3 (loosensAt_refl _ _) hY3 hY3e hZ3
  rw [hny3] at hname4
  have hq4' : q4 = [vZ.value.nameIndex] := by
    rw [hq4, ht3, hq2, hn3]
    by_cases hf : high ≤ f.weight
    · simp [hf]
    · have hh : high ≤ h.weight := hhigh.resolve_left hf
      simp [hf, hh]
  have hrem5' : g.Removes (g4.removeVertex e.right) [e.left, e.right] := hrem3.append hrem5
  -- the third vertex
  obtain ⟨vz6, hZ6, hnz6, hZ6e⟩ :=
    removes_lookup hg5 hrem5' hZ (by simp [hzx, hzy])
  rw [pair_filter_none _ hZe ha2f ha2h] at hZ6e
  obtain ⟨vv, hfv, hgv, _⟩ := getVertexForValue_of_key hg5 (removes_distinct hrem5' hd)
    (hnz6 ▸ getVertex_key hZ6)
  rw [hZ6] at hgv
  cases hgv
  have hpass := pass_no_edge markConnectedVertexDouble high med [] hZ6 hZ6e
  have hrem6 := removes_of_loosens hg5 hZ6 (loosensAt_refl z _)
  have hvid := getVertex_id hZ6
  refine ⟨(g4.removeVertex e.right).removeVertex z, ?_, hg5.removeVertex z,
    hrem5'.append hrem6⟩
  subst hq4'
  unfold tripleLinkIteration
  simp only [hidx, bind, Except.bind, hge, hrm, hres2, hname2, hres4, hname4]
  unfold primerLoop
  simp only [hfv, markConnectedVertexesDouble, hvid, hpass]
  unfold primerLoop
  simp only [hnz6]
  unfold mainLoop
  simp

theorem IsTriangle.swap {g : graph} {a b c : Nat} {eab eac ebc : edge}
    (h : IsTriangle g a b c eab eac ebc) : IsTriangle g b a c eab ebc eac :=
  ⟨h.ab.symm, h.bc, h.ac, h.vb, h.va,
    by obtain ⟨v, hv, he⟩ := h.vc; exact ⟨v, hv, he.symm⟩⟩

theorem IsTriangle.rotate {g : graph} {a b c : Nat} {eab eac ebc : edge}
    (h : IsTriangle g a b c eab eac ebc) : IsTriangle g b c a ebc eab eac :=
  ⟨h.bc, h.ab.symm, h.ac.symm,
    by obtain ⟨v, hv, he⟩ := h.vb; exact ⟨v, hv, he.symm⟩,
    by obtain ⟨v, hv, he⟩ := h.vc; exact ⟨v, hv, he.symm⟩,
    by obtain ⟨v, hv, he⟩ := h.va; exact ⟨v, hv, he⟩⟩

theorem removes_congr {g g' : graph} {hs hs' : List Nat} (h : g.Removes g' hs)
    (hm : ∀ x, x ∈ hs ↔ x ∈ hs') : g.Removes g' hs' := by
  have hc : ∀ x, hs.contains x = hs'.contains x := by
    intro x
    have := hm x
    by_cases h1 : x ∈ hs
    · have h2 := this.1 h1
      simp [h1, h2]
    · have h2 : x ∉ hs' := fun h => h1 (this.2 h)
      simp [h1, h2]
  have ha : edge.avoids hs = edge.avoids hs' := by
    funext e
    simp only [edge.avoids, hc]
  obtain ⟨hk, he, hl⟩ := h
  refine ⟨?_, by rw [he, ha], ?_⟩
  · rw [hk]
    apply List.filter_congr
    intro k _
    rw [hc]
  · intro w u hu
    obtain ⟨v, hv, hve⟩ := hl w u hu
    exact ⟨v, hv, by rw [hve, ha]⟩

theorem namesOf_perm (g : graph) {hs hs' : List Nat} (h : hs.Perm hs') :
    (g.namesOf hs).Perm (g.namesOf hs') :=
  h.filterMap _

/-- One iteration seeded on the edge `eab` of a triangle, oriented from `a` to `b`. -/
theorem triangle_cluster_core (high med : Nat) {g : graph} {a b c idx : Nat}
    {eab eac ebc : edge} (hg : g.WellFormed) (hd : g.DistinctIdentities)
    (ht : IsTriangle g a b c eab eac ebc)
    (hidx : strongestEdgeIndex g.edges = .ok idx) (hge : g.edges[idx]? = some eab)
    (hl : eab.left = a) (hr : eab.right = b)
    (hhigh : ∀ x ∈ [a, b, c], ∀ v, g.getVertex x = some v → ∃ y ∈ v.edges, high ≤ y.weight) :
    ∃ cl g', tripleLinkIteration g high med = .ok (cl, g') ∧
      cl.Perm (g.namesOf [a, b, c]) ∧ g'.WellFormed ∧ g.Removes g' [a, b, c] := by
  obtain ⟨va, hva, hvae⟩ := ht.va
  obtain ⟨vb, hvb, hvbe⟩ := ht.vb
  obtain ⟨vc, hvc, hvce⟩ := ht.vc
  subst hl hr
  obtain ⟨y, hy, hyw⟩ := hhigh c (by simp) vc hvc
  have hh : high ≤ eac.weight ∨ high ≤ ebc.weight := by
    rcases hvce with h | h <;> rw [h] at hy <;> simp at hy <;> rcases hy with rfl | rfl
    · exact Or.inl hyw
    · exact Or.inr hyw
    · exact Or.inr hyw
    · exact Or.inl hyw
  obtain ⟨g', hit, hg', hrem⟩ := triangle_iteration high med hg hd hidx hge hva hvae hvb hvbe
    hvc hvce ht.ac.symm ht.bc.symm hh
  refine ⟨_, g', hit, ?_, hg', hrem⟩
  simp [graph.namesOf, hva, hvb, hvc]

theorem triangle_cluster_first (high med : Nat) {g : graph} {a b c idx : Nat}
    {eab eac ebc : edge} (hg : g.WellFormed) (hd : g.DistinctIdentities)
    (ht : IsTriangle g a b c eab eac ebc)
    (hidx : strongestEdgeIndex g.edges = .ok idx) (hge : g.edges[idx]? = some eab)
    (hhigh : ∀ x ∈ [a, b, c], ∀ v, g.getVertex x = some v → ∃ y ∈ v.edges, high ≤ y.weight) :
    ∃ cl g', tripleLinkIteration g high med = .ok (cl, g') ∧
      cl.Perm (g.namesOf [a, b, c]) ∧ g'.WellFormed ∧ g.Removes g' [a, b, c] := by
  obtain ⟨va, hva, hvae⟩ := ht.va
  obtain ⟨vb, hvb, hvbe⟩ := ht.vb
  have ia : eab.incident a = true :=
    getVertex_id hva ▸ (hg.incident va (getVertex_mem hva) eab (pair_mem_left hvae)).2
  have ib : eab.incident b = true :=
    getVertex_id hvb ▸ (hg.incident vb (getVertex_mem hvb) eab (pair_mem_left hvbe)).2
  rcases joins_cases ia ib ht.ab with ⟨hl, hr⟩ | ⟨hl, hr⟩
  · exact triangle_cluster_core high med hg hd ht hidx hge hl hr hhigh
  · obtain ⟨cl, g', hit, hp, hg', hrem⟩ :=
      triangle_cluster_core high med hg hd ht.swap hidx hge hl hr
        (fun x hx => hhigh x (by simp at hx ⊢; tauto))
    refine ⟨cl, g', hit, hp.trans (namesOf_perm g (List.Perm.swap _ _ _)), hg',
      removes_congr hrem (fun x => by simp; tauto)⟩

/-- One iteration seeded on any edge of a triangle whose vertexes each own an edge of weight
at least `high`: the cluster holds exactly the three identities of the triangle, and what
is left is the graph without the triangle. -/
theorem triangle_cluster (high med : Nat) {g : graph} {a b c idx : Nat}
    {eab eac ebc e : edge} (hg : g.WellFormed) (hd : g.DistinctIdentities)
    (ht : IsTriangle g a b c eab eac ebc)
    (hidx : strongestEdgeIndex g.edges = .ok idx) (hge : g.edges[idx]? = some e)
    (he : e ∈ [eab, eac, ebc])
    (hhigh : ∀ x ∈ [a, b, c], ∀ v, g.getVertex x = some v → ∃ y ∈ v.edges, high ≤ y.weight) :
    ∃ cl g', tripleLinkIteration g high med = .ok (cl, g') ∧
      cl.Perm (g.namesOf [a, b, c]) ∧ g'.WellFormed ∧ g.Removes g' [a, b, c] := by
  simp only [List.mem_cons, List.mem_singleton, List.not_mem_nil, or_false] at he
  rcases he with rfl | rfl | rfl
  · exact triangle_cluster_first high med hg hd ht hidx hge hhigh
  · have ht' : IsTriangle g a c b e eab ebc := ht.rotate.swap.rotate.rotate
    obtain ⟨cl, g', hit, hp, hg', hrem⟩ :=
      triangle_cluster_first high med hg hd ht' hidx hge
        (fun x hx => hhigh x (by simp at hx ⊢; tauto))
    refine ⟨cl, g', hit, hp.trans (namesOf_perm g ?_), hg',
      removes_congr hrem (fun x => by simp; tauto)⟩
    exact (List.Perm.swap _ _ _).cons _
  · have ht' : IsTriangle g b c a e eab eac := ht.rotate
    obtain ⟨cl, g', hit, hp, hg', hrem⟩ :=
      triangle_cluster_first high med hg hd ht' hidx hge
        (fun x hx => hhigh x (by simp at hx ⊢; tauto))
    refine ⟨cl, g', hit, hp.trans (namesOf_perm g ?_), hg',
      removes_congr hrem (fun x => by simp; tauto)⟩
    exact ((List.Perm.swap a c []).cons b).trans (List.Perm.swap a b [c])

/-! ## Two disjoint triangles -/

theorem IsTriangle.joins {g : graph} {a b c : Nat} {eab eac ebc : edge}
    (ht : IsTriangle g a b c eab eac ebc) (hg : g.WellFormed) :
    ((eab.left = a ∧ eab.right = b) ∨ (eab.left = b ∧ eab.right = a)) ∧
    ((eac.left = a ∧ eac.right = c) ∨ (eac.left = c ∧ eac.right = a)) ∧
    ((ebc.left = b ∧ ebc.right = c) ∨ (ebc.left = c ∧ ebc.right = b)) := by
  obtain ⟨va, hva, hvae⟩ := ht.va
  obtain ⟨vb, hvb, hvbe⟩ := ht.vb
  obtain ⟨vc, hvc, hvce⟩ := ht.vc
  have ia := fun y hy => getVertex_id hva ▸ (hg.incident va (getVertex_mem hva) y hy).2
  have ib := fun y hy => getVertex_id hvb ▸ (hg.incident vb (getVertex_mem hvb) y hy).2
  have ic := fun y hy => getVertex_id hvc ▸ (hg.incident vc (getVertex_mem hvc) y hy).2
  exact ⟨joins_cases (ia _ (pair_mem_left hvae)) (ib _ (pair_mem_left hvbe)) ht.ab,
    joins_cases (ia _ (pair_mem_right hvae)) (ic _ (pair_mem_left hvce)) ht.ac,
    joins_cases (ib _ (pair_mem_right hvbe)) (ic _ (pair_mem_right hvce)) ht.bc⟩

theorem avoids_of_joins {y : edge} {p q : Nat} {hs : List Nat}
    (hj : (y.left = p ∧ y.right = q) ∨ (y.left = q ∧ y.right = p))
    (hp : p ∉ hs) (hq : q ∉ hs) : y.avoids hs = true := by
  rcases hj with ⟨h1, h2⟩ | ⟨h1, h2⟩ <;> simp [edge.avoids, h1, h2, hp, hq]

theorem not_avoids_of_joins {y : edge} {p q : Nat} {hs : List Nat}
    (hj : (y.left = p ∧ y.right = q) ∨ (y.left = q ∧ y.right = p))
    (hp : p ∈ hs) (hq : q ∈ hs) : y.avoids hs = false := by
  rcases hj with ⟨h1, h2⟩ | ⟨h1, h2⟩ <;> simp [edge.avoids, h1, h2, hp, hq]

theorem pair_filter_all {l : List edge} {x y : edge} (p : edge → Bool)
    (h : l = [x, y] ∨ l = [y, x]) (hx : p x = true) (hy : p y = true) :
    l.filter p = l := by
  rcases h with h | h <;> simp [h, hx, hy]

theorem isWeak_congr (high med : Nat) {u v : vertex} (h : u.edges = v.edges) :
    isWeak high med u = isWeak high med v := by
  simp [isWeak, vertex.getNumEdges, h]

theorem high_of_keep {high med : Nat} {v : vertex} (h : isWeak high med v = false) :
    ∃ y ∈ v.edges, high ≤ y.weight := by
  obtain ⟨_, i, j, ei, ej, hi, _, _, hhigh, _, _⟩ := (isWeak_false_iff high med v).1 h
  exact ⟨ei, List.getElem?_mem hi, hhigh⟩

theorem TwoTriangles.exchange {g : graph} {a b c d e f : Nat} {e1 e2 e3 e4 e5 e6 : edge}
    (ht : TwoTriangles g a b c d e f e1 e2 e3 e4 e5 e6) :
    TwoTriangles g d e f a b c e4 e5 e6 e1 e2 e3 :=
  ⟨ht.wf, ht.distinct,
    ht.handles.trans (@List.perm_append_comm _ [a, b, c] [d, e, f]),
    ht.edges.trans (@List.perm_append_comm _ [e1, e2, e3] [e4, e5, e6]),
    ht.second, ht.first⟩

/-- What is left of a triangle when another, vertex-disjoint one is removed. -/
theorem IsTriangle.ofRemoves {g g' : graph} {a b c : Nat} {eab eac ebc : edge}
    {hs : List Nat} (ht : IsTriangle g a b c eab eac ebc) (hg : g.WellFormed)
    (hg' : g'.WellFormed) (hrem : g.Removes g' hs) (ha : a ∉ hs) (hb : b ∉ hs) (hc : c ∉ hs) :
    IsTriangle g' a b c eab eac ebc ∧ g'.namesOf [a, b, c] = g.namesOf [a, b, c] := by
  obtain ⟨j1, j2, j3⟩ := ht.joins hg
  have a1 := avoids_of_joins j1 ha hb
  have a2 := avoids_of_joins j2 ha hc
  have a3 := avoids_of_joins j3 hb hc
  obtain ⟨va, hva, hvae⟩ := ht.va
  obtain ⟨vb, hvb, hvbe⟩ := ht.vb
  obtain ⟨vc, hvc, hvce⟩ := ht.vc
  obtain ⟨ua, hua, hna, huae⟩ := removes_lookup hg' hrem hva ha
  obtain ⟨ub, hub, hnb, hube⟩ := removes_lookup hg' hrem hvb hb
  obtain ⟨uc, huc, hnc, huce⟩ := removes_lookup hg' hrem hvc hc
  rw [pair_filter_all _ hvae a1 a2] at huae
  rw [pair_filter_all _ hvbe a1 a3] at hube
  rw [pair_filter_all _ hvce a2 a3] at huce
  refine ⟨⟨ht.ab, ht.ac, ht.bc, ⟨ua, hua, huae ▸ hvae⟩, ⟨ub, hub, hube ▸ hvbe⟩,
    ⟨uc, huc, huce ▸ hvce⟩⟩, ?_⟩
  simp [graph.namesOf, hva, hvb, hvc, hua, hub, huc, hna, hnb, hnc]

theorem TwoTriangles.nodup {g : graph} {a b c d e f : Nat} {e1 e2 e3 e4 e5 e6 : edge}
    (ht : TwoTriangles g a b c d e f e1 e2 e3 e4 e5 e6) : [a, b, c, d, e, f].Nodup :=
  ht.handles.nodup_iff.1 ht.wf.vertexIds

theorem TwoTriangles.apart {g : graph} {a b c d e f : Nat} {e1 e2 e3 e4 e5 e6 : edge}
    (ht : TwoTriangles g a b c d e f e1 e2 e3 e4 e5 e6) :
    d ∉ [a, b, c] ∧ e ∉ [a, b, c] ∧ f ∉ [a, b, c] := by
  have hn := ht.nodup
  simp only [List.nodup_cons, List.mem_cons, List.mem_singleton, List.not_mem_nil, or_false,
    not_or, List.nodup_nil, and_true, not_false_eq_true] at hn ⊢
  omega

/-- In a graph of two disjoint triangles every edge owned by a vertex outside the first
triangle avoids the first triangle. -/
theorem TwoTriangles.avoid {g : graph} {a b c d e f : Nat} {e1 e2 e3 e4 e5 e6 : edge}
    (ht : TwoTriangles g a b c d e f e1 e2 e3 e4 e5 e6) {v : vertex} (hv : v ∈ g.vertexes)
    (hid : v.id ∉ [a, b, c]) : ∀ y ∈ v.edges, y.avoids [a, b, c] = true := by
  intro y hy
  obtain ⟨hd, he, hf⟩ := ht.apart
  obtain ⟨j1, j2, j3⟩ := ht.first.joins ht.wf
  obtain ⟨j4, j5, j6⟩ := ht.second.joins ht.wf
  obtain ⟨hyg, hinc⟩ := ht.wf.incident v hv y hy
  have hmem := ht.edges.mem_iff.1 hyg
  rw [incident_iff] at hinc
  simp only [List.mem_cons, List.mem_singleton, List.not_mem_nil, or_false, not_or] at hmem hid
  rcases hmem with rfl | rfl | rfl | rfl | rfl | rfl
  · exfalso; rcases j1 with ⟨h1, h2⟩ | ⟨h1, h2⟩ <;> rw [h1, h2] at hinc <;> omega
  · exfalso; rcases j2 with ⟨h1, h2⟩ | ⟨h1, h2⟩ <;> rw [h1, h2] at hinc <;> omega
  · exfalso; rcases j3 with ⟨h1, h2⟩ | ⟨h1, h2⟩ <;> rw [h1, h2] at hinc <;> omega
  · exact avoids_of_joins j4 hd he
  · exact avoids_of_joins j5 hd hf
  · exact avoids_of_joins j6 he hf

/-- Two disjoint triangles without weak vertex, the first seed lying in the first
triangle: `tripleLink` returns the first triangle, then the second. -/
theorem triangles_in_turn (high med : Nat) {g : graph} {a b c d e f : Nat}
    {e1 e2 e3 e4 e5 e6 : edge} (ht : TwoTriangles g a b c d e f e1 e2 e3 e4 e5 e6)
    (hkeep : ∀ v ∈ g.vertexes, isWeak high med v = false)
    {idx : Nat} {s : edge} (hidx : strongestEdgeIndex g.edges = .ok idx)
    (hge : g.edges[idx]? = some s) (hs : s ∈ [e1, e2, e3]) :
    ∃ c1 c2 g', tripleLink g ⟨high, med⟩ = .ok ([c1, c2], g') ∧
      c1.Perm (g.namesOf [a, b, c]) ∧ c2.Perm (g.namesOf [d, e, f]) := by
  have hg := ht.wf
  obtain ⟨hda, hea, hfa⟩ := ht.apart
  obtain ⟨j1, j2, j3⟩ := ht.first.joins hg
  obtain ⟨j4, j5, j6⟩ := ht.second.joins hg
  have hhigh : ∀ x, ∀ v, g.getVertex x = some v → ∃ y ∈ v.edges, high ≤ y.weight :=
    fun x v hv => high_of_keep (hkeep v (getVertex_mem hv))
  -- first iteration
  obtain ⟨c1, g1, hit1, hp1, hg1, hrem1⟩ :=
    triangle_cluster high med hg ht.distinct ht.first hidx hge hs (fun x _ => hhigh x)
  obtain ⟨ht1, hn1⟩ := ht.second.ofRemoves hg hg1 hrem1 hda hea hfa
  have hweak1 : ∀ v ∈ g1.vertexes, isWeak high med v = false := by
    intro u hu
    have hlu := getVertex_of_mem hg1.vertexIds hu
    obtain ⟨v, hv, hue⟩ := hrem1.2.2 u.id u hlu
    have hk : (u.id, u.value.nameIndex) ∈ g1.keys := getVertex_key hlu
    rw [hrem1.1] at hk
    have hnot : u.id ∉ [a, b, c] := by simpa using (List.mem_filter.1 hk).2
    have hvid := getVertex_id hv
    have hall := ht.avoid (getVertex_mem hv) (hvid ▸ hnot)
    rw [List.filter_eq_self.2 hall] at hue
    rw [isWeak_congr high med hue]
    exact hkeep v (getVertex_mem hv)
  have hpr1 := removeWeakVerticies_fixed hweak1
  have he1 : g1.edges.Perm [e4, e5, e6] := by
    rw [hrem1.2.1]
    have := ht.edges.filter (edge.avoids [a, b, c])
    simpa [List.filter, not_avoids_of_joins j1, not_avoids_of_joins j2,
      not_avoids_of_joins j3, avoids_of_joins j4 hda hea, avoids_of_joins j5 hda hfa,
      avoids_of_joins j6 hea hfa] using this
  have hne1 : g1.edges ≠ [] := by
    intro h
    rw [h] at he1
    have := he1.length_eq
    simp at this
  -- second iteration
  obtain ⟨idx', s', hidx', hge', _, _⟩ := strongestEdgeIndex_spec hne1
  have hs' : s' ∈ [e4, e5, e6] := he1.mem_iff.1 (List.getElem?_mem hge')
  obtain ⟨c2, g2, hit2, hp2, hg2, hrem2⟩ :=
    triangle_cluster high med hg1 (removes_distinct hrem1 ht.distinct) ht1 hidx' hge' hs'
      (fun x _ v hv => high_of_keep (hweak1 v (getVertex_mem hv)))
  rw [hn1] at hp2
  have hv2 : g2.vertexes = [] := by
    have hk2 : g2.keys = [] := by
      rw [hrem2.1, hrem1.1, List.filter_filter, List.filter_eq_nil_iff]
      intro k hk
      have hmem : k.1 ∈ g.vertexes.map vertex.id := by
        rw [handles_eq]; exact List.mem_map_of_mem Prod.fst hk
      have := ht.handles.mem_iff.1 hmem
      simp only [List.mem_cons, List.mem_singleton, List.not_mem_nil, or_false] at this
      rcases this with h | h | h | h | h | h <;> simp [h]
    simpa [graph.keys] using hk2
  have he2 : g2.edges = [] := by
    have := he1.filter (edge.avoids [d, e, f])
    rw [← hrem2.2.1] at this
    simpa [List.filter, not_avoids_of_joins j4, not_avoids_of_joins j5,
      not_avoids_of_joins j6] using this
  have hpr2 : removeWeakVerticies g2 high med = .ok g2 :=
    removeWeakVerticies_fixed (by rw [hv2]; simp)
  -- the clustering loop
  have hpr0 := removeWeakVerticies_fixed hkeep
  have hn0 : g.getNumEdges = 6 := by
    have := ht.edges.length_eq
    simpa [graph.getNumEdges] using this
  have hn1' : g1.getNumEdges = 3 := by
    have := he1.length_eq
    simpa [graph.getNumEdges] using this
  have hn2' : g2.getNumEdges = 0 := by simp [graph.getNumEdges, he2]
  refine ⟨c1, c2, g2, ?_, hp1, hp2⟩
  unfold tripleLink
  simp only [hpr0, hn0]
  unfold tripleLinkLoop
  simp only [hn0, hit1, hpr1]
  unfold tripleLinkLoop
  simp only [hn1', hit2, hpr2]
  unfold tripleLinkLoop
  simp [hn2']

/-! ## Facts about the example graphs -/

theorem evenTriangle_wf : evenTriangle.WellFormed :=
  ⟨by decide, by decide, by decide, by decide, by decide, by decide, by decide⟩

theorem twoTriangles_wf : (twoTriangles 3).WellFormed :=
  ⟨by decide, by decide, by decide, by decide, by decide, by decide, by decide⟩

theorem scenarioGraph_wf : scenarioGraph.WellFormed :=
  ⟨by decide, by decide, by decide, by decide, by decide, by decide, by decide⟩

theorem scenarioTriangle_wf : scenarioTriangle.WellFormed :=
  ⟨by decide, by decide, by decide, by decide, by decide, by decide, by decide⟩

theorem scenario_pruned (b1 b2 b3 : Nat) (h1 : b1 < b2) (h2 : b2 ≤ b3) :
    removeWeakVerticies (triangleWith b3 b3 b1 [3]) b3 b2 = .ok ⟨[], []⟩ := by
  have e1 : ¬ b3 ≤ b1 := by omega
  have e2 : ¬ b2 ≤ b1 := by omega
  simp [removeWeakVerticies, removeWeakVerticiesLoop, removeWeakVerticiesOnce,
    removeWeakVerticiesPass, triangleWith, mkVertex, weakScan, graph.removeVertex,
    graph.getVertex, graph.getNumVertexes, vertex.getNumEdges, vertex.dropIncident,
    edge.incident, e1, e2, h2]

theorem twoTriangles_shape (w : Nat) :
    TwoTriangles (twoTriangles w) 0 1 2 3 4 5 ⟨0, 0, 1, w⟩ ⟨1, 0, 2, w⟩ ⟨2, 1, 2, w⟩
      ⟨3, 3, 4, w⟩ ⟨4, 3, 5, w⟩ ⟨5, 4, 5, w⟩ where
  wf := ⟨by simp [twoTriangles, mkVertex], by simp [twoTriangles], by simp [twoTriangles],
    by simp [twoTriangles, mkVertex], by simp [twoTriangles, mkVertex],
    by simp [twoTriangles, mkVertex, edge.incident],
    by simp [twoTriangles, mkVertex]⟩
  distinct := by simp [graph.DistinctIdentities, twoTriangles, mkVertex]
  handles := List.Perm.refl _
  edges := List.Perm.refl _
  first := ⟨by decide, by decide, by decide, ⟨_, rfl, Or.inl rfl⟩, ⟨_, rfl, Or.inl rfl⟩,
    ⟨_, rfl, Or.inl rfl⟩⟩
  second := ⟨by decide, by decide, by decide, ⟨_, rfl, Or.inl rfl⟩, ⟨_, rfl, Or.inl rfl⟩,
    ⟨_, rfl, Or.inl rfl⟩⟩

/-- In a graph of two disjoint triangles every vertex has degree 2. -/
theorem TwoTriangles.degree {g : graph} {a b c d e f : Nat} {e1 e2 e3 e4 e5 e6 : edge}
    (ht : TwoTriangles g a b c d e f e1 e2 e3 e4 e5 e6) {v : vertex} (hv : v ∈ g.vertexes) :
    v.getNumEdges = 2 := by
  have hl := getVertex_of_mem ht.wf.vertexIds hv
  have hmem := ht.handles.mem_iff.1 (List.mem_map_of_mem vertex.id hv)
  have key : ∀ x, v.id = x →
      (∃ u, g.getVertex x = some u ∧ ∃ p q : edge, u.edges = [p, q] ∨ u.edges = [q, p]) →
      v.getNumEdges = 2 := by
    rintro x rfl ⟨u, hu, p, q, hpq⟩
    rw [hl] at hu
    cases hu
    rcases hpq with h | h <;> simp [vertex.getNumEdges, h]
  simp only [List.mem_cons, List.mem_singleton, List.not_mem_nil, or_false] at hmem
  rcases hmem with h | h | h | h | h | h
  · obtain ⟨u, hu, he⟩ := ht.first.va; exact key _ h ⟨u, hu, _, _, he⟩
  · obtain ⟨u, hu, he⟩ := ht.first.vb; exact key _ h ⟨u, hu, _, _, he⟩
  · obtain ⟨u, hu, he⟩ := ht.first.vc; exact key _ h ⟨u, hu, _, _, he⟩
  · obtain ⟨u, hu, he⟩ := ht.second.va; exact key _ h ⟨u, hu, _, _, he⟩
  · obtain ⟨u, hu, he⟩ := ht.second.vb; exact key _ h ⟨u, hu, _, _, he⟩
  · obtain ⟨u, hu, he⟩ := ht.second.vc; exact key _ h ⟨u, hu, _, _, he⟩

theorem IsTriangle.names {g : graph} {a b c : Nat} {eab eac ebc : edge}
    (ht : IsTriangle g a b c eab eac ebc) : (g.namesOf [a, b, c]).length = 3 := by
  obtain ⟨va, hva, _⟩ := ht.va
  obtain ⟨vb, hvb, _⟩ := ht.vb
  obtain ⟨vc, hvc, _⟩ := ht.vc
  simp [graph.namesOf, hva, hvb, hvc]

/-! ## Further facts used by the claims on safety and exhaustion -/

theorem owns_both {g : graph} {e : edge} (hg : g.WellFormed) (he : e ∈ g.edges) :
    g.owns e.left e = true ∧ g.owns e.right e = true := by
  obtain ⟨l, hl, hlid, hle⟩ := hg.leftOwns e he
  obtain ⟨r, hr, hrid, hre⟩ := hg.rightOwns e he
  exact ⟨hlid ▸ owns_of_mem hg.vertexIds hl hle, hrid ▸ owns_of_mem hg.vertexIds hr hre⟩

theorem no_vertex_of_no_edge {g : graph} {high med : Nat} (hg : g.WellFormed)
    (he : g.edges = []) (hw : ∀ v ∈ g.vertexes, isWeak high med v = false) :
    g = ⟨[], []⟩ := by
  have hv : g.vertexes = [] := by
    rw [List.eq_nil_iff_forall_not_mem]
    intro v hv
    have hdeg := ((isWeak_false_iff high med v).1 (hw v hv)).1
    have hnil : v.edges = [] := by
      rw [List.eq_nil_iff_forall_not_mem]
      intro e hev
      have := (hg.incident v hv e hev).1
      rw [he] at this
      cases this
    simp [vertex.getNumEdges, hnil] at hdeg
  obtain ⟨vs, es⟩ := g
  simp only at hv he
  rw [hv, he]

/-! ## Markers only grow during a pass -/

theorem growsTo_refl (v : geneData) : v.GrowsTo v := ⟨rfl, id, id, id⟩

theorem growsTo_trans {a b c : geneData} (h1 : a.GrowsTo b) (h2 : b.GrowsTo c) :
    a.GrowsTo c :=
  ⟨h2.1.trans h1.1, fun h => h2.2.1 (h1.2.1 h), fun h => h2.2.2.1 (h1.2.2.1 h),
    fun h => h2.2.2.2 (h1.2.2.2 h)⟩

theorem markConnectedVertexSingle_admits :
    MarkFn.Admits markConnectedVertexSingle ruleSingle := by
  refine ⟨?_, ?_, ?_, ?_, ?_, ?_⟩
  · intro w v h m q
    obtain ⟨n, a, b, c⟩ := v
    by_cases h1 : h ≤ w <;> by_cases h2 : m ≤ w <;> cases a <;> cases b <;> cases c <;>
      simp [markConnectedVertexSingle, geneData.GrowsTo, h1, h2]
  · intro w v h m q
    obtain ⟨n, a, b, c⟩ := v
    by_cases h1 : h ≤ w <;> by_cases h2 : m ≤ w <;> cases a <;> cases b <;> cases c <;>
      simp [markConnectedVertexSingle, ruleSingle, h1, h2]
  · intro w v h m q
    obtain ⟨n, a, b, c⟩ := v
    by_cases h1 : h ≤ w <;> by_cases h2 : m ≤ w <;> cases a <;> cases b <;> cases c <;>
      simp [markConnectedVertexSingle, ruleSingle, h1, h2]
  · intro w v h m q
    obtain ⟨n, a, b, c⟩ := v
    by_cases h1 : h ≤ w <;> by_cases h2 : m ≤ w <;> cases a <;> cases b <;> cases c <;>
      simp [markConnectedVertexSingle, h1, h2]
  · intro v hv; exact hv
  · intro v u hg hv; exact hg.2.1 hv

theorem markConnectedVertexDouble_admits :
    MarkFn.Admits markConnectedVertexDouble ruleDouble := by
  refine ⟨?_, ?_, ?_, ?_, ?_, ?_⟩
  · intro w v h m q
    obtain ⟨n, a, b, c⟩ := v
    by_cases h1 : h ≤ w <;> by_cases h2 : m ≤ w <;> cases a <;> cases b <;> cases c <;>
      simp [markConnectedVertexDouble, geneData.GrowsTo, h1, h2]
  · intro w v h m q
    obtain ⟨n, a, b, c⟩ := v
    by_cases h1 : h ≤ w <;> by_cases h2 : m ≤ w <;> cases a <;> cases b <;> cases c <;>
      simp [markConnectedVertexDouble, ruleDouble, h1, h2]
  · intro w v h m q
    obtain ⟨n, a, b, c⟩ := v
    by_cases h1 : h ≤ w <;> by_cases h2 : m ≤ w <;> cases a <;> cases b <;> cases c <;>
      simp [markConnectedVertexDouble, ruleDouble, h1, h2]
  · intro w v h m q
    obtain ⟨n, a, b, c⟩ := v
    by_cases h1 : h ≤ w <;> by_cases h2 : m ≤ w <;> cases a <;> cases b <;> cases c <;>
      simp [markConnectedVertexDouble, h1, h2]
  · intro v hv
    simp only [ruleDouble, Bool.and_eq_true] at hv
    exact hv.1
  · intro v u hg hv
    simp only [ruleDouble, Bool.and_eq_true] at hv ⊢
    exact ⟨hg.2.1 hv.1, hg.2.2.1 hv.2⟩

theorem markConnectedVertexTriple_admits :
    MarkFn.Admits markConnectedVertexTriple ruleTriple := by
  refine ⟨?_, ?_, ?_, ?_, ?_, ?_⟩
  · intro w v h m q
    obtain ⟨n, a, b, c⟩ := v
    by_cases h1 : h ≤ w <;> by_cases h2 : m ≤ w <;> cases a <;> cases b <;> cases c <;>
      simp [markConnectedVertexTriple, geneData.GrowsTo, h1, h2]
  · intro w v h m q
    obtain ⟨n, a, b, c⟩ := v
    by_cases h1 : h ≤ w <;> by_cases h2 : m ≤ w <;> cases a <;> cases b <;> cases c <;>
      simp [markConnectedVertexTriple, ruleTriple, h1, h2]
  · intro w v h m q
    obtain ⟨n, a, b, c⟩ := v
    by_cases h1 : h ≤ w <;> by_cases h2 : m ≤ w <;> cases a <;> cases b <;> cases c <;>
      simp [markConnectedVertexTriple, ruleTriple, h1, h2]
  · intro w v h m q
    obtain ⟨n, a, b, c⟩ := v
    by_cases h1 : h ≤ w <;> by_cases h2 : m ≤ w <;> cases a <;> cases b <;> cases c <;>
      simp [markConnectedVertexTriple, h1, h2]
  · intro v hv
    simp only [ruleTriple, Bool.and_eq_true] at hv
    exact hv.1.1
  · intro v u hg hv
    simp only [ruleTriple, Bool.and_eq_true] at hv ⊢
    exact ⟨⟨hg.2.1 hv.1.1, hg.2.2.1 hv.1.2⟩, hg.2.2.2 hv.2⟩

theorem valuesGrow_refl (g : graph) : g.ValuesGrow g :=
  ⟨fun _ u hu => ⟨u, hu, growsTo_refl _⟩, fun v hv => ⟨v, hv, rfl, growsTo_refl _⟩⟩

theorem valuesGrow_trans {a b c : graph} (h1 : a.ValuesGrow b) (h2 : b.ValuesGrow c) :
    a.ValuesGrow c := by
  refine ⟨?_, ?_⟩
  · intro w u hu
    obtain ⟨v, hv, hg⟩ := h2.1 w u hu
    obtain ⟨v', hv', hg'⟩ := h1.1 w v hv
    exact ⟨v', hv', growsTo_trans hg' hg⟩
  · intro v hv
    obtain ⟨u, hu, hid, hg⟩ := h1.2 v hv
    obtain ⟨u', hu', hid', hg'⟩ := h2.2 u hu
    exact ⟨u', hu', hid'.trans hid, growsTo_trans hg hg'⟩

theorem store_grows {g : graph} {t : Nat} {toMark : vertex} {val : geneData}
    (hg : g.WellFormed) (htm : g.getVertex t = some toMark)
    (hgr : toMark.value.GrowsTo val) {v : vertex} (hv : v ∈ g.vertexes) :
    v.value.GrowsTo (vertex.store toMark.id val v).value := by
  unfold vertex.store
  split
  · rename_i hid
    rw [eq_of_id_eq hg hv (getVertex_mem htm) hid]
    exact hgr
  · exact growsTo_refl _

theorem valuesGrow_setValue {g : graph} {t : Nat} {toMark : vertex} {val : geneData}
    (hg : g.WellFormed) (htm : g.getVertex t = some toMark)
    (hgr : toMark.value.GrowsTo val) : g.ValuesGrow (g.setValue toMark.id val) := by
  refine ⟨?_, ?_⟩
  · intro w u hu
    rw [getVertex_setValue] at hu
    cases hw : g.getVertex w with
    | none => rw [hw] at hu; cases hu
    | some v =>
      rw [hw] at hu
      cases hu
      exact ⟨v, rfl, store_grows hg htm hgr (getVertex_mem hw)⟩
  · intro v hv
    exact ⟨vertex.store toMark.id val v, List.mem_map_of_mem _ hv, store_id _ _ _,
      store_grows hg htm hgr hv⟩

theorem valuesGrow_removeEdge {g g' : graph} {e : edge} (h : g.removeEdge e = .ok g') :
    g.ValuesGrow g' := by
  refine ⟨?_, ?_⟩
  · intro w u hu
    rw [getVertex_removeEdge h] at hu
    cases hw : g.getVertex w with
    | none => rw [hw] at hu; cases hu
    | some v =>
      rw [hw] at hu
      cases hu
      exact ⟨v, rfl, by rw [detach_value]; exact growsTo_refl _⟩
  · intro v hv
    rw [removeEdge_eq h]
    exact ⟨vertex.detach e v, List.mem_map_of_mem _ hv, detach_id e v,
      by rw [detach_value]; exact growsTo_refl _⟩

/-- During an expansion pass markers only grow, and every identity the pass enqueues is
that of a vertex which satisfies the admission rule of the pass. -/
theorem pass_grows {mark : MarkFn} {rule : geneData → Bool} (ha : MarkFn.Admits mark rule)
    (markFrom high med fuel i : Nat) (g : graph) (q : List Nat) (res : graph × List Nat)
    (hg : g.WellFormed)
    (hres : markConnectedVertexesLoop mark markFrom high med fuel i g q = .ok res) :
    g.ValuesGrow res.1 ∧
    ∃ ext, res.2 = q ++ ext ∧
      ∀ x ∈ ext, ∃ u ∈ res.1.vertexes, u.value.nameIndex = x ∧ rule u.value = true := by
  have key : ∀ (g1 g2 : graph) (q1 : List Nat) (toMark : vertex) (w : Nat),
      g1.ValuesGrow g2 →
      (∃ u ∈ g2.vertexes, u.id = toMark.id ∧
        (mark w toMark.value high med q1).2.1.GrowsTo u.value) →
      (∃ ext, q1 = q ++ ext ∧
        ∀ x ∈ ext, ∃ u ∈ g1.vertexes, u.value.nameIndex = x ∧ rule u.value = true) →
      ∃ ext, (mark w toMark.value high med q1).2.2 = q ++ ext ∧
        ∀ x ∈ ext, ∃ u ∈ g2.vertexes, u.value.nameIndex = x ∧ rule u.value = true := by
    intro g1 g2 q1 toMark w hvg hnew hext
    obtain ⟨ext, hq, hall⟩ := hext
    have hold : ∀ x ∈ ext, ∃ u ∈ g2.vertexes, u.value.nameIndex = x ∧ rule u.value = true := by
      intro x hx
      obtain ⟨u, hu, hn, hr⟩ := hall x hx
      obtain ⟨u', hu', _, hgr⟩ := hvg.2 u hu
      exact ⟨u', hu', hgr.1.trans hn, ha.ruleMono _ _ hgr hr⟩
    rw [ha.queue]
    split
    · rename_i hc
      refine ⟨ext ++ [toMark.value.nameIndex], by rw [hq, List.append_assoc], ?_⟩
      intro x hx
      rcases List.mem_append.1 hx with hx | hx
      · exact hold x hx
      · obtain ⟨u, hu, _, hgr⟩ := hnew
        rw [List.mem_singleton.1 hx]
        exact ⟨u, hu, hgr.1.trans (ha.grows _ _ _ _ _).1, ha.ruleMono _ _ hgr hc.2⟩
    · exact ⟨ext, hq, hold⟩
  have := markLoop_rule mark markFrom high med
    (fun g1 q1 => g.ValuesGrow g1 ∧ ∃ ext, q1 = q ++ ext ∧
      ∀ x ∈ ext, ∃ u ∈ g1.vertexes, u.value.nameIndex = x ∧ rule u.value = true)
    ?keep ?drop fuel i g q res hg ⟨valuesGrow_refl g, [], by simp, by simp⟩ hres
  · exact this.2
  case keep =>
    intro g1 q1 mf1 toMark e hg1 _ _ htm hinv _
    have hstep := valuesGrow_setValue hg1 htm (ha.grows e.weight toMark.value high med q1)
    refine ⟨valuesGrow_trans hinv.1 hstep, key g1 _ q1 toMark e.weight hstep ?_ hinv.2⟩
    refine ⟨vertex.store toMark.id _ toMark, List.mem_map_of_mem _ (getVertex_mem htm),
      store_id _ _ _, ?_⟩
    rw [store_value_self]
    exact growsTo_refl _
  case drop =>
    intro g1 q1 mf1 toMark e g2 hg1 _ _ htm hinv _ hrm
    have hstep := valuesGrow_trans
      (valuesGrow_setValue hg1 htm (ha.grows e.weight toMark.value high med q1))
      (valuesGrow_removeEdge hrm)
    refine ⟨valuesGrow_trans hinv.1 hstep, key g1 _ q1 toMark e.weight hstep ?_ hinv.2⟩
    rw [removeEdge_eq hrm]
    refine ⟨vertex.detach e (vertex.store toMark.id _ toMark),
      List.mem_map_of_mem _ (List.mem_map_of_mem _ (getVertex_mem htm)), ?_, ?_⟩
    · rw [detach_id, store_id]
    · rw [detach_value, store_value_self]
      exact growsTo_refl _

theorem pass_monotone {mark : MarkFn} {rule : geneData → Bool} (ha : MarkFn.Admits mark rule)
    {markFrom : Nat} (high med : Nat) {g : graph} {mf : vertex} (q : List Nat)
    (hg : g.WellFormed) (hmf : g.getVertex markFrom = some mf) :
    ∃ g' ext, markConnectedVertexesLoop mark markFrom high med (passFuel g markFrom) 0 g q
        = .ok (g', q ++ ext) ∧ g'.WellFormed ∧ g.ValuesGrow g' ∧
      ∀ x ∈ ext, ∃ u ∈ g'.vertexes, u.value.nameIndex = x ∧ rule u.value = true := by
  obtain ⟨⟨g', q'⟩, hres⟩ := markLoop_total mark markFrom high med (passFuel g markFrom) 0 g q
    mf hg hmf (by simp [passFuel, hmf])
  obtain ⟨hvg, ext, hq, hall⟩ := pass_grows ha markFrom high med _ 0 g q _ hg hres
  have hwf := (markLoop_rule mark markFrom high med (fun _ _ => True)
    (fun _ _ _ _ _ _ _ _ _ _ _ => trivial) (fun _ _ _ _ _ _ _ _ _ _ _ _ _ => trivial)
    _ 0 g q _ hg trivial hres).1
  simp only at hq
  subst hq
  exact ⟨g', ext, hres, hwf, hvg, hall⟩

theorem mark_push_admits {mark : MarkFn} {rule : geneData → Bool}
    (ha : MarkFn.Admits mark rule) (w : Nat) (v : geneData) (high med : Nat) (q : List Nat)
    (h : (mark w v high med q).2.2 ≠ q) :
    (mark w v high med q).2.2 = q ++ [v.nameIndex] ∧ rule (mark w v high med q).2.1 = true := by
  have hq := ha.queue w v high med q
  by_cases hc : rule v = false ∧ rule (mark w v high med q).2.1 = true
  · rw [if_pos hc] at hq
    exact ⟨hq, hc.2⟩
  · rw [if_neg hc] at hq
    exact absurd hq h

/-! ## One step of the expansion pass, seen from outside -/

theorem store_value_ne {w : Nat} {val : geneData} {v : vertex} (h : v.id ≠ w) :
    vertex.store w val v = v := by
  simp [vertex.store, h]

/-- Invariant rule for the expansion pass with one obligation for both kinds of loop
body. -/
theorem markLoop_step_rule {mark : MarkFn} {rule : geneData → Bool}
    (ha : MarkFn.Admits mark rule) (markFrom high med : Nat)
    (Inv : graph → List Nat → Prop)
    (step : ∀ (g : graph) (q : List Nat) (mf toMark : vertex) (e : edge) (g2 : graph),
      g.WellFormed → g.getVertex markFrom = some mf → e ∈ g.edges →
      (e.left = markFrom ∨ e.right = markFrom) →
      g.getVertex (e.other markFrom) = some toMark → Inv g q →
      PassStep mark markFrom high med g q toMark e g2 →
      Inv g2 (mark e.weight toMark.value high med q).2.2)
    (fuel i : Nat) (g : graph) (q : List Nat) (res : graph × List Nat)
    (hg : g.WellFormed) (hinv : Inv g q)
    (hres : markConnectedVertexesLoop mark markFrom high med fuel i g q = .ok res) :
    res.1.WellFormed ∧ Inv res.1 res.2 := by
  refine markLoop_rule mark markFrom high med Inv ?keep ?drop fuel i g q res hg hinv hres
  case keep =>
    intro g1 q1 mf toMark e hg1 hmf he htm hi _
    obtain ⟨_, _, _, _, heg, hend⟩ := other_live hg1 hmf he
    refine step g1 q1 mf toMark e _ hg1 hmf heg hend htm hi
      ⟨hg1.setValue _ _, ?_, List.Sublist.refl _, ?_, ?_⟩
    · apply keys_setValue
      intro v hv hvid
      rw [eq_of_id_eq hg1 hv (getVertex_mem htm) hvid]
      exact (ha.grows _ _ _ _ _).1
    · exact ⟨vertex.store toMark.id _ toMark, List.mem_map_of_mem _ (getVertex_mem htm),
        store_id _ _ _, store_value_self _ _⟩
    · intro u hu hne
      obtain ⟨v, hv, rfl⟩ := List.mem_map.1 hu
      rw [store_id] at hne
      exact ⟨v, hv, by rw [store_id], by rw [store_value_ne hne]⟩
  case drop =>
    intro g1 q1 mf toMark e g2 hg1 hmf he htm hi _ hrm
    obtain ⟨_, _, _, _, heg, hend⟩ := other_live hg1 hmf he
    refine step g1 q1 mf toMark e g2 hg1 hmf heg hend htm hi
      ⟨(hg1.setValue _ _).removeEdge hrm, ?_, ?_, ?_, ?_⟩
    · rw [keys_removeEdge hrm]
      apply keys_setValue
      intro v hv hvid
      rw [eq_of_id_eq hg1 hv (getVertex_mem htm) hvid]
      exact (ha.grows _ _ _ _ _).1
    · rw [edges_removeEdge hrm]; exact List.filter_sublist _
    · rw [removeEdge_eq hrm]
      refine ⟨vertex.detach e (vertex.store toMark.id _ toMark),
        List.mem_map_of_mem _ (List.mem_map_of_mem _ (getVertex_mem htm)), ?_, ?_⟩
      · rw [detach_id, store_id]
      · rw [detach_value, store_value_self]
    · intro u hu hne
      rw [removeEdge_eq hrm] at hu
      obtain ⟨v1, hv1, rfl⟩ := List.mem_map.1 hu
      obtain ⟨v, hv, rfl⟩ := List.mem_map.1 hv1
      rw [detach_id, store_id] at hne
      exact ⟨v, hv, by rw [detach_id, store_id], by rw [detach_value, store_value_ne hne]⟩

/-! ## High-edge connectivity -/

theorem highLinked_mono {g : graph} {high : Nat} {D D' : List Nat} {x : Nat}
    (h : HighLinked g high D x) (hs : D ⊆ D') : HighLinked g high D' x := by
  obtain ⟨e, he, a, b, y, hw, ha, hb, hy, hj⟩ := h
  exact ⟨e, he, a, b, y, hw, ha, hb, hs hy, hj⟩

theorem linked_mono {R g : graph} {high : Nat} {D D' q : List Nat}
    (h : Linked R high D g q) (hs : D ⊆ D') : Linked R high D' g q :=
  ⟨h.1, fun u hu h3 => highLinked_mono (h.2.1 u hu h3) hs,
    fun x hx => highLinked_mono (h.2.2 x hx) hs⟩

theorem removeVertex_value {g : graph} {w : Nat} {u : vertex}
    (hu : u ∈ (g.removeVertex w).vertexes) :
    ∃ v ∈ g.vertexes, v.id = u.id ∧ v.value = u.value := by
  cases hw : g.getVertex w with
  | none => rw [removeVertex_absent hw] at hu; exact ⟨u, hu, rfl, rfl⟩
  | some wv =>
    rw [removeVertex_present hw] at hu
    obtain ⟨v, hv, rfl⟩ := List.mem_map.1 hu
    exact ⟨v, (List.mem_filter.1 hv).1, by rw [dropIncident_id], by rw [dropIncident_value]⟩

theorem linked_removeVertex {R g : graph} {high : Nat} {D q : List Nat}
    (h : Linked R high D g q) (w : Nat) : Linked R high D (g.removeVertex w) q := by
  refine ⟨(graph.Shrinks.ofRemoveVertex g w).trans h.1, ?_, h.2.2⟩
  intro u hu h3
  obtain ⟨v, hv, _, hval⟩ := removeVertex_value hu
  rw [← hval] at h3 ⊢
  exact h.2.1 v hv h3

/-- An expansion pass from a vertex whose identity is among `D` keeps every high marker and
every queued identity accounted for by a high edge to `D`. -/
theorem pass_linked {mark : MarkFn} {rule : geneData → Bool} (ha : MarkFn.Admits mark rule)
    (R : graph) (high med : Nat) (D : List Nat) {markFrom name : Nat} (fuel i : Nat)
    (g : graph) (q : List Nat) (res : graph × List Nat) (hg : g.WellFormed)
    (hk : (markFrom, name) ∈ g.keys) (hD : name ∈ D) (hl : Linked R high D g q)
    (hres : markConnectedVertexesLoop mark markFrom high med fuel i g q = .ok res) :
    res.1.WellFormed ∧ res.1.keys = g.keys ∧ Linked R high D res.1 res.2 := by
  have := markLoop_step_rule ha markFrom high med
    (fun g1 q1 => g1.keys = g.keys ∧ Linked R high D g1 q1) ?step fuel i g q res hg
    ⟨rfl, hl⟩ hres
  · exact ⟨this.1, this.2.1, this.2.2⟩
  case step =>
    intro g1 q1 mf toMark e g2 hg1 hmf heg hend htm hinv st
    obtain ⟨hk1, hsh, hv, hq⟩ := hinv
    have hnew : (mark e.weight toMark.value high med q1).2.1.threeSigmaLink = true →
        HighLinked R high D toMark.value.nameIndex := by
      intro h3
      rcases ha.gated _ _ _ _ _ h3 with h | h
      · exact hv toMark (getVertex_mem htm) h
      · refine ⟨e, hsh.2.subset heg, e.other markFrom, markFrom, name, h,
          hsh.1.subset (getVertex_key htm), hsh.1.subset (hk1 ▸ hk), hD, ?_⟩
        unfold edge.other
        split
        · rename_i hl'; exact Or.inr ⟨hl', rfl⟩
        · rename_i hl'
          rcases hend with h' | h'
          · exact absurd h' hl'
          · exact Or.inl ⟨rfl, h'⟩
    refine ⟨st.keys.trans hk1, ⟨by rw [st.keys]; exact hsh.1, st.edges.trans hsh.2⟩, ?_, ?_⟩
    · intro u hu h3
      by_cases hid : u.id = toMark.id
      · obtain ⟨u', hu', hid', hval⟩ := st.marked
        have hu2 := eq_of_id_eq st.wf hu hu' (hid.trans hid'.symm)
        subst hu2
        rw [hval] at h3 ⊢
        rw [(ha.grows _ _ _ _ _).1]
        exact hnew h3
      · obtain ⟨v, hv', _, hval⟩ := st.others u hu hid
        rw [← hval] at h3 ⊢
        exact hv v hv' h3
    · intro x hx
      rw [ha.queue] at hx
      split at hx
      · rename_i hc
        rcases List.mem_append.1 hx with h | h
        · exact hq x h
        · rw [List.mem_singleton.1 h]
          exact hnew (ha.ruleHigh _ hc.2)
      · exact hq x hx

theorem chainLinked_snoc {R : graph} {high : Nat} {tr : List Nat} {x : Nat}
    (h : ChainLinked R high tr) (hx : HighLinked R high tr x) :
    ChainLinked R high (tr ++ [x]) := by
  intro i y hi hy
  rcases Nat.lt_trichotomy i tr.length with hlt | heq | hgt
  · rw [List.getElem?_append_left hlt] at hy
    rw [List.take_append_of_le_length (Nat.le_of_lt hlt)]
    exact h i y hi hy
  · subst heq
    rw [List.getElem?_concat_length] at hy
    cases hy
    rw [List.take_left]
    exact hx
  · rw [List.getElem?_eq_none (by simp; omega)] at hy
    cases hy

theorem primerLoop_linked (R : graph) (high med : Nat) :
    ∀ (pq : List Nat) (g : graph) (mq tr : List Nat) (res : graph × List Nat × List Nat),
      g.WellFormed → Linked R high tr g mq → (∀ x ∈ pq, HighLinked R high tr x) →
      ChainLinked R high tr →
      primerLoop high med pq g mq tr = .ok res →
      res.1.WellFormed ∧ Linked R high res.2.2 res.1 res.2.1 ∧ ChainLinked R high res.2.2 := by
  intro pq
  induction pq with
  | nil =>
    intro g mq tr res hg hl _ hc hres
    simp only [primerLoop] at hres
    cases hres
    exact ⟨hg, hl, hc⟩
  | cons front rest ih =>
    intro g mq tr res hg hl hpq hc hres
    unfold primerLoop at hres
    cases hf : g.getVertexForValue front with
    | none =>
      rw [hf] at hres
      exact ih g mq tr res hg hl (fun x hx => hpq x (List.mem_cons_of_mem _ hx)) hc hres
    | some cv =>
      rw [hf] at hres
      dsimp only at hres
      obtain ⟨hcv, hname⟩ := getVertexForValue_spec hg hf
      have hsub : tr ⊆ tr ++ [cv.value.nameIndex] := List.subset_append_left _ _
      cases hp : markConnectedVertexesDouble cv.id high med g mq with
      | error f => rw [hp] at hres; cases hres
      | ok r =>
        obtain ⟨g1, mq1⟩ := r
        rw [hp] at hres
        dsimp only at hres
        obtain ⟨hg1, _, hl1⟩ := pass_linked markConnectedVertexDouble_admits R high med
          (tr ++ [cv.value.nameIndex]) _ 0 g mq (g1, mq1) hg (getVertex_key hcv)
          (by simp) (linked_mono hl hsub) hp
        refine ih (g1.removeVertex cv.id) mq1 (tr ++ [cv.value.nameIndex]) res
          (hg1.removeVertex _) (linked_removeVertex hl1 _)
          (fun x hx => highLinked_mono (hpq x (List.mem_cons_of_mem _ hx)) hsub)
          (chainLinked_snoc hc ?_) hres
        rw [hname]
        exact hpq front (List.mem_cons_self _ _)

theorem mainLoop_linked (R : graph) (high med : Nat) :
    ∀ (fuel : Nat) (g : graph) (q tr : List Nat) (res : List Nat × graph),
      g.WellFormed → Linked R high tr g q → ChainLinked R high tr →
      mainLoop high med fuel g q tr = .ok res → ChainLinked R high res.1 := by
  intro fuel
  induction fuel with
  | zero => intro g q tr res _ _ _ hres; simp [mainLoop] at hres
  | succ fuel ih =>
    intro g q tr res hg hl hc hres
    cases q with
    | nil =>
      simp only [mainLoop] at hres
      cases hres
      exact hc
    | cons front rest =>
      unfold mainLoop at hres
      have hrest : Linked R high tr g rest :=
        ⟨hl.1, hl.2.1, fun x hx => hl.2.2 x (List.mem_cons_of_mem _ hx)⟩
      cases hf : g.getVertexForValue front with
      | none =>
        rw [hf] at hres
        exact ih g rest tr res hg hrest hc hres
      | some cv =>
        rw [hf] at hres
        dsimp only at hres
        obtain ⟨hcv, hname⟩ := getVertexForValue_spec hg hf
        have hsub : tr ⊆ tr ++ [cv.value.nameIndex] := List.subset_append_left _ _
        cases hp : markConnectedVertexesTriple cv.id high med g rest with
        | error f => rw [hp] at hres; cases hres
        | ok r =>
          obtain ⟨g1, q1⟩ := r
          rw [hp] at hres
          dsimp only at hres
          obtain ⟨hg1, _, hl1⟩ := pass_linked markConnectedVertexTriple_admits R high med
            (tr ++ [cv.value.nameIndex]) _ 0 g rest (g1, q1) hg (getVertex_key hcv)
            (by simp) (linked_mono hrest hsub) hp
          refine ih (g1.removeVertex cv.id) q1 (tr ++ [cv.value.nameIndex]) res
            (hg1.removeVertex _) (linked_removeVertex hl1 _) (chainLinked_snoc hc ?_) hres
          rw [hname]
          exact hl.2.2 front (List.mem_cons_self _ _)

/-- The stages of one iteration on a well-formed graph with at least one edge: every stage
returns, and the graphs between the stages are well formed. -/
theorem iteration_stages {g : graph} (high med : Nat) (hg : g.WellFormed) (hne : g.edges ≠ []) :
    ∃ idx e nameL nameR g1 g2 q2 g4 q4 g6 mq tr6 res,
      strongestEdgeIndex g.edges = .ok idx ∧ g.edges[idx]? = some e ∧
      (e.left, nameL) ∈ g.keys ∧ (e.right, nameR) ∈ g.keys ∧ e.left ≠ e.right ∧
      graph.removeEdge { g with vertexes := g.vertexes.map untouchVertex } e = .ok g1 ∧
      g1.WellFormed ∧ g1.keys = g.keys ∧ g1.Shrinks g ∧
      markConnectedVertexesSingle e.left high med g1 [] = .ok (g2, q2) ∧
      g2.nameIndexOf e.left = .ok nameL ∧ (g2.removeVertex e.left).WellFormed ∧
      (g2.removeVertex e.left).keys = g.keys.filter (fun k => k.1 ≠ e.left) ∧
      markConnectedVertexesSingle e.right high med (g2.removeVertex e.left) q2
        = .ok (g4, q4) ∧
      g4.nameIndexOf e.right = .ok nameR ∧ (g4.removeVertex e.right).WellFormed ∧
      primerLoop high med q4 (g4.removeVertex e.right) [] [nameL, nameR]
        = .ok (g6, mq, tr6) ∧
      g6.WellFormed ∧
      mainLoop high med (g6.getNumEdges + mq.length + 1) g6 mq tr6 = .ok res ∧
      tripleLinkIteration g high med = .ok res := by
  obtain ⟨idx, e, hidx, hge, _, _⟩ := strongestEdgeIndex_spec hne
  have he : e ∈ g.edges := List.getElem?_mem hge
  obtain ⟨l, hl, hlid, _⟩ := hg.leftOwns e he
  obtain ⟨r, hr, hrid, _⟩ := hg.rightOwns e he
  have hkl : (e.left, l.value.nameIndex) ∈ g.keys := mem_keys.2 ⟨l, hl, hlid, rfl⟩
  have hkr : (e.right, r.value.nameIndex) ∈ g.keys := mem_keys.2 ⟨r, hr, hrid, rfl⟩
  obtain ⟨g1, hrm, hg1, hk1, hsh1, _, _⟩ := seed_removed hg he
  obtain ⟨g2, q2, hres2, hname2, hg3, _, hk3, _⟩ :=
    seed_round high med [] hg1 (hk1 ▸ hkl)
  have hkr3 : (e.right, r.value.nameIndex) ∈ (g2.removeVertex e.left).keys := by
    rw [hk3, hk1]
    exact List.mem_filter.2 ⟨hkr, by simpa using (hg.noLoop e he).symm⟩
  obtain ⟨g4, q4, hres4, hname4, hg5, _, _, _⟩ := seed_round high med q2 hg3 hkr3
  obtain ⟨g6, mq, tr6, hres6, hg6, _, _, _, _, _⟩ :=
    primerLoop_spec high med q4 (g4.removeVertex e.right) []
      [l.value.nameIndex, r.value.nameIndex] hg5
  obtain ⟨tr7, g7, hres7, _, _, _, _, _⟩ :=
    mainLoop_spec high med (g6.getNumEdges + mq.length + 1) g6 mq tr6 hg6
      (by simp [graph.getNumEdges])
  refine ⟨idx, e, l.value.nameIndex, r.value.nameIndex, g1, g2, q2, g4, q4, g6, mq, tr6,
    (tr7, g7), hidx, hge, hkl, hkr, hg.noLoop e he, hrm, hg1, hk1, hsh1, hres2, hname2, hg3,
    by rw [hk3, hk1], hres4, hname4, hg5, hres6, hg6, hres7, ?_⟩
  unfold tripleLinkIteration
  simp only [hidx, bind, Except.bind, hge, hrm, hres2, hname2, hres4, hname4, hres6, hres7]

theorem untouched_clear {g g1 : graph} {e : edge}
    (h : graph.removeEdge { g with vertexes := g.vertexes.map untouchVertex } e = .ok g1) :
    ∀ u ∈ g1.vertexes, u.value.threeSigmaLink = false ∧ u.value.twoSigmaLink = false ∧
      u.value.oneSigmaLink = false := by
  intro u hu
  rw [removeEdge_eq h] at hu
  obtain ⟨v1, hv1, rfl⟩ := List.mem_map.1 hu
  obtain ⟨v, _, rfl⟩ := List.mem_map.1 hv1
  rw [detach_value]
  exact ⟨rfl, rfl, rfl⟩

theorem iteration_linked {g : graph} (high med : Nat) (hg : g.WellFormed)
    (hne : g.edges ≠ []) :
    ∃ cluster g', tripleLinkIteration g high med = .ok (cluster, g') ∧
      ChainLinked g high cluster := by
  obtain ⟨idx, e, nameL, nameR, g1, g2, q2, g4, q4, g6, mq, tr6, ⟨cluster, g'⟩, _, _, hkl, hkr,
    hlr, hrm, hg1, hk1, hsh1, hres2, _, hg3, hk3, hres4, _, hg5, hres6, hg6, hres7, hit⟩ :=
    iteration_stages high med hg hne
  refine ⟨cluster, g', hit, ?_⟩
  have hl1 : Linked g high [nameL, nameR] g1 [] :=
    ⟨hsh1, fun u hu h3 => absurd h3 (by rw [(untouched_clear hrm u hu).1]; simp),
      fun x hx => absurd hx (List.not_mem_nil x)⟩
  obtain ⟨_, _, hl2⟩ := pass_linked markConnectedVertexSingle_admits g high med
    [nameL, nameR] _ 0 g1 [] (g2, q2) hg1 (hk1 ▸ hkl) (by simp) hl1 hres2
  have hkr3 : (e.right, nameR) ∈ (g2.removeVertex e.left).keys := by
    rw [hk3]
    exact List.mem_filter.2 ⟨hkr, by simpa using hlr.symm⟩
  obtain ⟨_, _, hl4⟩ := pass_linked markConnectedVertexSingle_admits g high med
    [nameL, nameR] _ 0 (g2.removeVertex e.left) q2 (g4, q4) hg3 hkr3 (by simp)
    (linked_removeVertex hl2 _) hres4
  have hl5 := linked_removeVertex hl4 e.right
  have hc0 : ChainLinked g high [nameL, nameR] := by
    intro i x hi hx
    rw [List.getElem?_eq_none (by simp; omega)] at hx
    cases hx
  obtain ⟨_, hl6, hc6⟩ := primerLoop_linked g high med q4 (g4.removeVertex e.right) []
    [nameL, nameR] (g6, mq, tr6) hg5
    ⟨hl5.1, hl5.2.1, fun x hx => absurd hx (List.not_mem_nil x)⟩ hl5.2.2 hc0 hres6
  exact mainLoop_linked g high med _ g6 mq tr6 (cluster, g') hg6 hl6 hc6 hres7

/-! ## Each identity is enqueued once -/

theorem distinct_of_keys {g1 g : graph} (h : g1.keys = g.keys) (hd : g.DistinctIdentities) :
    g1.DistinctIdentities := by
  show g1.identities.Nodup
  rw [identities_eq, h, ← identities_eq]
  exact hd

theorem id_eq_of_name_eq {g : graph} (hd : g.DistinctIdentities) {u v : vertex}
    (hu : u ∈ g.vertexes) (hv : v ∈ g.vertexes)
    (h : u.value.nameIndex = v.value.nameIndex) : u.id = v.id :=
  key_unique (l := g.keys) (by rw [← identities_eq]; exact hd)
    (mem_keys.2 ⟨u, hu, rfl, h⟩) (mem_keys.2 ⟨v, hv, rfl, rfl⟩)

theorem recorded_nil (rule : geneData → Bool) (g : graph) : Recorded rule g [] :=
  ⟨List.nodup_nil, fun x hx => absurd hx (List.not_mem_nil x)⟩

theorem recorded_removeVertex {rule : geneData → Bool} {g : graph} {log : List Nat}
    (h : Recorded rule g log) (w : Nat) : Recorded rule (g.removeVertex w) log := by
  refine ⟨h.1, ?_⟩
  intro x hx u hu hn
  obtain ⟨v, hv, _, hval⟩ := removeVertex_value hu
  rw [← hval] at hn ⊢
  exact h.2 x hx v hv hn

/-- On a graph with distinct identities an expansion pass enqueues no identity that is
already on record and none twice, and every vertex it enqueues satisfies the rule. -/
theorem pass_recorded {mark : MarkFn} {rule : geneData → Bool} (ha : MarkFn.Admits mark rule)
    (markFrom high med fuel i : Nat) (g : graph) (q log : List Nat)
    (res : graph × List Nat) (hg : g.WellFormed) (hd : g.DistinctIdentities)
    (hr : Recorded rule g log)
    (hres : markConnectedVertexesLoop mark markFrom high med fuel i g q = .ok res) :
    res.1.WellFormed ∧ res.1.keys = g.keys ∧
      ∃ ext, res.2 = q ++ ext ∧ Recorded rule res.1 (log ++ ext) := by
  have := markLoop_step_rule ha markFrom high med
    (fun g1 q1 => g1.keys = g.keys ∧ ∃ ext, q1 = q ++ ext ∧ Recorded rule g1 (log ++ ext))
    ?step fuel i g q res hg ⟨rfl, [], by simp, by simpa using hr⟩ hres
  · exact ⟨this.1, this.2.1, this.2.2⟩
  case step =>
    intro g1 q1 mf toMark e g2 hg1 _ _ _ htm hinv st
    obtain ⟨hk1, ext, hq1, hnd, hall⟩ := hinv
    have hd1 : g1.DistinctIdentities := distinct_of_keys hk1 hd
    have htmm := getVertex_mem htm
    obtain ⟨u', hu', hid', hval'⟩ := st.marked
    have hname : (mark e.weight toMark.value high med q1).2.1.nameIndex
        = toMark.value.nameIndex := (ha.grows _ _ _ _ _).1
    refine ⟨st.keys.trans hk1, ?_⟩
    rw [ha.queue]
    split
    · rename_i hc
      have hnot : toMark.value.nameIndex ∉ log ++ ext := by
        intro hmem
        have := hall _ hmem toMark htmm rfl
        rw [hc.1] at this
        cases this
      refine ⟨ext ++ [toMark.value.nameIndex], by rw [hq1, List.append_assoc], ?_, ?_⟩
      · rw [← List.append_assoc]
        refine List.Nodup.append hnd (List.nodup_singleton _) ?_
        intro a ha1 ha2
        rw [List.mem_singleton.1 ha2] at ha1
        exact hnot ha1
      · intro x hx u hu hn
        by_cases hid : u.id = toMark.id
        · have hu2 := eq_of_id_eq st.wf hu hu' (hid.trans hid'.symm)
          subst hu2
          rw [hval']
          exact hc.2
        · obtain ⟨v, hv, hvid, hvval⟩ := st.others u hu hid
          rw [← hvval] at hn ⊢
          rw [← List.append_assoc] at hx
          rcases List.mem_append.1 hx with hx | hx
          · exact hall x hx v hv hn
          · rw [List.mem_singleton.1 hx] at hn
            exact absurd (hvid.symm.trans (id_eq_of_name_eq hd1 hv htmm hn)) hid
    · refine ⟨ext, hq1, hnd, ?_⟩
      intro x hx u hu hn
      by_cases hid : u.id = toMark.id
      · have hu2 := eq_of_id_eq st.wf hu hu' (hid.trans hid'.symm)
        subst hu2
        rw [hval'] at hn ⊢
        rw [hname] at hn
        exact ha.ruleMono _ _ (ha.grows _ _ _ _ _) (hall x hx toMark htmm hn)
      · obtain ⟨v, hv, _, hvval⟩ := st.others u hu hid
        rw [← hvval] at hn ⊢
        exact hall x hx v hv hn

theorem primerLoop_recorded (high med : Nat) :
    ∀ (pq : List Nat) (g : graph) (mq tr : List Nat) (res : graph × List Nat × List Nat),
      g.WellFormed → g.DistinctIdentities → Recorded ruleDouble g mq →
      primerLoop high med pq g mq tr = .ok res →
      res.1.DistinctIdentities ∧ Recorded ruleDouble res.1 res.2.1 := by
  intro pq
  induction pq with
  | nil =>
    intro g mq tr res _ hd hr hres
    simp only [primerLoop] at hres
    cases hres
    exact ⟨hd, hr⟩
  | cons front rest ih =>
    intro g mq tr res hg hd hr hres
    unfold primerLoop at hres
    cases hf : g.getVertexForValue front with
    | none =>
      rw [hf] at hres
      exact ih g mq tr res hg hd hr hres
    | some cv =>
      rw [hf] at hres
      dsimp only at hres
      cases hp : markConnectedVertexesDouble cv.id high med g mq with
      | error f => rw [hp] at hres; cases hres
      | ok r =>
        obtain ⟨g1, mq1⟩ := r
        rw [hp] at hres
        dsimp only at hres
        obtain ⟨hg1, hk1, ext, hq1, hr1⟩ := pass_recorded markConnectedVertexDouble_admits
          cv.id high med _ 0 g mq mq (g1, mq1) hg hd hr hp
        simp only at hq1
        rw [← hq1] at hr1
        exact ih (g1.removeVertex cv.id) mq1 (tr ++ [cv.value.nameIndex]) res
          (hg1.removeVertex _)
          ((distinct_of_keys hk1 hd).shrinks (graph.Shrinks.ofRemoveVertex g1 cv.id))
          (recorded_removeVertex hr1 _) hres

/-- The record kept by `mainLoopTrace` does not change what the loop computes. -/
theorem mainLoopTrace_erase (high med : Nat) :
    ∀ (fuel : Nat) (g : graph) (q tr pushed : List Nat),
      (mainLoopTrace high med fuel g q tr pushed).map Prod.fst = mainLoop high med fuel g q tr := by
  intro fuel
  induction fuel with
  | zero => intro g q tr pushed; rfl
  | succ fuel ih =>
    intro g q tr pushed
    cases q with
    | nil => rfl
    | cons front rest =>
      unfold mainLoopTrace mainLoop
      cases hf : g.getVertexForValue front with
      | none => exact ih g rest tr pushed
      | some cv =>
        dsimp only
        cases hp : markConnectedVertexesTriple cv.id high med g rest with
        | error f => rfl
        | ok r =>
          obtain ⟨g1, q1⟩ := r
          exact ih _ _ _ _

theorem mainLoopTrace_recorded (high med : Nat) :
    ∀ (fuel : Nat) (g : graph) (q tr pushed : List Nat) (res : (List Nat × graph) × List Nat),
      g.WellFormed → g.DistinctIdentities → Recorded ruleTriple g pushed →
      mainLoopTrace high med fuel g q tr pushed = .ok res → res.2.Nodup := by
  intro fuel
  induction fuel with
  | zero => intro g q tr pushed res _ _ _ hres; simp [mainLoopTrace] at hres
  | succ fuel ih =>
    intro g q tr pushed res hg hd hr hres
    cases q with
    | nil =>
      simp only [mainLoopTrace] at hres
      cases hres
      exact hr.1
    | cons front rest =>
      unfold mainLoopTrace at hres
      cases hf : g.getVertexForValue front with
      | none =>
        rw [hf] at hres
        exact ih g rest tr pushed res hg hd hr hres
      | some cv =>
        rw [hf] at hres
        dsimp only at hres
        cases hp : markConnectedVertexesTriple cv.id high med g rest with
        | error f => rw [hp] at hres; cases hres
        | ok r =>
          obtain ⟨g1, q1⟩ := r
          rw [hp] at hres
          dsimp only at hres
          obtain ⟨hg1, hk1, ext, hq1, hr1⟩ := pass_recorded markConnectedVertexTriple_admits
            cv.id high med _ 0 g rest pushed (g1, q1) hg hd hr hp
          simp only at hq1
          subst hq1
          rw [List.drop_left] at hres
          exact ih (g1.removeVertex cv.id) _ (tr ++ [cv.value.nameIndex]) _ res
            (hg1.removeVertex _)
            ((distinct_of_keys hk1 hd).shrinks (graph.Shrinks.ofRemoveVertex g1 cv.id))
            (recorded_removeVertex hr1 _) hres

/-- One iteration with its record of enqueue operations, on a well-formed graph with
distinct identities and at least one edge: it returns what `tripleLinkIteration` returns,
and none of the three records holds an identity twice. -/
theorem iterationTrace_spec {g : graph} (high med : Nat) (hg : g.WellFormed)
    (hd : g.DistinctIdentities) (hne : g.edges ≠ []) :
    ∃ res single double triple,
      tripleLinkIterationTrace g high med = .ok (res, single, double, triple) ∧
      tripleLinkIteration g high med = .ok res ∧
      single.Nodup ∧ double.Nodup ∧ triple.Nodup := by
  obtain ⟨idx, e, nameL, nameR, g1, g2, q2, g4, q4, g6, mq, tr6, res, hidx, hge, _, _,
    _, hrm, hg1, hk1, _, hres2, hname2, hg3, _, hres4, hname4, hg5, hres6, hg6, hres7, hit⟩ :=
    iteration_stages high med hg hne
  have hd1 : g1.DistinctIdentities := distinct_of_keys hk1 hd
  obtain ⟨_, hk2, ext2, hq2, hr2⟩ := pass_recorded markConnectedVertexSingle_admits
    e.left high med _ 0 g1 [] [] (g2, q2) hg1 hd1 (recorded_nil _ _) hres2
  simp only at hq2
  rw [← hq2] at hr2
  have hd3 : (g2.removeVertex e.left).DistinctIdentities :=
    (distinct_of_keys hk2 hd1).shrinks (graph.Shrinks.ofRemoveVertex g2 e.left)
  obtain ⟨_, hk4, ext4, hq4, hr4⟩ := pass_recorded markConnectedVertexSingle_admits
    e.right high med _ 0 (g2.removeVertex e.left) q2 q2 (g4, q4) hg3 hd3
    (recorded_removeVertex hr2 _) hres4
  simp only at hq4
  rw [← hq4] at hr4
  have hd5 : (g4.removeVertex e.right).DistinctIdentities :=
    (distinct_of_keys hk4 hd3).shrinks (graph.Shrinks.ofRemoveVertex g4 e.right)
  obtain ⟨hd6, hr6⟩ := primerLoop_recorded high med q4 (g4.removeVertex e.right) []
    [nameL, nameR] (g6, mq, tr6) hg5 hd5 (recorded_nil _ _) hres6
  have her := mainLoopTrace_erase high med (g6.getNumEdges + mq.length + 1) g6 mq tr6 []
  rw [hres7] at her
  cases ht : mainLoopTrace high med (g6.getNumEdges + mq.length + 1) g6 mq tr6 [] with
  | error f => rw [ht] at her; cases her
  | ok r =>
    obtain ⟨res', triple⟩ := r
    rw [ht] at her
    have hres' : res' = res := by
      simpa [Except.map] using her
    subst hres'
    refine ⟨res', q4, mq, triple, ?_, hit, hr4.1, hr6.1,
      mainLoopTrace_recorded high med _ g6 mq tr6 [] (res', triple) hg6 hd6
        (recorded_nil _ _) ht⟩
    unfold tripleLinkIterationTrace
    simp only [hidx, bind, Except.bind, hge, hrm, hres2, hname2, hres4, hname4, hres6, ht]
    rfl

theorem relayGraph_wf : relayGraph.WellFormed :=
  ⟨by decide, by decide, by decide, by decide, by decide, by decide, by decide⟩

/-! ## The keep test of the pruner under `med ≤ high` -/

theorem first_high {high : Nat} :
    ∀ (l : List edge), (∃ e ∈ l, high ≤ e.weight) →
      ∃ i ei, l[i]? = some ei ∧ high ≤ ei.weight ∧ ∀ e ∈ l.take i, e.weight < high := by
  intro l
  induction l with
  | nil => rintro ⟨e, he, _⟩; cases he
  | cons a rest ih =>
    rintro ⟨e, he, hw⟩
    by_cases ha : high ≤ a.weight
    · exact ⟨0, a, by simp, ha, by simp⟩
    · have hrest : ∃ e ∈ rest, high ≤ e.weight := by
        rcases List.mem_cons.1 he with rfl | h
        · exact absurd hw ha
        · exact ⟨e, h, hw⟩
      obtain ⟨i, ei, hi, hhigh, hall⟩ := ih hrest
      refine ⟨i + 1, ei, by simpa using hi, hhigh, ?_⟩
      intro x hx
      rw [List.take_succ_cons] at hx
      rcases List.mem_cons.1 hx with rfl | hx
      · omega
      · exact hall x hx

/-- Under `med ≤ high` the shape the scan accepts is: two different positions of the edge
list, one holding an edge of weight at least `high`, the other one of weight at least
`med`. -/
theorem keepShape_iff_two {high med : Nat} (hmh : med ≤ high) (l : List edge) :
    KeepShape high med l ↔
      ∃ (i j : Nat) (ei ej : edge), i ≠ j ∧ l[i]? = some ei ∧ l[j]? = some ej ∧
        high ≤ ei.weight ∧ med ≤ ej.weight := by
  constructor
  · rintro ⟨i, j, ei, ej, hi, hj, hne, hhigh, _, hmed⟩
    exact ⟨i, j, ei, ej, hne, hi, hj, hhigh, hmed⟩
  · rintro ⟨i, j, ei, ej, hne, hi, hj, hhigh, hmed⟩
    obtain ⟨i0, e0, hi0, hh0, hall⟩ := first_high l ⟨ei, List.getElem?_mem hi, hhigh⟩
    by_cases hj0 : j = i0
    · refine ⟨i0, i, e0, ei, hi0, hi, ?_, hh0, hall, Nat.le_trans hmh hhigh⟩
      intro h; exact hne (h.symm.trans hj0.symm)
    · exact ⟨i0, j, e0, ej, hi0, hj, fun h => hj0 h.symm, hh0, hall, hmed⟩

theorem any_iff_countP (p : edge → Bool) (l : List edge) :
    l.any p = true ↔ 1 ≤ l.countP p := by
  rw [List.any_eq_true]
  exact (List.countP_pos_iff (p := p)).symm

/-- Under `med ≤ high` the scan ends with both flags set exactly if the edge list holds an
edge of weight at least `high` and two entries of weight at least `med`. -/
theorem weakScan_iff_count {high med : Nat} (hmh : med ≤ high) (l : List edge) :
    weakScan high med l false false = (true, true) ↔
      1 ≤ l.countP (fun e => decide (high ≤ e.weight)) ∧
      2 ≤ l.countP (fun e => decide (med ≤ e.weight)) := by
  induction l with
  | nil => simp [weakScan]
  | cons a rest ih =>
    have hmono : 1 ≤ rest.countP (fun e => decide (high ≤ e.weight)) →
        1 ≤ rest.countP (fun e => decide (med ≤ e.weight)) := by
      intro h
      obtain ⟨x, hx, hp⟩ :=
        (List.countP_pos_iff (p := fun (e : edge) => decide (high ≤ e.weight))).1 h
      exact (List.countP_pos_iff (p := fun (e : edge) => decide (med ≤ e.weight))).2
        ⟨x, hx, by simp at hp ⊢; omega⟩
    rw [weakScan_cons_ff]
    by_cases hh : high ≤ a.weight
    · have hm : med ≤ a.weight := Nat.le_trans hmh hh
      rw [if_pos hh, List.countP_cons_of_pos _ _ (by simpa using hh),
        List.countP_cons_of_pos _ _ (by simpa using hm)]
      simp only [Prod.mk.injEq, true_and]
      rw [any_iff_countP]
      omega
    · rw [if_neg hh, List.countP_cons_of_neg _ _ (by simpa using hh)]
      by_cases hm : med ≤ a.weight
      · rw [if_pos hm, List.countP_cons_of_pos _ _ (by simpa using hm)]
        simp only [Prod.mk.injEq, and_true]
        rw [any_iff_countP]
        constructor
        · intro h; have := hmono h; omega
        · intro h; exact h.1
      · rw [if_neg hm, List.countP_cons_of_neg _ _ (by simpa using hm)]
        exact ih

theorem weakScan_perm {high med : Nat} (hmh : med ≤ high) {l1 l2 : List edge}
    (h : l1.Perm l2) :
    weakScan high med l1 false false = (true, true) ↔
      weakScan high med l2 false false = (true, true) := by
  rw [weakScan_iff_count hmh, weakScan_iff_count hmh, h.countP_eq, h.countP_eq]

theorem isWeak_perm {high med : Nat} (hmh : med ≤ high) {u v : vertex}
    (h : u.edges.Perm v.edges) : isWeak high med u = isWeak high med v := by
  have hiff : isWeak high med u = false ↔ isWeak high med v = false := by
    rw [isWeak_false_iff, isWeak_false_iff, ← weakScan_iff_keepShape,
      ← weakScan_iff_keepShape, weakScan_perm hmh h]
    simp only [vertex.getNumEdges, h.length_eq]
  cases hu : isWeak high med u <;> cases hv : isWeak high med v <;> simp_all

/-- Without `med ≤ high` the verdict of the scan depends on the order of the edges: with
`high = 2` and `med = 3`, edges of weight 2 and 3 pass in this order and fail in the
other. -/
theorem weakScan_order_matters :
    weakScan 2 3 [⟨0, 0, 1, 2⟩, ⟨1, 0, 2, 3⟩] false false = (true, true) ∧
    weakScan 2 3 [⟨1, 0, 2, 3⟩, ⟨0, 0, 1, 2⟩] false false = (true, false) :=
  ⟨by decide, by decide⟩

/-! ## The claims -/

/-- C1, partition property: on a well-formed graph whose vertexes carry pairwise distinct
identities, for all cutoffs, `tripleLink` returns a sequence of clusters in which no
identity occurs in two different clusters. -/
theorem tripleLink_partition (g : graph) (settings : config) (hg : g.WellFormed)
    (hd : g.DistinctIdentities) :
    ∃ cs g', tripleLink g settings = .ok (cs, g') ∧
      ∀ (i j : Nat) (ci cj : List Nat), cs[i]? = some ci → cs[j]? = some cj → i ≠ j →
        ∀ x ∈ ci, x ∉ cj := by
  obtain ⟨cs, g', hres, _, _, _, _, _, hpw⟩ := tripleLink_spec g settings hg
  refine ⟨cs, g', hres, ?_⟩
  have hp := hpw hd
  rw [List.pairwise_iff_getElem] at hp
  intro i j ci cj hi hj hij x hxi hxj
  obtain ⟨hi', rfl⟩ := List.getElem?_eq_some.1 hi
  obtain ⟨hj', rfl⟩ := List.getElem?_eq_some.1 hj
  rcases Nat.lt_or_gt_of_ne hij with h | h
  · exact hp i j hi' hj' h hxi hxj
  · exact hp j i hj' hi' h hxj hxi

/-- Witness for C1: the two disjoint triangles of band-3 edges give two clusters. -/
theorem tripleLink_partition_witness :
    (twoTriangles 3).WellFormed ∧ (twoTriangles 3).DistinctIdentities ∧
    tripleLink (twoTriangles 3) ⟨3, 2⟩ = .ok ([[4, 5, 3], [1, 2, 0]], ⟨[], []⟩) ∧
    ∃ cs g', tripleLink (twoTriangles 3) ⟨3, 2⟩ = .ok (cs, g') ∧
      ∀ (i j : Nat) (ci cj : List Nat), cs[i]? = some ci → cs[j]? = some cj → i ≠ j →
        ∀ x ∈ ci, x ∉ cj :=
  ⟨twoTriangles_wf, by decide, rfl,
    tripleLink_partition (twoTriangles 3) ⟨3, 2⟩ twoTriangles_wf (by decide)⟩

/-- C2, pruning soundness: on a well-formed graph, for all cutoffs, `removeWeakVerticies`
returns a well-formed graph in which every vertex has degree at least 2, owns a live edge
of weight at least `high` and owns a live edge of weight at least `med`. -/
theorem removeWeakVerticies_sound (g : graph) (high med : Nat) (hg : g.WellFormed) :
    ∃ g', removeWeakVerticies g high med = .ok g' ∧ g'.WellFormed ∧
      ∀ v ∈ g'.vertexes, 2 ≤ v.getNumEdges ∧
        (∃ e ∈ v.edges, e ∈ g'.edges ∧ e.incident v.id = true ∧ high ≤ e.weight) ∧
        (∃ e ∈ v.edges, e ∈ g'.edges ∧ e.incident v.id = true ∧ med ≤ e.weight) := by
  obtain ⟨g', hres, _, hwf, _, hweak⟩ := removeWeakVerticies_spec g high med
  have hg' := hwf hg
  refine ⟨g', hres, hg', ?_⟩
  intro v hv
  obtain ⟨hdeg, i, j, ei, ej, hi, hj, _, hhigh, _, hmed⟩ :=
    (isWeak_false_iff high med v).1 (hweak v hv)
  have hei := List.getElem?_mem hi
  have hej := List.getElem?_mem hj
  exact ⟨hdeg, ⟨ei, hei, (hg'.incident v hv ei hei).1, (hg'.incident v hv ei hei).2, hhigh⟩,
    ⟨ej, hej, (hg'.incident v hv ej hej).1, (hg'.incident v hv ej hej).2, hmed⟩⟩

/-- Witness for C2: pruning the band-3 triangle. -/
theorem removeWeakVerticies_sound_witness :
    evenTriangle.WellFormed ∧
    ∃ g', removeWeakVerticies evenTriangle 3 2 = .ok g' ∧ g'.WellFormed ∧
      ∀ v ∈ g'.vertexes, 2 ≤ v.getNumEdges ∧
        (∃ e ∈ v.edges, e ∈ g'.edges ∧ e.incident v.id = true ∧ 3 ≤ e.weight) ∧
        (∃ e ∈ v.edges, e ∈ g'.edges ∧ e.incident v.id = true ∧ 2 ≤ e.weight) :=
  ⟨evenTriangle_wf, removeWeakVerticies_sound evenTriangle 3 2 evenTriangle_wf⟩

/-- Counterexample to C3 as stated: in the scenario triangle with cutoffs 3 and 2 every
vertex has degree 2, an edge of weight at least `high` and an edge of weight at least `med`
(for B it is one and the same edge A-B), yet B is weak for the code and the pruner does
not leave the graph unchanged. -/
theorem pruning_rule_counterexample :
    scenarioTriangle.WellFormed ∧
    (∀ v ∈ scenarioTriangle.vertexes, 2 ≤ v.getNumEdges ∧
      (∃ e ∈ v.edges, 3 ≤ e.weight) ∧ (∃ e ∈ v.edges, 2 ≤ e.weight)) ∧
    scenarioTriangle.vertexes[1]? = some (mkVertex 1 [⟨0, 0, 1, 3⟩, ⟨2, 1, 2, 1⟩]) ∧
    isWeak 3 2 (mkVertex 1 [⟨0, 0, 1, 3⟩, ⟨2, 1, 2, 1⟩]) = true ∧
    removeWeakVerticies scenarioTriangle 3 2 = .ok ⟨[], []⟩ ∧
    removeWeakVerticies scenarioTriangle 3 2 ≠ .ok scenarioTriangle := by
  refine ⟨scenarioTriangle_wf, by decide, rfl, by decide, rfl, ?_⟩
  intro h
  have h2 : removeWeakVerticies scenarioTriangle 3 2 = .ok ⟨[], []⟩ := rfl
  rw [h2] at h
  cases h

/-- C3 as amended, pruning rule: the pass of `removeWeakVerticies` removes the vertex it
visits exactly when its degree is below 2 or its edge collection lacks the keep shape (the
first edge of weight at least `high` together with a different edge of weight at least
`med`); and on a graph in which every vertex has degree at least 2 and the keep shape,
`removeWeakVerticies` leaves the graph unchanged. -/
theorem pruning_rule (g : graph) (high med : Nat)
    (hkeep : ∀ v ∈ g.vertexes, 2 ≤ v.getNumEdges ∧ KeepShape high med v.edges) :
    removeWeakVerticies g high med = .ok g ∧
    ∀ (fuel i : Nat) (g1 : graph) (found : Bool) (target : vertex),
      g1.vertexes[i]? = some target →
      ((target.getNumEdges < 2 ∨ ¬ KeepShape high med target.edges) →
        removeWeakVerticiesPass high med (fuel + 1) i g1 found =
          removeWeakVerticiesPass high med fuel (i + 1) (g1.removeVertex target.id) true) ∧
      (¬ (target.getNumEdges < 2 ∨ ¬ KeepShape high med target.edges) →
        removeWeakVerticiesPass high med (fuel + 1) i g1 found =
          removeWeakVerticiesPass high med fuel (i + 1) g1 found) := by
  constructor
  · apply removeWeakVerticies_fixed
    intro v hv
    exact (isWeak_false_iff high med v).2 (hkeep v hv)
  · intro fuel i g1 found target ht
    obtain ⟨hi, rfl⟩ := List.getElem?_eq_some.1 ht
    rw [pass_succ high med fuel i g1 found hi]
    constructor
    · intro h
      rw [if_pos ((isWeak_iff high med _).2 h)]
    · intro h
      rw [if_neg (fun hw => h ((isWeak_iff high med _).1 hw))]

/-- Witness for C3 as amended: every vertex of the band-3 triangle has the keep shape. -/
theorem pruning_rule_witness :
    (∀ v ∈ evenTriangle.vertexes, 2 ≤ v.getNumEdges ∧ KeepShape 3 2 v.edges) ∧
    removeWeakVerticies evenTriangle 3 2 = .ok evenTriangle :=
  have hk : ∀ v ∈ evenTriangle.vertexes, 2 ≤ v.getNumEdges ∧ KeepShape 3 2 v.edges :=
    fun v hv => (isWeak_false_iff 3 2 v).1
      ((by decide : ∀ v ∈ evenTriangle.vertexes, isWeak 3 2 v = false) v hv)
  ⟨hk, (pruning_rule evenTriangle 3 2 hk).1⟩

/-- C4, termination of clustering: on a well-formed graph every expansion pass from a live
vertex returns; with at least one edge, `tripleLinkIteration` returns and leaves strictly
fewer edges than it received; and `tripleLink` returns. -/
theorem clustering_terminates (g : graph) (settings : config) (hg : g.WellFormed) :
    (∀ (markFrom : Nat) (mf : vertex) (q : List Nat), g.getVertex markFrom = some mf →
      (∃ r, markConnectedVertexesSingle markFrom settings.threeSigmaAdj
        settings.twoSigmaAdj g q = .ok r) ∧
      (∃ r, markConnectedVertexesDouble markFrom settings.threeSigmaAdj
        settings.twoSigmaAdj g q = .ok r) ∧
      (∃ r, markConnectedVertexesTriple markFrom settings.threeSigmaAdj
        settings.twoSigmaAdj g q = .ok r)) ∧
    (0 < g.getNumEdges →
      ∃ cluster g', tripleLinkIteration g settings.threeSigmaAdj settings.twoSigmaAdj
          = .ok (cluster, g') ∧ g'.getNumEdges < g.getNumEdges) ∧
    ∃ clusters g', tripleLink g settings = .ok (clusters, g') := by
  refine ⟨?_, ?_, ?_⟩
  · intro markFrom mf q hmf
    have hfuel : mf.getNumEdges * mf.getNumEdges + (mf.getNumEdges - 0)
        < passFuel g markFrom := by simp [passFuel, hmf]
    exact ⟨markLoop_total _ markFrom _ _ _ 0 g q mf hg hmf hfuel,
      markLoop_total _ markFrom _ _ _ 0 g q mf hg hmf hfuel,
      markLoop_total _ markFrom _ _ _ 0 g q mf hg hmf hfuel⟩
  · intro hne
    have hne' : g.edges ≠ [] := by
      intro h; simp [graph.getNumEdges, h] at hne
    obtain ⟨_, _, nameL, nameR, rest, g', _, _, _, _, hit, _, _, hlt, _⟩ :=
      iteration_spec settings.threeSigmaAdj settings.twoSigmaAdj hg hne'
    exact ⟨_, g', hit, hlt⟩
  · obtain ⟨cs, g', hres, _⟩ := tripleLink_spec g settings hg
    exact ⟨cs, g', hres⟩

/-- Witness for C4: the two triangles of band-3 edges. -/
theorem clustering_terminates_witness :
    (twoTriangles 3).WellFormed ∧ 0 < (twoTriangles 3).getNumEdges ∧
    ∃ clusters g', tripleLink (twoTriangles 3) ⟨3, 2⟩ = .ok (clusters, g') :=
  ⟨twoTriangles_wf, by decide, (clustering_terminates (twoTriangles 3) ⟨3, 2⟩ twoTriangles_wf).2.2⟩

/-- C5, termination of pruning: for every graph and all cutoffs `removeWeakVerticies`
returns, and what it returns is a fixed point of the pass (the last pass removes nothing);
a pass that reports a removal has strictly decreased the number of vertexes, a pass that
reports none has left the graph as it was. -/
theorem pruning_terminates (g : graph) (high med : Nat) :
    (∃ g', removeWeakVerticies g high med = .ok g' ∧
      removeWeakVerticiesOnce g' high med = .ok (g', false)) ∧
    ∃ g1 found, removeWeakVerticiesOnce g high med = .ok (g1, found) ∧
      (found = true → g1.getNumVertexes < g.getNumVertexes) ∧
      (found = false → g1 = g) := by
  constructor
  · obtain ⟨g', hres, _, _, hfix, _⟩ := removeWeakVerticies_spec g high med
    exact ⟨g', hres, hfix⟩
  · obtain ⟨g1, found, hres, _, _, ht, hf⟩ := once_spec g high med
    exact ⟨g1, found, hres, ht, fun h => (hf h).1⟩

/-- C6: on a well-formed graph with pairwise distinct identities and at least one edge,
`tripleLinkIteration` returns, and every identity in its cluster belonged to a vertex of
the graph at entry, while on return no live vertex carries that identity, the handle of
that vertex is no longer live, and no live edge is incident to it. -/
theorem cluster_vertices_removed (g : graph) (high med : Nat) (hg : g.WellFormed)
    (hd : g.DistinctIdentities) (hne : 0 < g.getNumEdges) :
    ∃ cluster g', tripleLinkIteration g high med = .ok (cluster, g') ∧
      ∀ x ∈ cluster, ∃ v ∈ g.vertexes, v.value.nameIndex = x ∧
        (∀ u ∈ g'.vertexes, u.value.nameIndex ≠ x) ∧
        (∀ u ∈ g'.vertexes, u.id ≠ v.id) ∧
        (∀ e ∈ g'.edges, e.left ≠ v.id ∧ e.right ≠ v.id) := by
  have hne' : g.edges ≠ [] := by
    intro h; simp [graph.getNumEdges, h] at hne
  obtain ⟨_, _, nameL, nameR, rest, g', _, _, _, _, hit, hg', hsh, _, hem⟩ :=
    iteration_spec high med hg hne'
  refine ⟨_, g', hit, ?_⟩
  intro x hx
  have hex := hem x hx
  have hnot := hex.not_mem hd hsh
  obtain ⟨vid, hk, hno⟩ := hex
  obtain ⟨v, hv, rfl, rfl⟩ := mem_keys.1 hk
  have hlive : ∀ u ∈ g'.vertexes, u.id ≠ v.id := by
    intro u hu
    exact hno (u.id, u.value.nameIndex) (mem_keys.2 ⟨u, hu, rfl, rfl⟩)
  refine ⟨v, hv, rfl, ?_, hlive, ?_⟩
  · intro u hu h
    exact hnot (h ▸ List.mem_map_of_mem (fun v => v.value.nameIndex) hu)
  · intro e he
    obtain ⟨l, hl, hlid, _⟩ := hg'.leftOwns e he
    obtain ⟨r, hr, hrid, _⟩ := hg'.rightOwns e he
    exact ⟨hlid ▸ hlive l hl, hrid ▸ hlive r hr⟩

/-- Witness for C6: one iteration on the two triangles of band-3 edges. -/
theorem cluster_vertices_removed_witness :
    (twoTriangles 3).WellFormed ∧ (twoTriangles 3).DistinctIdentities ∧
    0 < (twoTriangles 3).getNumEdges ∧
    ∃ cluster g', tripleLinkIteration (twoTriangles 3) 3 2 = .ok (cluster, g') ∧
      ∀ x ∈ cluster, ∃ v ∈ (twoTriangles 3).vertexes, v.value.nameIndex = x ∧
        (∀ u ∈ g'.vertexes, u.value.nameIndex ≠ x) ∧
        (∀ u ∈ g'.vertexes, u.id ≠ v.id) ∧
        (∀ e ∈ g'.edges, e.left ≠ v.id ∧ e.right ≠ v.id) :=
  ⟨twoTriangles_wf, by decide, by decide,
    cluster_vertices_removed (twoTriangles 3) 3 2 twoTriangles_wf (by decide) (by decide)⟩

/-- C7, the seed is a strongest edge: on a well-formed graph with at least one edge
`tripleLinkIteration` returns a cluster whose first two identities are those of the left
and of the right endpoint of an edge whose weight is maximal among the edges at entry. -/
theorem seed_is_strongest (g : graph) (high med : Nat) (hg : g.WellFormed)
    (hne : 0 < g.getNumEdges) :
    ∃ e l r rest g', e ∈ g.edges ∧ (∀ e' ∈ g.edges, e'.weight ≤ e.weight) ∧
      g.getVertex e.left = some l ∧ g.getVertex e.right = some r ∧
      tripleLinkIteration g high med
        = .ok (l.value.nameIndex :: r.value.nameIndex :: rest, g') := by
  have hne' : g.edges ≠ [] := by
    intro h; simp [graph.getNumEdges, h] at hne
  obtain ⟨idx, e, nameL, nameR, rest, g', hidx, hge, hkl, hkr, hit, _⟩ :=
    iteration_spec high med hg hne'
  obtain ⟨idx', e', hidx', hge', hmax, _⟩ := strongestEdgeIndex_spec hne'
  rw [hidx] at hidx'
  cases hidx'
  rw [hge] at hge'
  cases hge'
  obtain ⟨l, hl, rfl⟩ := getVertex_of_key hg hkl
  obtain ⟨r, hr, rfl⟩ := getVertex_of_key hg hkr
  exact ⟨e, l, r, rest, g', List.getElem?_mem hge, hmax, hl, hr, hit⟩

/-- Witness for C7: the band-3 triangle. -/
theorem seed_is_strongest_witness :
    evenTriangle.WellFormed ∧ 0 < evenTriangle.getNumEdges ∧
    ∃ e l r rest g', e ∈ evenTriangle.edges ∧
      (∀ e' ∈ evenTriangle.edges, e'.weight ≤ e.weight) ∧
      evenTriangle.getVertex e.left = some l ∧ evenTriangle.getVertex e.right = some r ∧
      tripleLinkIteration evenTriangle 3 2
        = .ok (l.value.nameIndex :: r.value.nameIndex :: rest, g') :=
  ⟨evenTriangle_wf, by decide, seed_is_strongest evenTriangle 3 2 evenTriangle_wf (by decide)⟩

/-- Counterexample to C8 as stated: in the band-3 triangle the three edges A-B, A-C, B-C
share the maximum weight; the seed index is 2, not 0, and the cluster starts with the
endpoints B and C of the last edge, not with A and B. -/
theorem seed_tie_break_counterexample :
    (evenTriangle.edges.map edge.weight = [3, 3, 3]) ∧
    strongestEdgeIndex evenTriangle.edges = .ok 2 ∧
    evenTriangle.edges[0]? = some ⟨0, 0, 1, 3⟩ ∧
    evenTriangle.edges[2]? = some ⟨2, 1, 2, 3⟩ ∧
    tripleLinkIteration evenTriangle 3 2 = .ok ([1, 2, 0], ⟨[], []⟩) :=
  ⟨rfl, rfl, rfl, rfl, rfl⟩

/-- C8 as amended, seed tie-breaking: when several edges share the maximum weight,
`tripleLinkIteration` seeds on the last of them in the current edge order: the seed edge
has maximum weight, every edge of larger index is strictly lighter, and the cluster starts
with the identities of its left and right endpoints. -/
theorem seed_tie_break (g : graph) (high med : Nat) (hg : g.WellFormed)
    (hne : 0 < g.getNumEdges) :
    ∃ idx e l r rest g', strongestEdgeIndex g.edges = .ok idx ∧ g.edges[idx]? = some e ∧
      (∀ e' ∈ g.edges, e'.weight ≤ e.weight) ∧
      (∀ k e', idx < k → g.edges[k]? = some e' → e'.weight < e.weight) ∧
      g.getVertex e.left = some l ∧ g.getVertex e.right = some r ∧
      tripleLinkIteration g high med
        = .ok (l.value.nameIndex :: r.value.nameIndex :: rest, g') := by
  have hne' : g.edges ≠ [] := by
    intro h; simp [graph.getNumEdges, h] at hne
  obtain ⟨idx, e, nameL, nameR, rest, g', hidx, hge, hkl, hkr, hit, _⟩ :=
    iteration_spec high med hg hne'
  obtain ⟨idx', e', hidx', hge', hmax, hlast⟩ := strongestEdgeIndex_spec hne'
  rw [hidx] at hidx'
  cases hidx'
  rw [hge] at hge'
  cases hge'
  obtain ⟨l, hl, rfl⟩ := getVertex_of_key hg hkl
  obtain ⟨r, hr, rfl⟩ := getVertex_of_key hg hkr
  exact ⟨idx, e, l, r, rest, g', hidx, hge, hmax, hlast, hl, hr, hit⟩

/-- Witness for C8 as amended: the band-3 triangle. -/
theorem seed_tie_break_witness :
    evenTriangle.WellFormed ∧ 0 < evenTriangle.getNumEdges ∧
    ∃ idx e l r rest g', strongestEdgeIndex evenTriangle.edges = .ok idx ∧
      evenTriangle.edges[idx]? = some e ∧
      (∀ e' ∈ evenTriangle.edges, e'.weight ≤ e.weight) ∧
      (∀ k e', idx < k → evenTriangle.edges[k]? = some e' → e'.weight < e.weight) ∧
      evenTriangle.getVertex e.left = some l ∧ evenTriangle.getVertex e.right = some r ∧
      tripleLinkIteration evenTriangle 3 2
        = .ok (l.value.nameIndex :: r.value.nameIndex :: rest, g') :=
  ⟨evenTriangle_wf, by decide, seed_tie_break evenTriangle 3 2 evenTriangle_wf (by decide)⟩

/-- Counterexample to C9 as stated: on the scenario graph with cutoffs 3 and 2 the pruner
empties the graph and `tripleLink` returns no cluster at all, so not exactly one. -/
theorem example_scenario_counterexample :
    scenarioGraph.WellFormed ∧
    removeWeakVerticies scenarioGraph 3 2 = .ok ⟨[], []⟩ ∧
    tripleLink scenarioGraph ⟨3, 2⟩ = .ok ([], ⟨[], []⟩) ∧
    ¬ ∃ cluster g', tripleLink scenarioGraph ⟨3, 2⟩ = .ok ([cluster], g') := by
  refine ⟨scenarioGraph_wf, rfl, rfl, ?_⟩
  rintro ⟨cluster, g', h⟩
  have h2 : tripleLink scenarioGraph ⟨3, 2⟩ = .ok ([], ⟨[], []⟩) := rfl
  rw [h2] at h
  cases h

/-- C9 as amended, example scenario: on the graph with vertexes A, B, C, D and edges A-B
and A-C of the band-3 weight `b3` and B-C of the band-1 weight `b1`, with `highCutoff = b3`
and `medCutoff = b2` where `b1 < b2 ≤ b3`, the first pruning removes every vertex (B has
no second edge reaching `medCutoff`, then A and C are left with one edge each) and
`tripleLink` returns no cluster. -/
theorem example_scenario (b1 b2 b3 : Nat) (h1 : b1 < b2) (h2 : b2 ≤ b3) :
    removeWeakVerticies (triangleWith b3 b3 b1 [3]) b3 b2 = .ok ⟨[], []⟩ ∧
    tripleLink (triangleWith b3 b3 b1 [3]) ⟨b3, b2⟩ = .ok ([], ⟨[], []⟩) := by
  have h := scenario_pruned b1 b2 b3 h1 h2
  refine ⟨h, ?_⟩
  unfold tripleLink
  simp only [h]
  simp [tripleLinkLoop, graph.getNumEdges]

/-- Witness for C9 as amended: the bands 1, 2, 3. -/
theorem example_scenario_witness :
    1 < 2 ∧ 2 ≤ 3 ∧ tripleLink (triangleWith 3 3 1 [3]) ⟨3, 2⟩ = .ok ([], ⟨[], []⟩) :=
  ⟨by decide, by decide, (example_scenario 1 2 3 (by decide) (by decide)).2⟩

/-- Counterexample to C10 as stated: two vertex-disjoint triangles whose edges all have
weight 1 (so the strongest weights are equal), clustered with cutoffs 3 and 2: the pruner
removes every vertex and `tripleLink` returns no cluster, not two. -/
theorem two_triangles_counterexample :
    TwoTriangles (twoTriangles 1) 0 1 2 3 4 5 ⟨0, 0, 1, 1⟩ ⟨1, 0, 2, 1⟩ ⟨2, 1, 2, 1⟩
      ⟨3, 3, 4, 1⟩ ⟨4, 3, 5, 1⟩ ⟨5, 4, 5, 1⟩ ∧
    tripleLink (twoTriangles 1) ⟨3, 2⟩ = .ok ([], ⟨[], []⟩) ∧
    ¬ ∃ c1 c2 g', tripleLink (twoTriangles 1) ⟨3, 2⟩ = .ok ([c1, c2], g') := by
  refine ⟨twoTriangles_shape 1, rfl, ?_⟩
  rintro ⟨c1, c2, g', h⟩
  have h2 : tripleLink (twoTriangles 1) ⟨3, 2⟩ = .ok ([], ⟨[], []⟩) := rfl
  rw [h2] at h
  cases h

/-- C10 as amended, two-triangle example: for every graph that consists of two
vertex-disjoint triangles, in every order of its vertex list, its edge list and the edge
lists of its vertexes and with either orientation of each edge, if every vertex passes the
keep test of the pruner for the cutoffs (its first edge of weight at least `high` and a
different edge of weight at least `med`), then `tripleLink` returns exactly two clusters,
and each cluster holds exactly the three identities of one triangle. -/
theorem two_triangles (g : graph) (high med : Nat) (a b c d e f : Nat)
    (e1 e2 e3 e4 e5 e6 : edge) (ht : TwoTriangles g a b c d e f e1 e2 e3 e4 e5 e6)
    (hkeep : ∀ v ∈ g.vertexes, KeepShape high med v.edges) :
    (g.namesOf [a, b, c]).length = 3 ∧ (g.namesOf [d, e, f]).length = 3 ∧
    ∃ c1 c2 g', tripleLink g ⟨high, med⟩ = .ok ([c1, c2], g') ∧
      ((c1.Perm (g.namesOf [a, b, c]) ∧ c2.Perm (g.namesOf [d, e, f])) ∨
       (c1.Perm (g.namesOf [d, e, f]) ∧ c2.Perm (g.namesOf [a, b, c]))) := by
  refine ⟨ht.first.names, ht.second.names, ?_⟩
  have hweak : ∀ v ∈ g.vertexes, isWeak high med v = false := fun v hv =>
    (isWeak_false_iff high med v).2 ⟨by rw [ht.degree hv], hkeep v hv⟩
  have hne : g.edges ≠ [] := by
    intro h
    have := ht.edges.length_eq
    rw [h] at this
    simp at this
  obtain ⟨idx, s, hidx, hge, _, _⟩ := strongestEdgeIndex_spec hne
  have hs := ht.edges.mem_iff.1 (List.getElem?_mem hge)
  have hsplit : s ∈ [e1, e2, e3] ∨ s ∈ [e4, e5, e6] := by
    simp only [List.mem_cons, List.mem_singleton, List.not_mem_nil, or_false] at hs ⊢
    tauto
  rcases hsplit with h | h
  · obtain ⟨c1, c2, g', hres, h1, h2⟩ := triangles_in_turn high med ht hweak hidx hge h
    exact ⟨c1, c2, g', hres, Or.inl ⟨h1, h2⟩⟩
  · obtain ⟨c1, c2, g', hres, h1, h2⟩ :=
      triangles_in_turn high med ht.exchange hweak hidx hge h
    exact ⟨c1, c2, g', hres, Or.inr ⟨h1, h2⟩⟩

/-- Witness for C10 as amended: the two triangles of band-3 edges with cutoffs 3 and 2. -/
theorem two_triangles_witness :
    (∀ v ∈ (twoTriangles 3).vertexes, KeepShape 3 2 v.edges) ∧
    tripleLink (twoTriangles 3) ⟨3, 2⟩ = .ok ([[4, 5, 3], [1, 2, 0]], ⟨[], []⟩) ∧
    ∃ c1 c2 g', tripleLink (twoTriangles 3) ⟨3, 2⟩ = .ok ([c1, c2], g') ∧
      ((c1.Perm ((twoTriangles 3).namesOf [0, 1, 2]) ∧
          c2.Perm ((twoTriangles 3).namesOf [3, 4, 5])) ∨
       (c1.Perm ((twoTriangles 3).namesOf [3, 4, 5]) ∧
          c2.Perm ((twoTriangles 3).namesOf [0, 1, 2]))) :=
  have hk : ∀ v ∈ (twoTriangles 3).vertexes, KeepShape 3 2 v.edges :=
    fun v hv => ((isWeak_false_iff 3 2 v).1
      ((by decide : ∀ v ∈ (twoTriangles 3).vertexes, isWeak 3 2 v = false) v hv)).2
  ⟨hk, rfl, (two_triangles (twoTriangles 3) 3 2 0 1 2 3 4 5 _ _ _ _ _ _
    (twoTriangles_shape 3) hk).2.2⟩

/-- C11, empty-input degeneracy: for every graph without edge, with any number of vertexes,
and for all cutoffs, `tripleLink` returns the empty sequence of clusters and no fault. -/
theorem tripleLink_no_edges (g : graph) (settings : config) (h : g.getNumEdges = 0) :
    ∃ g', tripleLink g settings = .ok ([], g') := by
  obtain ⟨g0, hpr, hsh, _⟩ :=
    removeWeakVerticies_spec g settings.threeSigmaAdj settings.twoSigmaAdj
  have h0 : g0.getNumEdges = 0 := by
    have := hsh.2.length_le
    simp only [graph.getNumEdges] at h ⊢
    omega
  refine ⟨g0, ?_⟩
  unfold tripleLink
  rw [hpr]
  simp only [h0]
  unfold tripleLinkLoop
  simp [h0]

/-- Witness for C11: two isolated genes, and the graph without any vertex. -/
theorem tripleLink_no_edges_witness :
    isolatedPair.getNumEdges = 0 ∧
    (∃ g', tripleLink isolatedPair ⟨3, 2⟩ = .ok ([], g')) ∧
    tripleLink ⟨[], []⟩ ⟨3, 2⟩ = .ok ([], ⟨[], []⟩) :=
  ⟨rfl, tripleLink_no_edges isolatedPair ⟨3, 2⟩ rfl, rfl⟩

/-- C12, markers do not leak: two graphs with the same vertexes, identities, edges, weights
and orders that differ at most in the markers of their vertexes give the same result of
`tripleLinkIteration`, cluster and graph left; `untouchVertex` clears all three markers;
and on a well-formed graph with an edge the seed edge is removed from a graph in which
every vertex has all three markers clear, and so has the graph right after that removal. -/
theorem markers_do_not_leak (g h : graph) (high med : Nat)
    (hv : g.vertexes.map untouchVertex = h.vertexes.map untouchVertex)
    (he : g.edges = h.edges) :
    tripleLinkIteration g high med = tripleLinkIteration h high med ∧
    (∀ v : vertex, (untouchVertex v).value.threeSigmaLink = false ∧
      (untouchVertex v).value.twoSigmaLink = false ∧
      (untouchVertex v).value.oneSigmaLink = false) ∧
    (g.WellFormed → 0 < g.getNumEdges →
      ∃ idx e g1, strongestEdgeIndex g.edges = .ok idx ∧ g.edges[idx]? = some e ∧
        graph.removeEdge { g with vertexes := g.vertexes.map untouchVertex } e = .ok g1 ∧
        ∀ v ∈ g1.vertexes, v.value.threeSigmaLink = false ∧ v.value.twoSigmaLink = false ∧
          v.value.oneSigmaLink = false) := by
  refine ⟨?_, fun v => ⟨rfl, rfl, rfl⟩, ?_⟩
  · unfold tripleLinkIteration
    rw [he, hv]
  · intro hg hne
    have hne' : g.edges ≠ [] := by
      intro h0; simp [graph.getNumEdges, h0] at hne
    obtain ⟨idx, e, hidx, hge, _, _⟩ := strongestEdgeIndex_spec hne'
    obtain ⟨g1, hrm, _⟩ := seed_removed hg (List.getElem?_mem hge)
    refine ⟨idx, e, g1, hidx, hge, hrm, ?_⟩
    intro v hv1
    rw [removeEdge_eq hrm] at hv1
    simp only [List.map_map, List.mem_map, Function.comp] at hv1
    obtain ⟨u, _, rfl⟩ := hv1
    rw [detach_value]
    exact ⟨rfl, rfl, rfl⟩

/-- Witness for C12: the band-3 triangle with and without stale markers. -/
theorem markers_do_not_leak_witness :
    evenTriangleMarked.vertexes ≠ evenTriangle.vertexes ∧
    evenTriangleMarked.vertexes.map untouchVertex = evenTriangle.vertexes.map untouchVertex ∧
    evenTriangleMarked.edges = evenTriangle.edges ∧
    tripleLinkIteration evenTriangleMarked 3 2 = tripleLinkIteration evenTriangle 3 2 :=
  ⟨by decide, rfl, rfl, (markers_do_not_leak evenTriangleMarked evenTriangle 3 2 rfl rfl).1⟩

/-- C13, marker update rule: for every marker state, every edge weight and all cutoffs, each
of the three marking functions leaves the record as it is when its admission rule is already
satisfied, and otherwise changes it exactly as the priority rule says; the priority update
changes at most one marker, clears none and keeps the identity. -/
theorem marker_update_rule (w : Nat) (v : geneData) (high med : Nat) (q : List Nat) :
    (markConnectedVertexSingle w v high med q).2.1
      = (if ruleSingle v then v else priorityUpdate w high med v) ∧
    (markConnectedVertexDouble w v high med q).2.1
      = (if ruleDouble v then v else priorityUpdate w high med v) ∧
    (markConnectedVertexTriple w v high med q).2.1
      = (if ruleTriple v then v else priorityUpdate w high med v) ∧
    markersChanged v (priorityUpdate w high med v) ≤ 1 ∧
    v.GrowsTo (priorityUpdate w high med v) := by
  obtain ⟨n, a, b, c⟩ := v
  refine ⟨?_, ?_, ?_, ?_, ?_⟩
  · by_cases h1 : high ≤ w <;> by_cases h2 : med ≤ w <;> cases a <;> cases b <;> cases c <;>
      simp [markConnectedVertexSingle, ruleSingle, priorityUpdate, h1, h2]
  · by_cases h1 : high ≤ w <;> by_cases h2 : med ≤ w <;> cases a <;> cases b <;> cases c <;>
      simp [markConnectedVertexDouble, ruleDouble, priorityUpdate, h1, h2]
  · by_cases h1 : high ≤ w <;> by_cases h2 : med ≤ w <;> cases a <;> cases b <;> cases c <;>
      simp [markConnectedVertexTriple, ruleTriple, priorityUpdate, h1, h2]
  · by_cases h1 : high ≤ w <;> by_cases h2 : med ≤ w <;> cases a <;> cases b <;> cases c <;>
      simp [markersChanged, priorityUpdate, h1, h2]
  · by_cases h1 : high ≤ w <;> by_cases h2 : med ≤ w <;> cases a <;> cases b <;> cases c <;>
      simp [geneData.GrowsTo, priorityUpdate, h1, h2]

/-- C18, safety of indexing and removal: on a well-formed graph `tripleLink` ends in no
fault; the clustering loop does not enter an iteration on a graph without edge; with an
edge the seed index is in range and the iteration ends in no fault; and every edge a live
vertex owns (the only edges the expansion passes hand to `removeEdge`) is in the graph,
is owned by both of its endpoints, leads to a live neighbour, and its removal succeeds and
leaves a well-formed graph, so that this holds again for whatever is removed next. -/
theorem tripleLink_safe (g : graph) (settings : config) (hg : g.WellFormed) :
    (∀ f, tripleLink g settings ≠ .error f) ∧
    (∀ (fuel : Nat) (g1 : graph) (acc : List (List Nat)), g1.getNumEdges = 0 →
      tripleLinkLoop settings (fuel + 1) g1 acc = .ok (acc, g1)) ∧
    (0 < g.getNumEdges →
      (∃ idx, strongestEdgeIndex g.edges = .ok idx ∧ idx < g.getNumEdges) ∧
      ∀ f, tripleLinkIteration g settings.threeSigmaAdj settings.twoSigmaAdj ≠ .error f) ∧
    (∀ (markFrom : Nat) (mf : vertex) (e : edge), g.getVertex markFrom = some mf →
      e ∈ mf.edges →
      e ∈ g.edges ∧ g.owns e.left e = true ∧ g.owns e.right e = true ∧
      (∃ toMark, g.getVertex (e.other markFrom) = some toMark) ∧
      ∀ (w : Nat) (val : geneData),
        ∃ g2, (g.setValue w val).removeEdge e = .ok g2 ∧ g2.WellFormed) := by
  refine ⟨?_, ?_, ?_, ?_⟩
  · intro f hf
    obtain ⟨cs, g', hres, _⟩ := tripleLink_spec g settings hg
    rw [hres] at hf
    cases hf
  · intro fuel g1 acc h0
    unfold tripleLinkLoop
    simp [h0]
  · intro hne
    have hne' : g.edges ≠ [] := by
      intro h0; simp [graph.getNumEdges, h0] at hne
    obtain ⟨idx, e, _, _, _, g', hidx, hge, _, _, hit, _⟩ :=
      iteration_spec settings.threeSigmaAdj settings.twoSigmaAdj hg hne'
    refine ⟨⟨idx, hidx, (List.getElem?_eq_some.1 hge).1⟩, ?_⟩
    intro f hf
    rw [hit] at hf
    cases hf
  · intro markFrom mf e hmf he
    obtain ⟨toMark, htm, _, _, heg, _⟩ := other_live hg hmf he
    obtain ⟨h1, h2⟩ := owns_both hg heg
    refine ⟨heg, h1, h2, ⟨toMark, htm⟩, ?_⟩
    intro w val
    have hrm := removeEdge_ok (hg.setValue w val) (e := e) heg
    exact ⟨_, hrm, (hg.setValue w val).removeEdge hrm⟩

/-- Witness for C18: the two triangles of band-3 edges. -/
theorem tripleLink_safe_witness :
    (twoTriangles 3).WellFormed ∧ ∀ f, tripleLink (twoTriangles 3) ⟨3, 2⟩ ≠ .error f :=
  ⟨twoTriangles_wf, (tripleLink_safe (twoTriangles 3) ⟨3, 2⟩ twoTriangles_wf).1⟩

/-- C19, graph consumed to exhaustion: on a well-formed graph, for all cutoffs, `tripleLink`
returns and leaves a graph with no edge and no vertex. -/
theorem graph_consumed (g : graph) (settings : config) (hg : g.WellFormed) :
    ∃ cs g', tripleLink g settings = .ok (cs, g') ∧ g' = ⟨[], []⟩ ∧
      g'.getNumEdges = 0 ∧ g'.getNumVertexes = 0 := by
  obtain ⟨cs, g', hres, hg', _, he, hw, _⟩ := tripleLink_spec g settings hg
  have h := no_vertex_of_no_edge hg' he hw
  refine ⟨cs, g', hres, h, ?_, ?_⟩ <;> rw [h] <;> rfl

/-- Witness for C19: the scenario graph, whose isolated gene D is dropped as well. -/
theorem graph_consumed_witness :
    scenarioGraph.WellFormed ∧
    ∃ cs g', tripleLink scenarioGraph ⟨3, 2⟩ = .ok (cs, g') ∧ g' = ⟨[], []⟩ ∧
      g'.getNumEdges = 0 ∧ g'.getNumVertexes = 0 :=
  ⟨scenarioGraph_wf, graph_consumed scenarioGraph ⟨3, 2⟩ scenarioGraph_wf⟩

/-- C14, admission monotonicity: an expansion pass of either kind from a live vertex of a
well-formed graph returns; every vertex of the graph it leaves was there before with at most
the markers it has now; and every identity the pass has enqueued belongs to a vertex that
has all markers the rule of the pass requires.  A marking function enqueues only the
identity of the record it was called on, and only if the record then satisfies the rule. -/
theorem admission_monotone (g : graph) (markFrom high med : Nat) (mf : vertex)
    (q : List Nat) (hg : g.WellFormed) (hmf : g.getVertex markFrom = some mf) :
    (∃ g' ext, markConnectedVertexesSingle markFrom high med g q = .ok (g', q ++ ext) ∧
      (∀ w u, g'.getVertex w = some u →
        ∃ v, g.getVertex w = some v ∧ v.value.GrowsTo u.value) ∧
      ∀ x ∈ ext, ∃ u ∈ g'.vertexes, u.value.nameIndex = x ∧ u.value.threeSigmaLink = true) ∧
    (∃ g' ext, markConnectedVertexesDouble markFrom high med g q = .ok (g', q ++ ext) ∧
      (∀ w u, g'.getVertex w = some u →
        ∃ v, g.getVertex w = some v ∧ v.value.GrowsTo u.value) ∧
      ∀ x ∈ ext, ∃ u ∈ g'.vertexes, u.value.nameIndex = x ∧
        u.value.threeSigmaLink = true ∧ u.value.twoSigmaLink = true) ∧
    (∃ g' ext, markConnectedVertexesTriple markFrom high med g q = .ok (g', q ++ ext) ∧
      (∀ w u, g'.getVertex w = some u →
        ∃ v, g.getVertex w = some v ∧ v.value.GrowsTo u.value) ∧
      ∀ x ∈ ext, ∃ u ∈ g'.vertexes, u.value.nameIndex = x ∧
        u.value.threeSigmaLink = true ∧ u.value.twoSigmaLink = true ∧
        u.value.oneSigmaLink = true) ∧
    (∀ (w : Nat) (v : geneData) (q1 : List Nat),
      ((markConnectedVertexSingle w v high med q1).2.2 ≠ q1 →
        (markConnectedVertexSingle w v high med q1).2.2 = q1 ++ [v.nameIndex] ∧
        ruleSingle (markConnectedVertexSingle w v high med q1).2.1 = true) ∧
      ((markConnectedVertexDouble w v high med q1).2.2 ≠ q1 →
        (markConnectedVertexDouble w v high med q1).2.2 = q1 ++ [v.nameIndex] ∧
        ruleDouble (markConnectedVertexDouble w v high med q1).2.1 = true) ∧
      ((markConnectedVertexTriple w v high med q1).2.2 ≠ q1 →
        (markConnectedVertexTriple w v high med q1).2.2 = q1 ++ [v.nameIndex] ∧
        ruleTriple (markConnectedVertexTriple w v high med q1).2.1 = true)) := by
  refine ⟨?_, ?_, ?_, ?_⟩
  · obtain ⟨g', ext, hres, _, hvg, hall⟩ :=
      pass_monotone markConnectedVertexSingle_admits high med q hg hmf
    exact ⟨g', ext, hres, hvg.1, hall⟩
  · obtain ⟨g', ext, hres, _, hvg, hall⟩ :=
      pass_monotone markConnectedVertexDouble_admits high med q hg hmf
    refine ⟨g', ext, hres, hvg.1, ?_⟩
    intro x hx
    obtain ⟨u, hu, hn, hr⟩ := hall x hx
    simp only [ruleDouble, Bool.and_eq_true] at hr
    exact ⟨u, hu, hn, hr⟩
  · obtain ⟨g', ext, hres, _, hvg, hall⟩ :=
      pass_monotone markConnectedVertexTriple_admits high med q hg hmf
    refine ⟨g', ext, hres, hvg.1, ?_⟩
    intro x hx
    obtain ⟨u, hu, hn, hr⟩ := hall x hx
    simp only [ruleTriple, Bool.and_eq_true] at hr
    exact ⟨u, hu, hn, hr.1.1, hr.1.2, hr.2⟩
  · intro w v q1
    exact ⟨mark_push_admits markConnectedVertexSingle_admits w v high med q1,
      mark_push_admits markConnectedVertexDouble_admits w v high med q1,
      mark_push_admits markConnectedVertexTriple_admits w v high med q1⟩

/-- Witness for C14: the passes from vertex A of the band-3 triangle. -/
theorem admission_monotone_witness :
    evenTriangle.WellFormed ∧
    evenTriangle.getVertex 0 = some (mkVertex 0 [⟨0, 0, 1, 3⟩, ⟨1, 0, 2, 3⟩]) ∧
    ∃ g' ext, markConnectedVertexesSingle 0 3 2 evenTriangle [] = .ok (g', [] ++ ext) ∧
      (∀ w u, g'.getVertex w = some u →
        ∃ v, evenTriangle.getVertex w = some v ∧ v.value.GrowsTo u.value) ∧
      ∀ x ∈ ext, ∃ u ∈ g'.vertexes, u.value.nameIndex = x ∧ u.value.threeSigmaLink = true :=
  ⟨evenTriangle_wf, rfl,
    (admission_monotone evenTriangle 0 3 2 _ [] evenTriangle_wf rfl).1⟩

/-- C15 (code defect), complete scan: after a removal the expansion pass resumes at index 1
of the shortened edge list, not at its first edge, so the edge that has moved to index 0 is
never examined. In the well-formed fan graph the single-admission pass from the vertex `0`
with cutoffs 3 and 2 removes the edge to `1` and ends: the edge `0`-`2` of weight 3 stays in
the graph and the vertex `2` keeps all its markers clear. In the kite graph, which pruning
leaves unchanged, the pass from the seed `A = 0` likewise leaves the edge A-D of weight 3
unexamined, and `tripleLink` returns the single cluster `[0, 1, 2]`, without the gene
`D = 3`. -/
theorem scan_skips_first_edge :
    fanGraph.WellFormed ∧
    (⟨1, 0, 2, 3⟩ : edge) ∈ fanGraph.edges ∧
    markConnectedVertexesSingle 0 3 2 fanGraph [] =
      .ok (⟨[⟨0, ⟨0, false, false, false⟩, [⟨1, 0, 2, 3⟩]⟩,
             ⟨1, ⟨1, true, false, false⟩, []⟩,
             ⟨2, ⟨2, false, false, false⟩, [⟨1, 0, 2, 3⟩]⟩], [⟨1, 0, 2, 3⟩]⟩, [1]) ∧
    kiteGraph.WellFormed ∧
    removeWeakVerticies kiteGraph 3 2 = .ok kiteGraph ∧
    (∃ g1 g2,
      graph.removeEdge { kiteGraph with vertexes := kiteGraph.vertexes.map untouchVertex }
        ⟨0, 0, 1, 4⟩ = .ok g1 ∧
      markConnectedVertexesSingle 0 3 2 g1 [] = .ok (g2, [2]) ∧
      g2.getVertex 0 = some ⟨0, ⟨0, false, false, false⟩, [⟨2, 0, 3, 3⟩]⟩ ∧
      g2.getVertex 3 =
        some ⟨3, ⟨3, false, false, false⟩, [⟨2, 0, 3, 3⟩, ⟨4, 2, 3, 3⟩]⟩) ∧
    tripleLink kiteGraph ⟨3, 2⟩ = .ok ([[0, 1, 2]], ⟨[], []⟩) :=
  ⟨⟨by decide, by decide, by decide, by decide, by decide, by decide, by decide⟩,
    by decide, rfl,
    ⟨by decide, by decide, by decide, by decide, by decide, by decide, by decide⟩,
    rfl, ⟨_, _, rfl, rfl, rfl, rfl⟩, rfl⟩

/-- C16 (code defect), corroboration by several connections: because the pass resumes at
index 1 after a removal, an edge at index 1 or later is examined again, and one edge can set
two markers of the same neighbour. The graph `revisitGraph` is well formed, has no parallel
edges and is left unchanged by pruning with cutoffs 3 and 2. After its seeds `0` and `1`
have been expanded and removed the graph is `revisitState`, in which the gene `4` has all
its markers clear and is joined to the gene `2` by the single edge of weight 3; the
double-admission pass from `2` nevertheless admits `4`, setting its high and its medium
marker from that one edge, and `tripleLink` returns the cluster `[0, 1, 2, 3, 4]`. -/
theorem one_edge_counted_twice :
    revisitGraph.WellFormed ∧ revisitGraph.NoParallelEdges ∧
    removeWeakVerticies revisitGraph 3 2 = .ok revisitGraph ∧
    (∃ g1 g2 g4,
      graph.removeEdge { revisitGraph with vertexes := revisitGraph.vertexes.map untouchVertex }
        ⟨0, 0, 1, 5⟩ = .ok g1 ∧
      markConnectedVertexesSingle 0 3 2 g1 [] = .ok (g2, [2]) ∧
      markConnectedVertexesSingle 1 3 2 (g2.removeVertex 0) [2] = .ok (g4, [2, 3]) ∧
      g4.removeVertex 1 = revisitState) ∧
    revisitState.getVertex 4 =
      some ⟨4, ⟨4, false, false, false⟩, [⟨4, 2, 4, 3⟩, ⟨6, 4, 5, 3⟩]⟩ ∧
    revisitState.edges.filter (fun e => e.incident 2 && e.incident 4) = [⟨4, 2, 4, 3⟩] ∧
    markConnectedVertexesDouble 2 3 2 revisitState [] =
      .ok (⟨[⟨2, ⟨2, true, false, false⟩, [⟨3, 2, 5, 2⟩]⟩,
             ⟨3, ⟨3, true, true, false⟩, []⟩,
             ⟨4, ⟨4, true, true, false⟩, [⟨6, 4, 5, 3⟩]⟩,
             ⟨5, ⟨5, false, true, false⟩, [⟨3, 2, 5, 2⟩, ⟨6, 4, 5, 3⟩]⟩],
            [⟨3, 2, 5, 2⟩, ⟨6, 4, 5, 3⟩]⟩, [3, 4]) ∧
    tripleLink revisitGraph ⟨3, 2⟩ = .ok ([[0, 1, 2, 3, 4]], ⟨[], []⟩) :=
  ⟨⟨by decide, by decide, by decide, by decide, by decide, by decide, by decide⟩,
    by unfold graph.NoParallelEdges; decide,
    rfl, ⟨_, _, _, rfl, rfl, rfl, rfl⟩, rfl, rfl, rfl, rfl⟩

/-- C17, enqueue once per admission: each of the three marking functions returns true
exactly if its admission rule holds after the call, and it appends the identity of the
neighbour to the queue, once, exactly if the rule did not hold before the call and holds
after it. On a well-formed graph with pairwise distinct identities and at least one edge one
iteration, run with the record of its enqueue operations, returns what `tripleLinkIteration`
returns, and no identity occurs twice among those enqueued under the single rule (the primer
queue), twice among those enqueued under the double rule, or twice among those enqueued
under the triple rule. -/
theorem enqueue_once (g : graph) (high med : Nat) (hg : g.WellFormed)
    (hd : g.DistinctIdentities) (hne : 0 < g.getNumEdges) :
    (∀ (w : Nat) (v : geneData) (h m : Nat) (q : List Nat),
      ((markConnectedVertexSingle w v h m q).1
          = ruleSingle (markConnectedVertexSingle w v h m q).2.1 ∧
        (markConnectedVertexSingle w v h m q).2.2 =
          if ruleSingle v = false ∧ ruleSingle (markConnectedVertexSingle w v h m q).2.1 = true
          then q ++ [v.nameIndex] else q) ∧
      ((markConnectedVertexDouble w v h m q).1
          = ruleDouble (markConnectedVertexDouble w v h m q).2.1 ∧
        (markConnectedVertexDouble w v h m q).2.2 =
          if ruleDouble v = false ∧ ruleDouble (markConnectedVertexDouble w v h m q).2.1 = true
          then q ++ [v.nameIndex] else q) ∧
      ((markConnectedVertexTriple w v h m q).1
          = ruleTriple (markConnectedVertexTriple w v h m q).2.1 ∧
        (markConnectedVertexTriple w v h m q).2.2 =
          if ruleTriple v = false ∧ ruleTriple (markConnectedVertexTriple w v h m q).2.1 = true
          then q ++ [v.nameIndex] else q)) ∧
    ∃ res single double triple,
      tripleLinkIterationTrace g high med = .ok (res, single, double, triple) ∧
      tripleLinkIteration g high med = .ok res ∧
      single.Nodup ∧ double.Nodup ∧ triple.Nodup :=
  ⟨fun w v h m q =>
    ⟨⟨markConnectedVertexSingle_admits.result w v h m q,
        markConnectedVertexSingle_admits.queue w v h m q⟩,
      ⟨markConnectedVertexDouble_admits.result w v h m q,
        markConnectedVertexDouble_admits.queue w v h m q⟩,
      ⟨markConnectedVertexTriple_admits.result w v h m q,
        markConnectedVertexTriple_admits.queue w v h m q⟩⟩,
    iterationTrace_spec high med hg hd (List.length_pos.1 hne)⟩

/-- Witness for C17: in the relay graph the genes 2 and 3 are enqueued under the single
rule, the gene 4 under the double rule and the gene 5 under the triple rule. -/
theorem enqueue_once_witness :
    relayGraph.WellFormed ∧ relayGraph.DistinctIdentities ∧ 0 < relayGraph.getNumEdges ∧
    tripleLinkIterationTrace relayGraph 3 2
      = .ok (([0, 1, 2, 3, 4, 5], ⟨[], []⟩), [2, 3], [4], [5]) ∧
    ∃ res single double triple,
      tripleLinkIterationTrace relayGraph 3 2 = .ok (res, single, double, triple) ∧
      tripleLinkIteration relayGraph 3 2 = .ok res ∧
      single.Nodup ∧ double.Nodup ∧ triple.Nodup :=
  ⟨relayGraph_wf, by decide, by decide, rfl,
    (enqueue_once relayGraph 3 2 relayGraph_wf (by decide) (by decide)).2⟩

/-- C20, high-edge connectivity of a cluster: on a well-formed graph with at least one edge
an iteration returns a cluster in which every identity at a position `i ≥ 2` is held by a
vertex `a` of the graph at the start of the iteration that an edge of that graph of weight
at least `high` joins to a vertex `b` whose identity stands before position `i` in the same
cluster. -/
theorem cluster_high_linked (g : graph) (high med : Nat) (hg : g.WellFormed)
    (hne : 0 < g.getNumEdges) :
    ∃ cluster g', tripleLinkIteration g high med = .ok (cluster, g') ∧
      ∀ (i x : Nat), 2 ≤ i → cluster[i]? = some x →
        ∃ e ∈ g.edges, ∃ a b y, high ≤ e.weight ∧ (a, x) ∈ g.keys ∧ (b, y) ∈ g.keys ∧
          y ∈ cluster.take i ∧
          ((e.left = a ∧ e.right = b) ∨ (e.left = b ∧ e.right = a)) := by
  obtain ⟨cluster, g', hres, hc⟩ := iteration_linked high med hg (List.length_pos.1 hne)
  exact ⟨cluster, g', hres, hc⟩

/-- Witness for C20: the relay graph, whose iteration returns a cluster of six genes. -/
theorem cluster_high_linked_witness :
    relayGraph.WellFormed ∧ 0 < relayGraph.getNumEdges ∧
    tripleLinkIteration relayGraph 3 2 = .ok ([0, 1, 2, 3, 4, 5], ⟨[], []⟩) ∧
    ∃ cluster g', tripleLinkIteration relayGraph 3 2 = .ok (cluster, g') ∧
      ∀ (i x : Nat), 2 ≤ i → cluster[i]? = some x →
        ∃ e ∈ relayGraph.edges, ∃ a b y, 3 ≤ e.weight ∧ (a, x) ∈ relayGraph.keys ∧
          (b, y) ∈ relayGraph.keys ∧ y ∈ cluster.take i ∧
          ((e.left = a ∧ e.right = b) ∨ (e.left = b ∧ e.right = a)) :=
  ⟨relayGraph_wf, by decide, rfl,
    cluster_high_linked relayGraph 3 2 relayGraph_wf (by decide)⟩

/-- C21, keep test of the pruner as coded: for cutoffs with `med ≤ high` and every vertex,
the inner scan of `removeWeakVerticies` ends with `highFound` and `medFound` both true
exactly if two different positions of the vertex's edge list hold an edge of weight at least
`high` and an edge of weight at least `med`; when the list holds no edge twice, exactly if
the vertex has two different edges of these weights.  The vertex is kept exactly if its
degree is at least 2 and the scan ends so, and the scan's verdict and the decision are the
same for every vertex whose edge list is a reordering of this one. -/
theorem keep_test (high med : Nat) (hmh : med ≤ high) (v : vertex) :
    (weakScan high med v.edges false false = (true, true) ↔
      ∃ (i j : Nat) (ei ej : edge), i ≠ j ∧ v.edges[i]? = some ei ∧ v.edges[j]? = some ej ∧
        high ≤ ei.weight ∧ med ≤ ej.weight) ∧
    (v.edges.Nodup →
      (weakScan high med v.edges false false = (true, true) ↔
        ∃ e ∈ v.edges, ∃ f ∈ v.edges, e ≠ f ∧ high ≤ e.weight ∧ med ≤ f.weight)) ∧
    (isWeak high med v = false ↔
      2 ≤ v.getNumEdges ∧ weakScan high med v.edges false false = (true, true)) ∧
    (∀ u : vertex, u.edges.Perm v.edges →
      (weakScan high med u.edges false false = (true, true) ↔
        weakScan high med v.edges false false = (true, true)) ∧
      isWeak high med u = isWeak high med v) := by
  have hpos := (weakScan_iff_keepShape high med v.edges).trans (keepShape_iff_two hmh v.edges)
  refine ⟨hpos, ?_, ?_, ?_⟩
  · intro hnd
    rw [hpos]
    constructor
    · rintro ⟨i, j, ei, ej, hne, hi, hj, hhigh, hmed⟩
      refine ⟨ei, List.getElem?_mem hi, ej, List.getElem?_mem hj, ?_, hhigh, hmed⟩
      intro heq
      obtain ⟨hil, hie⟩ := List.getElem?_eq_some.1 hi
      obtain ⟨hjl, hje⟩ := List.getElem?_eq_some.1 hj
      exact hne ((hnd.getElem_inj_iff).1 (by rw [hie, hje, heq]))
    · rintro ⟨e, he, f, hf, hne, hhigh, hmed⟩
      obtain ⟨i, hi⟩ := List.mem_iff_getElem?.1 he
      obtain ⟨j, hj⟩ := List.mem_iff_getElem?.1 hf
      refine ⟨i, j, e, f, ?_, hi, hj, hhigh, hmed⟩
      intro hij
      rw [hij, hj] at hi
      exact hne (Option.some.inj hi).symm
  · rw [isWeak_false_iff, weakScan_iff_keepShape]
  · intro u hu
    exact ⟨weakScan_perm hmh hu, isWeak_perm hmh hu⟩

/-- Witness for C21: a vertex with two edges of weight 3 under the cutoffs 3 and 2. -/
theorem keep_test_witness :
    2 ≤ 3 ∧
    weakScan 3 2 (mkVertex 0 [⟨0, 0, 1, 3⟩, ⟨1, 0, 2, 3⟩]).edges false false = (true, true) ∧
    (weakScan 3 2 (mkVertex 0 [⟨0, 0, 1, 3⟩, ⟨1, 0, 2, 3⟩]).edges false false = (true, true) ↔
      ∃ (i j : Nat) (ei ej : edge), i ≠ j ∧
        (mkVertex 0 [⟨0, 0, 1, 3⟩, ⟨1, 0, 2, 3⟩]).edges[i]? = some ei ∧
        (mkVertex 0 [⟨0, 0, 1, 3⟩, ⟨1, 0, 2, 3⟩]).edges[j]? = some ej ∧
        3 ≤ ei.weight ∧ 2 ≤ ej.weight) :=
  ⟨by decide, by decide,
    (keep_test 3 2 (by decide) (mkVertex 0 [⟨0, 0, 1, 3⟩, ⟨1, 0, 2, 3⟩])).1⟩

end TripleLink
